import Mathlib

/-!
Verification of the parallel BVH radix-tree construction pipeline in
`src/axom/spin/internal/linear_bvh/build_radix_tree.hpp`.

Embedding conventions:
* `int32` values are modelled as `ℤ` (no wraparound: all verified inputs keep
  arithmetic far below 2^31), `uint32` as `ℕ` with explicit `< 2^32` bounds.
* `FloatType` coordinates are modelled as `ℚ`; the operations the pipeline
  performs on them (min, max, comparisons, multiplication by powers of two)
  are exact in IEEE arithmetic, so `ℚ` is faithful for the claims considered.
* `ArrayView` indexing is modelled by total functions `ℤ → α` updated with
  `Function.update`; a parallel `for_all` is modelled by its sequential
  elaboration (the `SEQ_EXEC` execution-space instance of the same template),
  folding the loop body over ascending indices.
* `while` loops are modelled by fuel-indexed structural recursion returning
  `Option`; `none` models non-termination within the given fuel.
-/

namespace SpinBvh

/-! ### Bit-length: an executable stand-in for the base-2 length of a natural -/

/-- Fuel-indexed bit length: number of binary digits of `x` (0 for 0). -/
def bitlenAux : ℕ → ℕ → ℕ
  | 0, _ => 0
  | f + 1, x => if x = 0 then 0 else bitlenAux f (x / 2) + 1

/-- Bit length of a natural number: `bitlen x = k` iff `2^(k-1) ≤ x < 2^k` (and 0 for 0). -/
def bitlen (x : ℕ) : ℕ := bitlenAux x x

theorem bitlenAux_le_iff : ∀ (f x k : ℕ), x ≤ f → (bitlenAux f x ≤ k ↔ x < 2 ^ k) := by
  intro f
  induction f with
  | zero =>
    intro x k hx
    interval_cases x
    have : 0 < 2 ^ k := by positivity
    simp [bitlenAux, this]
  | succ f ih =>
    intro x k hx
    by_cases h0 : x = 0
    · subst h0
      have : 0 < 2 ^ k := by positivity
      simp [bitlenAux, this]
    · have hdiv : x / 2 ≤ f := by
        have : x / 2 < x := Nat.div_lt_self (Nat.pos_of_ne_zero h0) (by norm_num)
        omega
      cases k with
      | zero =>
        simp only [bitlenAux, h0, if_false, pow_zero]
        omega
      | succ k =>
        have hiff := ih (x / 2) k hdiv
        simp only [bitlenAux, h0, if_false]
        have hpow : (2 : ℕ) ^ (k + 1) = 2 ^ k * 2 := by ring
        constructor
        · intro hle
          have hx2 : x / 2 < 2 ^ k := hiff.1 (by omega)
          have hlt : x < 2 ^ k * 2 := (Nat.div_lt_iff_lt_mul (by norm_num)).1 hx2
          omega
        · intro hlt
          have hx2 : x / 2 < 2 ^ k := by
            apply (Nat.div_lt_iff_lt_mul (by norm_num)).2
            omega
          have := hiff.2 hx2
          omega

theorem bitlen_le_iff {x k : ℕ} : bitlen x ≤ k ↔ x < 2 ^ k :=
  bitlenAux_le_iff x x k le_rfl

theorem bitlen_zero : bitlen 0 = 0 := rfl

theorem lt_bitlen_iff {x k : ℕ} : k < bitlen x ↔ 2 ^ k ≤ x := by
  rw [← not_iff_not]
  push_neg
  exact bitlen_le_iff

theorem bitlen_lt_of_lt {x y : ℕ} (h : x < y) : bitlen x ≤ bitlen y ∨ bitlen x = bitlen y := by
  by_cases hxy : bitlen x ≤ bitlen y
  · exact Or.inl hxy
  · exfalso
    push_neg at hxy
    have h1 : 2 ^ bitlen y ≤ x := lt_bitlen_iff.1 hxy
    have h2 : y < 2 ^ bitlen y := bitlen_le_iff.1 le_rfl
    omega

theorem bitlen_mono {x y : ℕ} (h : x ≤ y) : bitlen x ≤ bitlen y := by
  by_contra hxy
  push_neg at hxy
  have h1 : 2 ^ bitlen y ≤ x := lt_bitlen_iff.1 hxy
  have h2 : y < 2 ^ bitlen y := bitlen_le_iff.1 le_rfl
  omega

theorem bitlen_eq_zero_iff {x : ℕ} : bitlen x = 0 ↔ x = 0 := by
  constructor
  · intro h
    have : x < 2 ^ 0 := bitlen_le_iff.1 h.le
    simpa using this
  · rintro rfl; rfl

theorem bitlen_pos_iff {x : ℕ} : 0 < bitlen x ↔ 0 < x := by
  rw [Nat.pos_iff_ne_zero, Nat.pos_iff_ne_zero, not_iff_not]
  exact bitlen_eq_zero_iff

/-- Agreement of the high bits above position `k` is equivalent to the XOR
being bounded by `2^k`. -/
theorem xor_lt_two_pow_iff_div_eq {x y k : ℕ} : x ^^^ y < 2 ^ k ↔ x / 2 ^ k = y / 2 ^ k := by
  constructor
  · intro h
    have hsh : (x ^^^ y) >>> k = 0 := by
      rw [Nat.shiftRight_eq_div_pow]
      exact Nat.div_eq_of_lt h
    have hdist : (x >>> k) ^^^ (y >>> k) = 0 := by
      apply Nat.eq_of_testBit_eq
      intro i
      rw [Nat.testBit_xor, Nat.testBit_shiftRight, Nat.testBit_shiftRight, ← Nat.testBit_xor,
        ← Nat.testBit_shiftRight (x ^^^ y), hsh, Nat.zero_testBit]
    have := Nat.xor_eq_zero.1 hdist
    rwa [Nat.shiftRight_eq_div_pow, Nat.shiftRight_eq_div_pow] at this
  · intro h
    have hdist : (x ^^^ y) >>> k = 0 := by
      apply Nat.eq_of_testBit_eq
      intro i
      rw [Nat.testBit_shiftRight, Nat.testBit_xor, Nat.zero_testBit]
      have hx : x.testBit (k + i) = (x / 2 ^ k).testBit i := by
        rw [← Nat.testBit_shiftRight, Nat.shiftRight_eq_div_pow]
      have hy : y.testBit (k + i) = (y / 2 ^ k).testBit i := by
        rw [← Nat.testBit_shiftRight, Nat.shiftRight_eq_div_pow]
      rw [hx, hy, h]
      simp
    rw [Nat.shiftRight_eq_div_pow] at hdist
    have := Nat.div_eq_zero_iff (by positivity : 0 < 2 ^ k) |>.1 hdist
    exact this

theorem bitlen_xor_le_iff {x y k : ℕ} : bitlen (x ^^^ y) ≤ k ↔ x / 2 ^ k = y / 2 ^ k := by
  rw [bitlen_le_iff]
  exact xor_lt_two_pow_iff_div_eq

/-! ### Bounding boxes

Modelled from the spec: `primal::BoundingBox` / `primal::Point` belong to the
geometric-primitive collaborator (out of scope in the spec, §6), and
`BoundingBox.hpp` is not under src/.  The spec gives their contract: a box is a
pair of min/max corners, an invalid sentinel box `(+limit, -limit)` exists and
absorbs into any union, `addBox` is the componentwise min/max union, the
centroid is the midpoint, and `scale` rescales the box about its centroid. -/

structure Box (dim : ℕ) where
  lo : Fin dim → ℚ
  hi : Fin dim → ℚ
  deriving DecidableEq

/-- Model of `std::numeric_limits<FloatType>::max()` (sentinel magnitude). -/
def fltMax : ℚ := 2 ^ 128

/-- Model of a default-constructed (invalid/empty) `primal::BoundingBox`. -/
def invalidBox (dim : ℕ) : Box dim := ⟨fun _ => fltMax, fun _ => -fltMax⟩

/-- `BoundingBox::addBox`: componentwise min/max union. -/
def addBox {dim : ℕ} (b o : Box dim) : Box dim :=
  ⟨fun i => min (b.lo i) (o.lo i), fun i => max (b.hi i) (o.hi i)⟩

/-- `BoundingBox::getCentroid`: the midpoint of the two corners. -/
def centroid {dim : ℕ} (b : Box dim) : Fin dim → ℚ :=
  fun i => (b.lo i + b.hi i) / 2

/-- `BoundingBox::scale`: rescale the box about its centroid. -/
def scaleBox {dim : ℕ} (c : ℚ) (b : Box dim) : Box dim :=
  ⟨fun i => centroid b i + (b.lo i - centroid b i) * c,
   fun i => centroid b i + (b.hi i - centroid b i) * c⟩

/-! ### Morton encoding (`morton32_encode`, `get_mcodes`) -/

/-- Modelled from the spec: `convertPointToMorton` (MortonIndex.hpp is not in
src/).  The spec (§4.1) defines the encoding: interleave the per-dimension
integer bits, `bits_per_dim = 32/D`, so bit `b` of dimension `d` lands at
position `b*D + d` of the code. -/
def convertPointToMorton (dim : ℕ) (coords : Fin dim → ℕ) : ℕ :=
  ∑ d : Fin dim, ∑ b ∈ Finset.range (32 / dim),
    (if (coords d).testBit b then 2 ^ (b * dim + d.val) else 0)

/-- `morton32_encode`: clamp each coordinate of the (normalized) point into
`[0, 2^(32/D) - 1]`, truncate to an integer, and interleave.  The float
`fmin/fmax` and the float-to-int cast (truncation of a nonnegative value) are
exact operations, modelled on `ℚ`. -/
def morton32_encode (dim : ℕ) (point : Fin dim → ℚ) : ℕ :=
  let NUM_BITS_PER_DIM : ℕ := 32 / dim
  let FLOAT_TO_INT : ℚ := 2 ^ NUM_BITS_PER_DIM
  let FLOAT_CEILING : ℚ := FLOAT_TO_INT - 1
  let int_coords : Fin dim → ℕ :=
    fun i => (Int.floor (min (max (point i * FLOAT_TO_INT) 0) FLOAT_CEILING)).toNat
  convertPointToMorton dim int_coords

/-- Modelled from the spec: `axom::utilities::isNearlyEqual` (Utilities.hpp is
not in src/): near-equality up to the default threshold `1e-8`. -/
def isNearlyEqual (x y : ℚ) : Prop := |x - y| ≤ 1 / 100000000

instance (x y : ℚ) : Decidable (isNearlyEqual x y) := by
  unfold isNearlyEqual; infer_instance

/-- `get_mcodes`: per-dimension inverse extent of the global bounds (zero when
the extent is nearly zero), then encode each box's normalized centroid.
Writes `mcodes[i]` for `i ∈ [0, size)`; other slots keep the old contents. -/
def get_mcodes (dim : ℕ) (aabbs : ℤ → Box dim) (size : ℤ) (bounds : Box dim)
    (mcodes0 : ℤ → ℕ) : ℤ → ℕ :=
  let extent : Fin dim → ℚ := fun d => bounds.hi d - bounds.lo d
  let min_coord : Fin dim → ℚ := fun d => bounds.lo d
  let inv_extent : Fin dim → ℚ :=
    fun d => if isNearlyEqual (extent d) 0 then 0 else 1 / extent d
  fun i =>
    if 0 ≤ i ∧ i < size then
      morton32_encode dim (fun d => (centroid (aabbs i) d - min_coord d) * inv_extent d)
    else mcodes0 i

/-! ### `transform_boxes`, `reduce`, `reorder`, `sort_mcodes` -/

/-- `transform_boxes`: copy each input box, scaled, into the tree's leaf-box
storage (slots `[0, size)`); the input array is only read. -/
def transform_boxes (dim : ℕ) (boxes : ℤ → Box dim) (aabbs0 : ℤ → Box dim)
    (size : ℤ) (scale_factor : ℚ) : ℤ → Box dim :=
  fun i => if 0 ≤ i ∧ i < size then scaleBox scale_factor (boxes i) else aabbs0 i

/-- `reduce` (sequential `SEQ_EXEC` path): fold `addBox` over all boxes
starting from the default (invalid) box. -/
def reduce (dim : ℕ) (aabbs : ℤ → Box dim) (size : ℤ) : Box dim :=
  List.foldl (fun acc i => addBox acc (aabbs i)) (invalidBox dim)
    ((List.range size.toNat).map Int.ofNat)

/-- `reorder`: gather `array` through `indices` into a fresh array of length
`size` (slots outside `[0, size)` are never accessed afterwards). -/
def reorder {T : Type} (indices : ℤ → ℤ) (array : ℤ → T) (size : ℤ) : ℤ → T :=
  fun i => if 0 ≤ i ∧ i < size then array (indices i) else array i

/-- The comparison under which the sorted index permutation is produced:
`std::stable_sort` over `iter = [0..n)` with comparator
`mcodes[i1] < mcodes[i2]`.  A stable sort under that comparator produces the
unique permutation ordered by the lexicographic key (code, original index),
which is how it is modelled here (via the stable `List.mergeSort`). -/
def mortonLe (mcodes : ℤ → ℕ) (i j : ℕ) : Bool :=
  decide (mcodes i < mcodes j ∨ (mcodes i = mcodes j ∧ i ≤ j))

/-- The sorted index permutation as a list: position `p` holds the original
index of the `p`-th smallest morton code. -/
def sortIter (n : ℕ) (mcodes : ℤ → ℕ) : List ℕ :=
  (List.range n).mergeSort (mortonLe mcodes)

/-- `sort_mcodes` (the `std::stable_sort` fallback path): fill `iter` with
`0..n-1` (`array_counting`), stable-sort it by code, then reorder the code
array itself through the permutation.  Returns (new codes, new iter). -/
def sort_mcodes (n : ℤ) (mcodes0 : ℤ → ℕ) (iter0 : ℤ → ℤ) : (ℤ → ℕ) × (ℤ → ℤ) :=
  let lst := sortIter n.toNat mcodes0
  let iter : ℤ → ℤ := fun p => if 0 ≤ p ∧ p < n then (lst.getD p.toNat 0 : ℕ) else iter0 p
  let mc : ℤ → ℕ := fun p => if 0 ≤ p ∧ p < n then mcodes0 (iter p) else mcodes0 p
  (mc, iter)

/-! ### The `delta` common-prefix metric -/

/-- Modelled from the spec: `axom::utilities::leadingZeros` (BitUtilities.hpp
is not in src/): the number of leading zero bits of a 32-bit word (32 for 0). -/
def leadingZeros (x : ℕ) : ℤ := 32 - bitlen x

/-- `delta(a, b, inner_size, mcodes)`: the tie-broken common-prefix metric.
Returns `-1` when `b` is out of `[0, inner_size]`; otherwise the number of
leading zero bits of `mcodes[a] XOR mcodes[b]`, falling back to
`32 + leadingZeros(a XOR b)` when the two codes are identical.  The
`uint32` casts of the nonnegative positions are their numeric values. -/
def delta (a b inner_size : ℤ) (mcodes : ℤ → ℕ) : ℤ :=
  -- out_of_range = (b < 0 || b > inner_size); tie = (exor0 == 0)
  let bb : ℤ := if b < 0 ∨ b > inner_size then 0 else b
  let acode : ℕ := mcodes a
  let bcode : ℕ := mcodes bb
  let exor0 : ℕ := acode ^^^ bcode
  let exor : ℕ := if exor0 = 0 then a.toNat ^^^ bb.toNat else exor0
  let count : ℤ := leadingZeros exor
  let count2 : ℤ := if exor0 = 0 then count + 32 else count
  if b < 0 ∨ b > inner_size then -1 else count2

/-! ### `build_tree`

The loop bodies of `build_tree` run on `int32` values, and the split-point
search divides through `float32`.  The definitions carrying the source names
(`build_tree`, `buildNode`, `nodeLmax`, ...) model that arithmetic exactly:
`w32` is the `int32` two-complement wraparound applied to the additions and
multiplications the source performs on `int32`, and `f32round` is the
round-to-nearest-even conversion `float32(l)`.  Alongside them, the `...E`
definitions (`build_treeE`, `buildNodeE`, with loops `lmaxLoopF`,
`blSearchF`, `splitLoopF`) are exact-arithmetic reference versions over
unbounded ℤ; the bridge theorems (`build_tree_eq` and friends) prove the
source-accurate definitions equal to the reference on the domain
`n ≤ 2^24 + 1`, where the `float32` conversion of every range length is
exact and no `int32` operation in the loops can wrap.  Outside that domain
the two genuinely diverge: see the counterexamples at `n = 2^30 + 2`, where
the doubling loop wraps `lmax` to `-2^31` and the split-point loop then
never terminates. -/

/-- Two-complement wraparound to a signed 32-bit value: what an `int32`
arithmetic operation actually stores. -/
def w32 (x : ℤ) : ℤ := (x + 2 ^ 31) % 2 ^ 32 - 2 ^ 31

/-- The exact integer value of the conversion `float32(l)` for nonnegative
`l` (the only values the source converts): integers up to `2^24` are exactly
representable; a longer value keeps its top 24 bits and rounds the dropped
remainder to nearest, ties to the even quotient. -/
def f32round (l : ℤ) : ℤ :=
  let m := l.toNat
  if m ≤ 2 ^ 24 then l
  else
    let s := bitlen m - 24
    let q := m / 2 ^ s
    let r := m % 2 ^ s
    (((if r < 2 ^ (s - 1) then q
        else if 2 ^ (s - 1) < r then q + 1
        else if q % 2 = 0 then q else q + 1) * 2 ^ s : ℕ) : ℤ)

/-- Exact-arithmetic reference for the doubling loop of `build_tree`:
`while (delta(i, i + lmax*d) > min_delta) lmax *= 2` over unbounded ℤ,
with fuel. -/
def lmaxLoopF (i d min_delta inner : ℤ) (mcodes : ℤ → ℕ) : ℕ → ℤ → Option ℤ
  | 0, _ => none
  | f + 1, lmax =>
    if delta i (i + lmax * d) inner mcodes > min_delta then
      lmaxLoopF i d min_delta inner mcodes f (2 * lmax)
    else some lmax

/-- The doubling loop of `build_tree` as the source computes it:
`while (delta(i, i + lmax*d) > min_delta) lmax *= 2`, all operations on
`int32` (wrapping via `w32`), with fuel. -/
def lmaxLoop (i d min_delta inner : ℤ) (mcodes : ℤ → ℕ) : ℕ → ℤ → Option ℤ
  | 0, _ => none
  | f + 1, lmax =>
    if delta i (w32 (i + w32 (lmax * d))) inner mcodes > min_delta then
      lmaxLoop i d min_delta inner mcodes f (w32 (2 * lmax))
    else some lmax

/-- Exact-arithmetic reference for the halving binary search of `build_tree`:
`for (t = lmax/2; t >= 1; t /= 2) if (delta(i, i+(l+t)*d) > min_delta) l += t`
over unbounded values.  The fuel always suffices for `fuel > log2 t`, and the
loop is total in the source, so the fuel-exhausted branch returns the
accumulator unchanged. -/
def blSearchF (i d min_delta inner : ℤ) (mcodes : ℤ → ℕ) : ℕ → ℕ → ℤ → ℤ
  | 0, _, l => l
  | f + 1, t, l =>
    if t = 0 then l
    else
      blSearchF i d min_delta inner mcodes f (t / 2)
        (if delta i (i + (l + (t : ℤ)) * d) inner mcodes > min_delta then l + (t : ℤ) else l)

/-- The halving binary search of `build_tree` as the source computes it:
`for (t = lmax/2; t >= 1; t /= 2) if (delta(i, i+(l+t)*d) > min_delta) l += t`
on `int32` values — a nonpositive initial `t` (possible after the doubling
loop wraps) runs zero iterations; `t` is divided only while `t ≥ 1`, where
the C truncating division agrees with `ℤ` division. -/
def blSearch (i d min_delta inner : ℤ) (mcodes : ℤ → ℕ) : ℕ → ℤ → ℤ → ℤ
  | 0, _, l => l
  | f + 1, t, l =>
    if t < 1 then l
    else
      blSearch i d min_delta inner mcodes f (t / 2)
        (if delta i (w32 (i + w32 (w32 (l + t) * d))) inner mcodes > min_delta
         then w32 (l + t) else l)

/-- The exact ceiling `ceil(l / 2^(k+1))` over naturals: the value of
`(int32)ceil(float32(l) / div_factor)` at pass `k` (where
`div_factor = 2^(k+1)`) once `l` is the already-rounded `float32` integer —
division of a represented integer by a power of two and the ceiling of the
result are exact float operations. -/
def ceilPow (l : ℕ) (k : ℕ) : ℕ := (l + (2 ^ (k + 1) - 1)) / 2 ^ (k + 1)

/-- Exact-arithmetic reference for the split-point search of `build_tree`:
each pass computes the exact `t = ceil(l / div_factor)` with
`div_factor = 2^(k+1)`, advances `s` by `t` when
`delta(i, i+(s+t)*d) > delta_node`, and stops after the pass with `t == 1`
(never stopping — fuel exhaustion — when `l = 0`). -/
def splitLoopF (i d delta_node inner : ℤ) (mcodes : ℤ → ℕ) (l : ℕ) :
    ℕ → ℕ → ℤ → Option ℤ
  | 0, _, _ => none
  | f + 1, k, s =>
    let t : ℕ := ceilPow l k
    let s2 : ℤ :=
      if delta i (i + (s + (t : ℤ)) * d) inner mcodes > delta_node then s + (t : ℤ) else s
    if t = 1 then some s2 else splitLoopF i d delta_node inner mcodes l f (k + 1) s2

/-- The split-point search of `build_tree` as the source computes it: each
pass computes `t = (int32)ceil(float32(l) / div_factor)` — the conversion
`float32(l)` is loop-invariant, so the caller passes `lf = f32round l` and
each pass computes the exact `t = ceilPow lf k` — advances `s` by `t`
(`int32` additions wrapping) when `delta(i, i+(s+t)*d) > delta_node`, and
stops after the pass with `t == 1` (never stopping — fuel exhaustion — when
`t` stays `0`, i.e. `lf = 0`). -/
def splitLoop (i d delta_node inner : ℤ) (mcodes : ℤ → ℕ) (lf : ℕ) :
    ℕ → ℕ → ℤ → Option ℤ
  | 0, _, _ => none
  | f + 1, k, s =>
    let t : ℕ := ceilPow lf k
    let s2 : ℤ :=
      if delta i (w32 (i + w32 (w32 (s + (t : ℤ)) * d))) inner mcodes > delta_node
      then w32 (s + (t : ℤ)) else s
    if t = 1 then some s2 else splitLoop i d delta_node inner mcodes lf f (k + 1) s2

/-- The intermediate values computed by one `build_tree` loop body. -/
structure BN where
  d : ℤ
  min_delta : ℤ
  lmax : ℤ
  l : ℤ
  j : ℤ
  delta_node : ℤ
  s : ℤ
  split : ℤ
  lc : ℤ
  rc : ℤ
  deriving Repr, DecidableEq

/-- `build_tree` loop body, step 1: the range direction
`d = (0 > delta(i, i+1) - delta(i, i-1)) ? -1 : 1`.  The probes `i ± 1`
cannot wrap for any `int32` index `i` of an internal node. -/
def nodeD (n : ℤ) (mcodes : ℤ → ℕ) (i : ℤ) : ℤ :=
  if delta i (i + 1) (n - 1) mcodes - delta i (i - 1) (n - 1) mcodes < 0 then -1 else 1

/-- `build_tree` loop body, step 2: `min_delta = delta(i, i - d)`. -/
def nodeMd (n : ℤ) (mcodes : ℤ → ℕ) (i : ℤ) : ℤ :=
  delta i (i - nodeD n mcodes i) (n - 1) mcodes

/-- Reference (exact-arithmetic) doubling loop result, starting at
`lmax = 2`. -/
def nodeLmaxE (n : ℤ) (mcodes : ℤ → ℕ) (i : ℤ) : Option ℤ :=
  lmaxLoopF i (nodeD n mcodes i) (nodeMd n mcodes i) (n - 1) mcodes (n.toNat + 2) 2

/-- `build_tree` loop body, step 3: the `int32` doubling loop starting at
`lmax = 2`. -/
def nodeLmax (n : ℤ) (mcodes : ℤ → ℕ) (i : ℤ) : Option ℤ :=
  lmaxLoop i (nodeD n mcodes i) (nodeMd n mcodes i) (n - 1) mcodes (n.toNat + 2) 2

/-- Reference (exact-arithmetic) binary search for the range length `l`. -/
def nodeLE (n : ℤ) (mcodes : ℤ → ℕ) (i lmax : ℤ) : ℤ :=
  blSearchF i (nodeD n mcodes i) (nodeMd n mcodes i) (n - 1) mcodes
    ((lmax / 2).toNat + 1) (lmax / 2).toNat 0

/-- `build_tree` loop body, step 4: the binary search refining `l`, starting
from `l = 0` with step `t = lmax / 2` (C truncating division of the `int32`
`lmax`). -/
def nodeL (n : ℤ) (mcodes : ℤ → ℕ) (i lmax : ℤ) : ℤ :=
  blSearch i (nodeD n mcodes i) (nodeMd n mcodes i) (n - 1) mcodes
    ((lmax / 2).toNat + 1) (Int.tdiv lmax 2) 0

/-- Reference far end `j = i + l * d`. -/
def nodeJE (n : ℤ) (mcodes : ℤ → ℕ) (i lmax : ℤ) : ℤ :=
  i + nodeLE n mcodes i lmax * nodeD n mcodes i

/-- `build_tree` loop body: the far end `j = i + l * d` on `int32`. -/
def nodeJ (n : ℤ) (mcodes : ℤ → ℕ) (i lmax : ℤ) : ℤ :=
  w32 (i + w32 (nodeL n mcodes i lmax * nodeD n mcodes i))

/-- Reference `delta_node = delta(i, j)`. -/
def nodeDnE (n : ℤ) (mcodes : ℤ → ℕ) (i lmax : ℤ) : ℤ :=
  delta i (nodeJE n mcodes i lmax) (n - 1) mcodes

/-- `build_tree` loop body: `delta_node = delta(i, j)`. -/
def nodeDn (n : ℤ) (mcodes : ℤ → ℕ) (i lmax : ℤ) : ℤ :=
  delta i (nodeJ n mcodes i lmax) (n - 1) mcodes

/-- Reference (exact-arithmetic) split-point search from `s = 0`. -/
def nodeSE (n : ℤ) (mcodes : ℤ → ℕ) (i lmax : ℤ) : Option ℤ :=
  splitLoopF i (nodeD n mcodes i) (nodeDnE n mcodes i lmax) (n - 1) mcodes
    (nodeLE n mcodes i lmax).toNat ((nodeLE n mcodes i lmax).toNat + 2) 0 0

/-- `build_tree` loop body, step 5: the split-point search from `s = 0`,
`div_factor = 2`, dividing the `float32` conversion of `l`. -/
def nodeS (n : ℤ) (mcodes : ℤ → ℕ) (i lmax : ℤ) : Option ℤ :=
  splitLoop i (nodeD n mcodes i) (nodeDn n mcodes i lmax) (n - 1) mcodes
    (f32round (nodeL n mcodes i lmax)).toNat ((nodeL n mcodes i lmax).toNat + 2) 0 0

/-- Reference (exact-arithmetic) per-node computation: the loops over
unbounded ℤ, children from the exact split. -/
def buildNodeE (n : ℤ) (mcodes : ℤ → ℕ) (i : ℤ) : Option BN :=
  match nodeLmaxE n mcodes i with
  | none => none
  | some lmax =>
    match nodeSE n mcodes i lmax with
    | none => none
    | some s =>
      let d : ℤ := nodeD n mcodes i
      let j : ℤ := nodeJE n mcodes i lmax
      let split : ℤ := i + s * d + min d 0
      let lc : ℤ := if min i j = split then split + (n - 1) else split
      let rc : ℤ := if max i j = split + 1 then split + 1 + (n - 1) else split + 1
      some ⟨d, nodeMd n mcodes i, lmax, nodeLE n mcodes i lmax, j,
        nodeDnE n mcodes i lmax, s, split, lc, rc⟩

/-- The per-internal-node computation of the `build_tree` lambda at index `i`
(everything before the parent/child stores): direction, doubling search,
binary search for the range length, split-point search, split and child
indices, all on `int32` arithmetic (`w32` wraps each add/multiply;
`split = i + s*d + min(d, 0)`, leaf children offset by `inner_size`).
`none` models non-termination of a `while` loop within the fuel. -/
def buildNode (n : ℤ) (mcodes : ℤ → ℕ) (i : ℤ) : Option BN :=
  match nodeLmax n mcodes i with
  | none => none
  | some lmax =>
    match nodeS n mcodes i lmax with
    | none => none
    | some s =>
      let d : ℤ := nodeD n mcodes i
      let j : ℤ := nodeJ n mcodes i lmax
      let split : ℤ := w32 (w32 (i + w32 (s * d)) + min d 0)
      let lc : ℤ := if min i j = split then w32 (split + (n - 1)) else split
      let rc : ℤ := if max i j = w32 (split + 1) then w32 (w32 (split + (n - 1)) + 1)
        else w32 (split + 1)
      some ⟨d, nodeMd n mcodes i, lmax, nodeL n mcodes i lmax, j,
        nodeDn n mcodes i lmax, s, split, lc, rc⟩

/-- The three index arrays written by `build_tree`. -/
structure TreeArrays where
  lchild : ℤ → ℤ
  rchild : ℤ → ℤ
  parent : ℤ → ℤ

/-- Reference loop body at internal node `i`, storing the exact-arithmetic
children. -/
def buildStepE (n : ℤ) (mcodes : ℤ → ℕ) (st : TreeArrays) (i : ℤ) : Option TreeArrays :=
  (buildNodeE n mcodes i).map fun bn =>
    let p1 := Function.update st.parent bn.lc i
    let lch := Function.update st.lchild i bn.lc
    let p2 := Function.update p1 bn.rc i
    let rch := Function.update st.rchild i bn.rc
    let p3 := if i = 0 then Function.update p2 0 (-1) else p2
    ⟨lch, rch, p3⟩

/-- One `build_tree` loop body at internal node `i`: run the node computation,
then perform the stores in program order — `parent[left] = i`,
`lchildren[i] = left`, `parent[right] = i`, `rchildren[i] = right`, and
`parent[0] = -1` when `i == 0`. -/
def buildStep (n : ℤ) (mcodes : ℤ → ℕ) (st : TreeArrays) (i : ℤ) : Option TreeArrays :=
  (buildNode n mcodes i).map fun bn =>
    let p1 := Function.update st.parent bn.lc i
    let lch := Function.update st.lchild i bn.lc
    let p2 := Function.update p1 bn.rc i
    let rch := Function.update st.rchild i bn.rc
    let p3 := if i = 0 then Function.update p2 0 (-1) else p2
    ⟨lch, rch, p3⟩

/-- Reference fold of the exact-arithmetic loop bodies over all internal
nodes. -/
def build_treeE (n : ℤ) (mcodes : ℤ → ℕ) (st : TreeArrays) : Option TreeArrays :=
  List.foldlM (buildStepE n mcodes) st ((List.range (n - 1).toNat).map Int.ofNat)

/-- `build_tree`: the loop over all internal nodes `[0, inner_size)`.  The
parallel `for_all` is modelled by its sequential elaboration; the verified
invariants show all stores of distinct iterations target distinct slots, so
the sequential fold computes the unique parallel outcome. -/
def build_tree (n : ℤ) (mcodes : ℤ → ℕ) (st : TreeArrays) : Option TreeArrays :=
  List.foldlM (buildStep n mcodes) st ((List.range (n - 1).toNat).map Int.ofNat)

/-! ### `propagate_aabbs`

The synchronization pair `sync_load`/`sync_store` is, on the sequential
(`SEQ_EXEC`, host) path, an acquire fence before a plain read and a plain
write followed by a release fence; in the sequential elaboration modelled
here both are the identity on the stored value.  `atomic_increment` on the
sequential path is a plain fetch-and-add returning the previous value. -/

/-- Mutable state of `propagate_aabbs`: visit counters and the internal-node
boxes.  `wcount` is a ghost field counting the stores performed into each
internal box slot (it shadows no source variable; it only instruments the
"written exactly once" claim). -/
structure PropState (dim : ℕ) where
  counters : ℤ → ℤ
  inner_aabbs : ℤ → Box dim
  wcount : ℤ → ℕ

/-- The leaf-to-root walk of `propagate_aabbs` (the `while` loop): increment
the counter at the current internal node; the first arrival (previous value 0)
returns; the second arrival unions the carried box with the other child's box,
stores it, and climbs to the parent. -/
def propWalkF (dim : ℕ) (inner : ℤ) (parent lchild rchild : ℤ → ℤ)
    (leaf_aabb : ℤ → Box dim) :
    ℕ → PropState dim → ℤ → ℤ → Box dim → Option (PropState dim)
  | 0, _, _, _, _ => none
  | f + 1, ps, last, curr, aabb =>
    if curr = -1 then some ps
    else
      let old := ps.counters curr
      let ps1 : PropState dim :=
        { ps with counters := Function.update ps.counters curr (old + 1) }
      if old = 0 then some ps1
      else
        let lc := lchild curr
        let rc := rchild curr
        let other := if lc = last then rc else lc
        let other_aabb :=
          if inner ≤ other then leaf_aabb (other - inner) else ps1.inner_aabbs other
        let aabb2 := addBox aabb other_aabb
        let ps2 : PropState dim :=
          { ps1 with
            inner_aabbs := Function.update ps1.inner_aabbs curr aabb2,
            wcount := Function.update ps1.wcount curr (ps1.wcount curr + 1) }
        propWalkF dim inner parent lchild rchild leaf_aabb f ps2 curr (parent curr) aabb2

/-- `propagate_aabbs`: initialize every internal box to the default (sentinel)
box and every counter to zero (`axom::Array` value-initializes; the spec, §3,
fixes the counters to start at zero), then run one walk per leaf.  The
parallel leaf loop is modelled by its sequential elaboration (the `SEQ_EXEC`
instance of the same template). -/
def propagate_aabbs (dim : ℕ) (size : ℤ) (ta : TreeArrays) (leaf_aabb : ℤ → Box dim) :
    Option (PropState dim) :=
  let inner : ℤ := size - 1
  let ps0 : PropState dim := ⟨fun _ => 0, fun _ => invalidBox dim, fun _ => 0⟩
  List.foldlM
    (fun ps (i : ℤ) =>
      propWalkF dim inner ta.parent ta.lchild ta.rchild leaf_aabb (size.toNat + 2)
        ps (inner + i) (ta.parent (inner + i)) (leaf_aabb i))
    ps0 ((List.range size.toNat).map Int.ofNat)

/-! ### `build_radix_tree`: the full pipeline -/

/-- The output arrays of a build: the tree views plus the final propagate
state. -/
structure BuildOut (dim : ℕ) where
  bounds : Box dim
  leaf_aabbs : ℤ → Box dim
  mcodes : ℤ → ℕ
  leafs : ℤ → ℤ
  arrays : TreeArrays
  prop : PropState dim

/-- Modelled from the spec: `RadixTree::allocate` (RadixTree.hpp is not in
src/).  Arrays are pre-sized uninitialized storage (junk contents, modelled
as defaults); per the spec's failure/edge policy (§4.3, §8), the `n == 1`
degenerate input is special-cased so that the single leaf is the entire tree:
its parent slot carries the root sentinel `-1`. -/
def allocParent (size : ℤ) : ℤ → ℤ :=
  fun k => if size = 1 ∧ k = 0 then -1 else 0

/-- `build_radix_tree`: the seven-stage pipeline.  The precondition
`SLIC_ASSERT(size > 0)` is a fatal assertion; theorems assume `0 < size`. -/
def build_radix_tree (dim : ℕ) (boxes : ℤ → Box dim) (size : ℤ) (scale_factor : ℚ) :
    Option (BuildOut dim) :=
  let la := transform_boxes dim boxes (fun _ => invalidBox dim) size scale_factor
  let bounds := reduce dim la size
  let mc := get_mcodes dim la size bounds (fun _ => 0)
  let sorted := sort_mcodes size mc (fun _ => 0)
  let la2 := reorder sorted.2 la size
  match build_tree size sorted.1 ⟨fun _ => 0, fun _ => 0, allocParent size⟩ with
  | none => none
  | some ta =>
    match propagate_aabbs dim size ta la2 with
    | none => none
    | some ps => some ⟨bounds, la2, sorted.1, sorted.2, ta, ps⟩

/-! ### Theory of the tie-broken metric over sorted codes

The tie-broken `delta` equals the common-prefix length of 64-bit augmented
keys `code * 2^32 + position`, which are strictly increasing whenever the
codes are sorted (ties among equal codes are broken by position). -/

/-- The hypotheses under which `build_tree` runs: at least two primitives
(`inner_size ≥ 1`), positions fit in 32 bits (n is an `int32`), codes are
32-bit values and sorted ascending on `[0, n)`. -/
structure SortedCodes (n : ℤ) (mcodes : ℤ → ℕ) : Prop where
  two_le : 2 ≤ n
  n_le : n ≤ 2 ^ 32
  code_lt : ∀ k : ℤ, 0 ≤ k → k < n → mcodes k < 2 ^ 32
  sorted : ∀ j k : ℤ, 0 ≤ j → j ≤ k → k < n → mcodes j ≤ mcodes k

/-- The augmented 64-bit key at sorted position `k`. -/
def key (mcodes : ℤ → ℕ) (k : ℤ) : ℕ := mcodes k * 2 ^ 32 + k.toNat

theorem xor_high_low {x y s t : ℕ} (hs : s < 2 ^ 32) (ht : t < 2 ^ 32) :
    (x * 2 ^ 32 + s) ^^^ (y * 2 ^ 32 + t) = (x ^^^ y) * 2 ^ 32 + (s ^^^ t) := by
  have hst : s ^^^ t < 2 ^ 32 := Nat.xor_lt_two_pow hs ht
  apply Nat.eq_of_testBit_eq
  intro i
  rw [Nat.testBit_xor, mul_comm x, mul_comm y, mul_comm (x ^^^ y),
    Nat.testBit_mul_pow_two_add _ hs, Nat.testBit_mul_pow_two_add _ ht,
    Nat.testBit_mul_pow_two_add _ hst]
  by_cases h : i < 32
  · simp [h, Nat.testBit_xor]
  · simp [h, Nat.testBit_xor]

theorem bitlen_high_low {u v : ℕ} (hu : 0 < u) (hv : v < 2 ^ 32) :
    bitlen (u * 2 ^ 32 + v) = 32 + bitlen u := by
  have h1 : u * 2 ^ 32 + v < 2 ^ (32 + bitlen u) := by
    have hub : u < 2 ^ bitlen u := bitlen_le_iff.1 le_rfl
    have : u * 2 ^ 32 + v < (u + 1) * 2 ^ 32 := by nlinarith
    have h2 : (u + 1) * 2 ^ 32 ≤ 2 ^ bitlen u * 2 ^ 32 := by nlinarith
    calc u * 2 ^ 32 + v < (u + 1) * 2 ^ 32 := this
      _ ≤ 2 ^ bitlen u * 2 ^ 32 := h2
      _ = 2 ^ (32 + bitlen u) := by rw [← pow_add]; ring_nf
  have h2 : 2 ^ (32 + bitlen u - 1) ≤ u * 2 ^ 32 + v := by
    have hbl : 0 < bitlen u := bitlen_pos_iff.2 hu
    have hlow : 2 ^ (bitlen u - 1) ≤ u := by
      have := lt_bitlen_iff (x := u) (k := bitlen u - 1) |>.1 (by omega)
      exact this
    calc 2 ^ (32 + bitlen u - 1) = 2 ^ (bitlen u - 1) * 2 ^ 32 := by
          rw [← pow_add]; congr 1; omega
      _ ≤ u * 2 ^ 32 := by nlinarith
      _ ≤ u * 2 ^ 32 + v := Nat.le_add_right _ _
  have hle : bitlen (u * 2 ^ 32 + v) ≤ 32 + bitlen u := bitlen_le_iff.2 h1
  have hge : 32 + bitlen u - 1 < bitlen (u * 2 ^ 32 + v) := lt_bitlen_iff.2 h2
  omega

namespace SortedCodes

variable {n : ℤ} {mcodes : ℤ → ℕ}

theorem key_lt_64 (H : SortedCodes n mcodes) {k : ℤ} (h0 : 0 ≤ k) (hn : k < n) :
    key mcodes k < 2 ^ 64 := by
  have h1 := H.code_lt k h0 hn
  have h2 : k.toNat < 2 ^ 32 := by
    have : k < 2 ^ 32 := lt_of_lt_of_le hn H.n_le
    omega
  unfold key
  have e32 : (2 : ℕ) ^ 32 = 4294967296 := by norm_num
  have e64 : (2 : ℕ) ^ 64 = 18446744073709551616 := by norm_num
  rw [e32] at h1 h2 ⊢
  rw [e64]
  omega

theorem key_mono (H : SortedCodes n mcodes) {j k : ℤ} (h0 : 0 ≤ j) (hjk : j ≤ k) (hn : k < n) :
    key mcodes j ≤ key mcodes k := by
  have hc := H.sorted j k h0 hjk hn
  have : j.toNat ≤ k.toNat := by omega
  unfold key
  nlinarith

theorem key_strictMono (H : SortedCodes n mcodes) {j k : ℤ} (h0 : 0 ≤ j) (hjk : j < k) (hn : k < n) :
    key mcodes j < key mcodes k := by
  have hc := H.sorted j k h0 hjk.le hn
  have hk2 : k.toNat < 2 ^ 32 := by
    have : k < 2 ^ 32 := lt_of_lt_of_le hn H.n_le
    omega
  have hj : j.toNat < k.toNat := by omega
  unfold key
  rcases lt_or_eq_of_le hc with h | h
  · nlinarith
  · rw [h]; omega

theorem key_inj (H : SortedCodes n mcodes) {j k : ℤ} (h0j : 0 ≤ j) (h0k : 0 ≤ k) (hj : j < n) (hk : k < n)
    (hne : j ≠ k) : key mcodes j ≠ key mcodes k := by
  rcases lt_or_gt_of_ne hne with h | h
  · exact (key_strictMono H h0j h hk).ne
  · exact (key_strictMono H h0k h hj).ne'

/-- The in-range common-prefix complement: `blk a b = bitlen (key a XOR key b)`;
the source `delta` equals `64 - blk` in range. -/
theorem delta_eq_key (H : SortedCodes n mcodes) {a b : ℤ} (h0a : 0 ≤ a) (ha : a < n) :
    delta a b (n - 1) mcodes =
      if b < 0 ∨ b > n - 1 then -1
      else 64 - (bitlen (key mcodes a ^^^ key mcodes b) : ℤ) := by
  by_cases hoor : b < 0 ∨ b > n - 1
  · simp only [delta, hoor, if_true]
  · push_neg at hoor
    obtain ⟨hb0, hbn⟩ := hoor
    have hoor' : ¬(b < 0 ∨ b > n - 1) := by omega
    simp only [delta, hoor', if_false]
    have hca := H.code_lt a h0a ha
    have hcb := H.code_lt b hb0 (by omega)
    have hxk : key mcodes a ^^^ key mcodes b =
        (mcodes a ^^^ mcodes b) * 2 ^ 32 + (a.toNat ^^^ b.toNat) := by
      unfold key
      apply xor_high_low
      · have : a < 2 ^ 32 := lt_of_lt_of_le ha H.n_le
        omega
      · have : b < 2 ^ 32 := by
          have : b < n := by omega
          exact lt_of_lt_of_le this H.n_le
        omega
    by_cases htie : mcodes a ^^^ mcodes b = 0
    · simp only [htie, if_true]
      rw [hxk, htie, Nat.zero_mul, Nat.zero_add]
      unfold leadingZeros
      have hxab : a.toNat ^^^ b.toNat < 2 ^ 32 := by
        apply Nat.xor_lt_two_pow
        · have : a < 2 ^ 32 := lt_of_lt_of_le ha H.n_le
          omega
        · have : b < 2 ^ 32 := lt_of_lt_of_le (by omega : b < n) H.n_le
          omega
      have : bitlen (a.toNat ^^^ b.toNat) ≤ 32 := bitlen_le_iff.2 hxab
      omega
    · simp only [htie, if_false]
      rw [hxk]
      unfold leadingZeros
      rw [bitlen_high_low (Nat.pos_of_ne_zero htie)]
      · omega
      · apply Nat.xor_lt_two_pow
        · have : a < 2 ^ 32 := lt_of_lt_of_le ha H.n_le
          omega
        · have : b < 2 ^ 32 := lt_of_lt_of_le (by omega : b < n) H.n_le
          omega

end SortedCodes

/-- Bit length of the XOR of the keys at positions `a` and `b`: the complement
(in 64) of the tie-broken common-prefix length. -/
def blk (mcodes : ℤ → ℕ) (a b : ℤ) : ℕ := bitlen (key mcodes a ^^^ key mcodes b)

namespace SortedCodes

variable {n : ℤ} {mcodes : ℤ → ℕ}

theorem blk_comm (a b : ℤ) : blk mcodes a b = blk mcodes b a := by
  unfold blk; rw [Nat.xor_comm]

theorem blk_le_iff {a b : ℤ} {k : ℕ} :
    blk mcodes a b ≤ k ↔ key mcodes a / 2 ^ k = key mcodes b / 2 ^ k :=
  bitlen_xor_le_iff

theorem blk_le_64 (H : SortedCodes n mcodes) {a b : ℤ} (h0a : 0 ≤ a) (ha : a < n)
    (h0b : 0 ≤ b) (hb : b < n) : blk mcodes a b ≤ 64 := by
  apply bitlen_le_iff.2
  exact Nat.xor_lt_two_pow (H.key_lt_64 h0a ha) (H.key_lt_64 h0b hb)

theorem blk_pos (H : SortedCodes n mcodes) {a b : ℤ} (h0a : 0 ≤ a) (ha : a < n)
    (h0b : 0 ≤ b) (hb : b < n) (hne : a ≠ b) : 0 < blk mcodes a b := by
  apply bitlen_pos_iff.2
  have hne2 := H.key_inj h0a h0b ha hb hne
  have : key mcodes a ^^^ key mcodes b ≠ 0 := fun h => hne2 (Nat.xor_eq_zero.1 h)
  omega

/-- A subinterval's XOR length is bounded by the enclosing interval's. -/
theorem blk_sub (H : SortedCodes n mcodes) {a u v b : ℤ} (h0a : 0 ≤ a) (hau : a ≤ u)
    (huv : u ≤ v) (hvb : v ≤ b) (hb : b < n) : blk mcodes u v ≤ blk mcodes a b := by
  apply blk_le_iff.2
  set k := blk mcodes a b with hk
  have hab : key mcodes a / 2 ^ k = key mcodes b / 2 ^ k := blk_le_iff.1 le_rfl
  have h1 : key mcodes a ≤ key mcodes u := H.key_mono h0a hau (by omega)
  have h2 : key mcodes u ≤ key mcodes v := H.key_mono (by omega) huv (by omega)
  have h3 : key mcodes v ≤ key mcodes b := H.key_mono (by omega) hvb hb
  have d1 := Nat.div_le_div_right (c := 2 ^ k) h1
  have d2 := Nat.div_le_div_right (c := 2 ^ k) h2
  have d3 := Nat.div_le_div_right (c := 2 ^ k) h3
  omega

/-- If every adjacent pair inside `[a, b]` has XOR length at most `M`, so does
the pair `(a, b)`. -/
theorem blk_le_of_adj_le {a b : ℤ} {M : ℕ}
    (hab : a ≤ b)
    (hadj : ∀ t : ℤ, a ≤ t → t < b → blk mcodes t (t + 1) ≤ M) :
    blk mcodes a b ≤ M := by
  have hgen : ∀ m : ℕ, ∀ b' : ℤ, b' - a = m → a ≤ b' → b' ≤ b → blk mcodes a b' ≤ M := by
    intro m
    induction m with
    | zero =>
      intro b' hm _ _
      have : b' = a := by omega
      subst this
      unfold blk
      rw [Nat.xor_self]
      simp [bitlen_zero]
    | succ m ih =>
      intro b' hm hab' hb'
      have hprev : blk mcodes a (b' - 1) ≤ M := ih (b' - 1) (by omega) (by omega) (by omega)
      have hlast : blk mcodes (b' - 1) b' ≤ M := by
        have := hadj (b' - 1) (by omega) (by omega)
        simpa [sub_add_cancel] using this
      -- xor triangle through b' - 1
      have hxor : key mcodes a ^^^ key mcodes b' =
          (key mcodes a ^^^ key mcodes (b' - 1)) ^^^ (key mcodes (b' - 1) ^^^ key mcodes b') := by
        rw [Nat.xor_assoc, ← Nat.xor_assoc (key mcodes (b' - 1)), Nat.xor_self,
          Nat.zero_xor]
      unfold blk at *
      rw [hxor]
      apply bitlen_le_iff.2
      exact Nat.xor_lt_two_pow (bitlen_le_iff.1 hprev) (bitlen_le_iff.1 hlast)
  exact hgen (b - a).toNat b (by omega) hab le_rfl

theorem half_pair {qx qy : ℕ} (h2 : qx / 2 = qy / 2) (hne : qx ≠ qy) (hle : qx ≤ qy) :
    qx % 2 = 0 ∧ qy % 2 = 1 := by omega

theorem half_pair_mono {u v : ℕ} (hsame : u / 2 = v / 2) (hu : u % 2 = 1) (hv : v % 2 = 0)
    (hle : u ≤ v) : False := by omega

/-- Parity of the level-`L-1` quotient at an adjacent pair attaining XOR
length exactly `L`: the lower key sits in the even half, the upper in the odd
half. -/
theorem pair_parity (H : SortedCodes n mcodes) {t : ℤ} {L : ℕ} (h0 : 0 ≤ t)
    (ht : t + 1 < n) (hL : blk mcodes t (t + 1) = L) :
    key mcodes t / 2 ^ (L - 1) % 2 = 0 ∧ key mcodes (t + 1) / 2 ^ (L - 1) % 2 = 1 := by
  have hLpos : 0 < L := by
    rw [← hL]
    exact H.blk_pos h0 (by omega) (by omega) ht (by omega)
  have hkey : key mcodes t < key mcodes (t + 1) := H.key_strictMono h0 (by omega) ht
  set x := key mcodes t
  set y := key mcodes (t + 1)
  have hdivL : x / 2 ^ L = y / 2 ^ L := blk_le_iff.1 (le_of_eq hL)
  have hdivL1 : x / 2 ^ (L - 1) ≠ y / 2 ^ (L - 1) := by
    intro heq
    have : blk mcodes t (t + 1) ≤ L - 1 := blk_le_iff.2 heq
    omega
  have hq2 : x / 2 ^ (L - 1) / 2 = y / 2 ^ (L - 1) / 2 := by
    rw [Nat.div_div_eq_div_mul, Nat.div_div_eq_div_mul]
    have : 2 ^ (L - 1) * 2 = 2 ^ L := by
      rw [← pow_succ]
      congr 1
      omega
    rw [this]
    exact hdivL
  have hmono : x / 2 ^ (L - 1) ≤ y / 2 ^ (L - 1) := Nat.div_le_div_right hkey.le
  exact half_pair hq2 hdivL1 hmono

/-- Uniqueness of the minimum: inside a range of sorted distinct keys, at most
one adjacent pair attains the range's full XOR length. -/
theorem argmax_unique (H : SortedCodes n mcodes) {a b t₁ t₂ : ℤ} (h0a : 0 ≤ a)
    (hb : b < n) (h1 : a ≤ t₁) (h12 : t₁ < t₂) (h2 : t₂ < b)
    (he1 : blk mcodes t₁ (t₁ + 1) = blk mcodes a b)
    (he2 : blk mcodes t₂ (t₂ + 1) = blk mcodes a b) : False := by
  set L := blk mcodes a b with hLdef
  have hp1 := H.pair_parity (L := L) (by omega) (by omega) he1
  have hp2 := H.pair_parity (L := L) (by omega) (by omega) he2
  -- all level-(L-1) quotients inside [a,b] share the same half-pair
  have hLpos : 0 < L := by
    rw [hLdef]
    exact H.blk_pos h0a (by omega) (by omega) hb (by omega)
  have hsame : key mcodes (t₁ + 1) / 2 ^ (L - 1) / 2 = key mcodes t₂ / 2 ^ (L - 1) / 2 := by
    have hsub : blk mcodes (t₁ + 1) t₂ ≤ L := by
      rw [hLdef]
      exact H.blk_sub h0a (by omega) (by omega) (by omega) hb
    have := blk_le_iff.1 hsub
    rw [Nat.div_div_eq_div_mul, Nat.div_div_eq_div_mul]
    have h2L : 2 ^ (L - 1) * 2 = 2 ^ L := by
      rw [← pow_succ]
      congr 1
      omega
    rw [h2L]
    exact this
  have hmono : key mcodes (t₁ + 1) / 2 ^ (L - 1) ≤ key mcodes t₂ / 2 ^ (L - 1) :=
    Nat.div_le_div_right (H.key_mono (by omega) (by omega) (by omega))
  exact half_pair_mono hsame hp1.2 hp2.1 hmono

end SortedCodes

/-! ### Characterization of the three `build_tree` loops -/

/-- The doubling loop returns (within fuel `f`) once the probe condition can
only hold for bounded lengths: the result is `start * 2^k`, at least `start`,
and fails the condition. -/
theorem lmaxLoopF_some (i d md inner : ℤ) (mcodes : ℤ → ℕ)
    (hbound : ∀ l : ℤ, delta i (i + l * d) inner mcodes > md → l ≤ inner) :
    ∀ (f : ℕ) (start : ℤ), 1 ≤ start → inner < 2 ^ f * start →
      ∃ r : ℤ, lmaxLoopF i d md inner mcodes (f + 1) start = some r ∧
        ¬(delta i (i + r * d) inner mcodes > md) ∧ start ≤ r ∧ ∃ k : ℕ, r = start * 2 ^ k := by
  intro f
  induction f with
  | zero =>
    intro start h1 hlt
    by_cases hc : delta i (i + start * d) inner mcodes > md
    · exfalso
      have := hbound start hc
      simp only [pow_zero, one_mul] at hlt
      omega
    · exact ⟨start, by simp [lmaxLoopF, hc], hc, le_rfl, 0, by ring⟩
  | succ f ih =>
    intro start h1 hlt
    by_cases hc : delta i (i + start * d) inner mcodes > md
    · have h2 : (1 : ℤ) ≤ 2 * start := by omega
      have h3 : inner < 2 ^ f * (2 * start) := by
        have : (2 : ℤ) ^ (f + 1) * start = 2 ^ f * (2 * start) := by ring
        omega
      obtain ⟨r, hr, hnc, hge, k, hk⟩ := ih (2 * start) h2 h3
      refine ⟨r, ?_, hnc, by omega, k + 1, by rw [hk]; ring⟩
      simp only [lmaxLoopF, hc, if_true]
      exact hr
    · exact ⟨start, by simp [lmaxLoopF, hc], hc, le_rfl, 0, by ring⟩

/-- Correctness of the power-of-two greedy binary search: if the target `lst`
is the largest value satisfying the (downward-closed) probe condition, the
search starting at step `2^k` from accumulator `l` with `l ≤ lst < l + 2^(k+1)`
returns exactly `lst`. -/
theorem blSearchF_spec (i d md inner : ℤ) (mcodes : ℤ → ℕ) (lst : ℤ)
    (hmono : ∀ l₁ l₂ : ℤ, 1 ≤ l₁ → l₁ ≤ l₂ → delta i (i + l₂ * d) inner mcodes > md →
      delta i (i + l₁ * d) inner mcodes > md)
    (hstar : delta i (i + lst * d) inner mcodes > md ∨ lst = 0)
    (hmax : ∀ l : ℤ, delta i (i + l * d) inner mcodes > md → l ≤ lst) :
    ∀ (k f : ℕ) (l : ℤ), k + 2 ≤ f → 0 ≤ l → l ≤ lst → lst < l + 2 * 2 ^ k →
      blSearchF i d md inner mcodes f (2 ^ k) l = lst := by
  intro k
  induction k with
  | zero =>
    intro f l hf h0 hle hlt
    match f, hf with
    | ff + 2, _ =>
      simp only [blSearchF, pow_zero]
      norm_num
      by_cases hc : delta i (i + (l + 1) * d) inner mcodes > md
      · have h1 : l + 1 ≤ lst := hmax _ hc
        have h2 : lst = l + 1 := by omega
        simp only [hc, if_true, blSearchF]
        omega
      · have h2 : lst = l := by
          rcases hstar with hs | hs
          · by_contra hne
            have : l + 1 ≤ lst := by omega
            exact hc (hmono (l + 1) lst (by omega) this hs)
          · omega
        simp only [hc, if_false, blSearchF]
        omega
  | succ k ih =>
    intro f l hf h0 hle hlt
    match f, hf with
    | ff + 1, hff =>
      have hne : (2 : ℕ) ^ (k + 1) ≠ 0 := by positivity
      simp only [blSearchF, hne, if_false]
      by_cases hc : delta i (i + (l + (2 ^ (k + 1) : ℕ)) * d) inner mcodes > md
      · have h1 : l + (2 ^ (k + 1) : ℕ) ≤ lst := hmax _ hc
        have hcast : ((2 ^ (k + 1) : ℕ) : ℤ) = 2 * 2 ^ k := by push_cast; ring
        have hdiv : (2 : ℕ) ^ (k + 1) / 2 = 2 ^ k := by
          rw [pow_succ]
          exact Nat.mul_div_cancel _ (by norm_num)
        rw [if_pos hc, hdiv]
        have e2 : (2 : ℤ) ^ (k + 1) = 2 * 2 ^ k := by ring
        apply ih ff (l + (2 ^ (k + 1) : ℕ)) (by omega) (by positivity) (by omega)
        omega
      · have hdiv : (2 : ℕ) ^ (k + 1) / 2 = 2 ^ k := by
          rw [pow_succ]
          exact Nat.mul_div_cancel _ (by norm_num)
        have hlt2 : lst < l + 2 * 2 ^ k := by
          by_contra hge
          push_neg at hge
          have hcast : ((2 ^ (k + 1) : ℕ) : ℤ) = 2 * 2 ^ k := by push_cast; ring
          rcases hstar with hs | hs
          · exact hc (hmono _ lst (by omega) (by omega) hs)
          · omega
        rw [if_neg hc, hdiv]
        exact ih ff l (by omega) h0 hle hlt2

/-- The ceiling division never undershoots: `l ≤ 2^(k+1) * ceil(l / 2^(k+1))`. -/
theorem ceilPow_ge (l k : ℕ) : l ≤ 2 ^ (k + 1) * ceilPow l k := by
  unfold ceilPow
  set p := 2 ^ (k + 1) with hp
  have hppos : 0 < p := by positivity
  have hdm := Nat.div_add_mod (l + (p - 1)) p
  have hmlt : (l + (p - 1)) % p < p := Nat.mod_lt _ hppos
  omega

theorem ceilPow_pos {l : ℕ} (hl : 1 ≤ l) (k : ℕ) : 1 ≤ ceilPow l k := by
  unfold ceilPow
  set p := 2 ^ (k + 1) with hp
  have hppos : 0 < p := by positivity
  apply (Nat.le_div_iff_mul_le hppos).2
  omega

theorem ceilPow_eq_one {l k : ℕ} (hl : 1 ≤ l) (hle : l ≤ 2 ^ (k + 1)) : ceilPow l k = 1 := by
  unfold ceilPow
  set p := 2 ^ (k + 1) with hp
  have hppos : 0 < p := by positivity
  have h1 : (l + (p - 1)) / p = 1 := by
    apply Nat.div_eq_of_lt_le
    · omega
    · omega
  simpa using h1

/-- Halving the divisor at most doubles the ceiling. -/
theorem ceilPow_halving (l k : ℕ) : ceilPow l k ≤ 2 * ceilPow l (k + 1) := by
  have hq := ceilPow_ge l (k + 1)
  unfold ceilPow at *
  set p := 2 ^ (k + 1) with hp
  have hp2 : 2 ^ (k + 1 + 1) = 2 * p := by rw [hp]; ring
  rw [hp2] at hq ⊢
  set q2 := (l + (2 * p - 1)) / (2 * p) with hq2
  have hppos : 0 < p := by positivity
  have hmono : (l + (p - 1)) / p ≤ (2 * p * q2 + (p - 1)) / p :=
    Nat.div_le_div_right (by omega)
  have he : 2 * p * q2 + (p - 1) = (p - 1) + p * (2 * q2) := by ring_nf
  have hdiv : ((p - 1) + p * (2 * q2)) / p = (p - 1) / p + 2 * q2 :=
    Nat.add_mul_div_left _ _ hppos
  have hz : (p - 1) / p = 0 := Nat.div_eq_of_lt (by omega)
  rw [he, hdiv, hz] at hmono
  omega

/-- Correctness and fuel sufficiency of the split-point search: provided the
target `sst` is the largest value satisfying the (downward-closed) probe
condition and the range length `l` is at least 1, the loop reaches its
`t == 1` pass and returns exactly `sst`. -/
theorem splitLoopF_spec (i d dn inner : ℤ) (mcodes : ℤ → ℕ) (l : ℕ) (sst : ℤ)
    (hmono : ∀ x₁ x₂ : ℤ, 1 ≤ x₁ → x₁ ≤ x₂ → delta i (i + x₂ * d) inner mcodes > dn →
      delta i (i + x₁ * d) inner mcodes > dn)
    (hstar : delta i (i + sst * d) inner mcodes > dn ∨ sst = 0)
    (hmax : ∀ x : ℤ, delta i (i + x * d) inner mcodes > dn → x ≤ sst)
    (hl : 1 ≤ l) :
    ∀ (f k : ℕ) (s : ℤ), (l : ℤ) ≤ 2 ^ (k + f) * 2 → 0 ≤ s → s ≤ sst →
      sst < s + 2 * (ceilPow l k : ℤ) →
      splitLoopF i d dn inner mcodes l (f + 1) k s = some sst := by
  intro f
  induction f with
  | zero =>
    intro k s hfuel h0 hle hlt
    have ht1 : ceilPow l k = 1 := by
      apply ceilPow_eq_one hl
      have : ((2 : ℤ) ^ (k + 0) * 2) = ((2 ^ (k + 1) : ℕ) : ℤ) := by push_cast; ring
      omega
    simp only [splitLoopF, ht1, if_true]
    rw [ht1] at hlt
    by_cases hc : delta i (i + (s + ((1 : ℕ) : ℤ)) * d) inner mcodes > dn
    · have h1 : s + ((1 : ℕ) : ℤ) ≤ sst := hmax _ hc
      rw [if_pos hc]
      congr 1
      push_cast at *
      omega
    · rw [if_neg hc]
      congr 1
      have h2 : sst = s := by
        rcases hstar with hs | hs
        · by_contra hne
          apply hc
          apply hmono (s + ((1 : ℕ) : ℤ)) sst (by push_cast; omega) (by push_cast; omega) hs
        · omega
      omega
  | succ f ih =>
    intro k s hfuel h0 hle hlt
    by_cases ht1 : ceilPow l k = 1
    · simp only [splitLoopF, ht1, if_true]
      rw [ht1] at hlt
      by_cases hc : delta i (i + (s + ((1 : ℕ) : ℤ)) * d) inner mcodes > dn
      · have h1 : s + ((1 : ℕ) : ℤ) ≤ sst := hmax _ hc
        rw [if_pos hc]
        congr 1
        push_cast at *
        omega
      · rw [if_neg hc]
        congr 1
        have h2 : sst = s := by
          rcases hstar with hs | hs
          · by_contra hne
            apply hc
            apply hmono (s + ((1 : ℕ) : ℤ)) sst (by push_cast; omega) (by push_cast; omega) hs
          · omega
        omega
    · have htpos : 1 ≤ ceilPow l k := ceilPow_pos hl k
      have hhalf : ceilPow l k ≤ 2 * ceilPow l (k + 1) := ceilPow_halving l k
      have hfuel2 : (l : ℤ) ≤ 2 ^ (k + 1 + f) * 2 := by
        have : (2 : ℤ) ^ (k + (f + 1)) = 2 ^ (k + 1 + f) := by
          congr 1
          omega
        omega
      simp only [splitLoopF, ht1, if_false]
      by_cases hc : delta i (i + (s + ((ceilPow l k : ℕ) : ℤ)) * d) inner mcodes > dn
      · rw [if_pos hc]
        have h1 : s + ((ceilPow l k : ℕ) : ℤ) ≤ sst := hmax _ hc
        apply ih (k + 1) _ hfuel2 (by push_cast; omega) h1
        push_cast at *
        omega
      · rw [if_neg hc]
        have h2 : sst < s + ((ceilPow l k : ℕ) : ℤ) := by
          rcases hstar with hs | hs
          · by_contra hge
            push_neg at hge
            apply hc
            apply hmono (s + ((ceilPow l k : ℕ) : ℤ)) sst (by push_cast; omega) hge hs
          · push_cast
            omega
        apply ih (k + 1) s hfuel2 h0 hle
        push_cast at *
        omega

/-! ### The Karras range invariant and local node correctness -/

/-- The adjacent-pair metric with sentinel: `Dx t` is the tie-broken
common-prefix length of sorted positions `t` and `t+1`, and `-1` when the
pair leaves `[0, n-1]`. -/
def Dx (n : ℤ) (mcodes : ℤ → ℕ) (t : ℤ) : ℤ :=
  if 0 ≤ t ∧ t < n - 1 then 64 - (blk mcodes t (t + 1) : ℤ) else -1

namespace SortedCodes

variable {n : ℤ} {mcodes : ℤ → ℕ}

/-- The source `delta` probe, re-expressed through `blk`. -/
theorem delta_probe (H : SortedCodes n mcodes) {a b : ℤ} (h0a : 0 ≤ a) (ha : a < n) :
    delta a b (n - 1) mcodes =
      if b < 0 ∨ b > n - 1 then -1 else 64 - (blk mcodes a b : ℤ) :=
  H.delta_eq_key h0a ha

theorem Dx_in {t : ℤ} (h0 : 0 ≤ t) (h1 : t < n - 1) :
    Dx n mcodes t = 64 - (blk mcodes t (t + 1) : ℤ) := by
  unfold Dx
  rw [if_pos ⟨h0, h1⟩]

theorem Dx_oor {t : ℤ} (h : ¬(0 ≤ t ∧ t < n - 1)) : Dx n mcodes t = -1 := by
  unfold Dx
  rw [if_neg h]

theorem delta_succ (H : SortedCodes n mcodes) {t : ℤ} (h0 : 0 ≤ t) (h1 : t < n) :
    delta t (t + 1) (n - 1) mcodes = Dx n mcodes t := by
  rw [H.delta_probe h0 h1]
  by_cases hc : t < n - 1
  · rw [if_neg (by omega), Dx_in h0 hc]
  · rw [if_pos (by omega), Dx_oor (by omega)]

theorem delta_pred (H : SortedCodes n mcodes) {t : ℤ} (h0 : 0 ≤ t) (h1 : t < n) :
    delta t (t - 1) (n - 1) mcodes = Dx n mcodes (t - 1) := by
  rw [H.delta_probe h0 h1]
  by_cases hc : 1 ≤ t
  · rw [if_neg (by omega), Dx_in (by omega) (by omega), sub_add_cancel,
      SortedCodes.blk_comm]
  · rw [if_pos (by omega), Dx_oor (by omega)]

theorem Dx_le_63 (H : SortedCodes n mcodes) (t : ℤ) : Dx n mcodes t ≤ 63 := by
  by_cases hc : 0 ≤ t ∧ t < n - 1
  · rw [Dx_in hc.1 hc.2]
    have := H.blk_pos (a := t) (b := t + 1) (by omega) (by omega) (by omega) (by omega)
      (by omega)
    omega
  · rw [Dx_oor hc]
    omega

theorem Dx_ge_neg_one (H : SortedCodes n mcodes) (t : ℤ) : -1 ≤ Dx n mcodes t := by
  by_cases hc : 0 ≤ t ∧ t < n - 1
  · rw [Dx_in hc.1 hc.2]
    have : blk mcodes t (t + 1) ≤ 64 :=
      H.blk_le_64 hc.1 (by omega) (by omega) (by omega)
    omega
  · rw [Dx_oor hc]

/-- Existence of an adjacent pair attaining the range's XOR length. -/
theorem attain_exists (H : SortedCodes n mcodes) {a b : ℤ} (h0a : 0 ≤ a) (hab : a < b)
    (hb : b ≤ n - 1) :
    ∃ γ : ℤ, a ≤ γ ∧ γ < b ∧ blk mcodes γ (γ + 1) = blk mcodes a b := by
  by_contra hno
  push_neg at hno
  have hm : 0 < blk mcodes a b :=
    H.blk_pos h0a (by omega) (by omega) (by omega) (by omega)
  have hall : ∀ t : ℤ, a ≤ t → t < b → blk mcodes t (t + 1) ≤ blk mcodes a b - 1 := by
    intro t h1 h2
    have hsub : blk mcodes t (t + 1) ≤ blk mcodes a b :=
      H.blk_sub h0a h1 (by omega) (by omega) (by omega)
    have hne := hno t h1 h2
    omega
  have := SortedCodes.blk_le_of_adj_le hab.le hall
  omega

/-- All non-attaining adjacent pairs are strictly below the range's XOR
length. -/
theorem attain_lt (H : SortedCodes n mcodes) {a b γ : ℤ} (h0a : 0 ≤ a) (hb : b ≤ n - 1)
    (hay : a ≤ γ) (hyb : γ < b) (hatt : blk mcodes γ (γ + 1) = blk mcodes a b) :
    ∀ t : ℤ, a ≤ t → t < b → t ≠ γ → blk mcodes t (t + 1) < blk mcodes a b := by
  intro t h1 h2 hne
  have hsub : blk mcodes t (t + 1) ≤ blk mcodes a b :=
    H.blk_sub h0a h1 (by omega) (by omega) (by omega)
  rcases lt_or_eq_of_le hsub with h | h
  · exact h
  · exfalso
    rcases lt_or_gt_of_ne hne with hlt | hgt
    · exact H.argmax_unique h0a (by omega) h1 hlt hyb h hatt
    · exact H.argmax_unique h0a (by omega) hay hgt h2 hatt h

/-- Bound on the probe beyond the far end for a left-representative node. -/
theorem probe_bound_left (H : SortedCodes n mcodes) {a b : ℤ} (h0a : 0 ≤ a) (hab : a < b)
    (hbn : b ≤ n - 1) (hBnd : Dx n mcodes b ≤ Dx n mcodes (a - 1)) :
    ∀ l : ℤ, delta a (a + l * 1) (n - 1) mcodes > Dx n mcodes (a - 1) → l ≤ b - a := by
  intro l hP
  rw [H.delta_probe h0a (by omega)] at hP
  by_cases hoor : a + l * 1 < 0 ∨ a + l * 1 > n - 1
  · rw [if_pos hoor] at hP
    have := H.Dx_ge_neg_one (a - 1)
    omega
  · rw [if_neg hoor] at hP
    push_neg at hoor
    by_contra hgt
    push_neg at hgt
    have hblt : b < n - 1 := by omega
    have hDb : Dx n mcodes b = 64 - (blk mcodes b (b + 1) : ℤ) := Dx_in (by omega) hblt
    have hsub : blk mcodes b (b + 1) ≤ blk mcodes a (a + l * 1) :=
      H.blk_sub h0a (by omega) (by omega) (by omega) (by omega)
    omega

/-- Monotone decrease of the probe along the chosen direction (left case). -/
theorem probe_mono_left (H : SortedCodes n mcodes) {a b : ℤ} (h0a : 0 ≤ a) (hab : a < b)
    (hbn : b ≤ n - 1) (hBnd : Dx n mcodes b ≤ Dx n mcodes (a - 1)) :
    ∀ l₁ l₂ : ℤ, 1 ≤ l₁ → l₁ ≤ l₂ →
      delta a (a + l₂ * 1) (n - 1) mcodes > Dx n mcodes (a - 1) →
      delta a (a + l₁ * 1) (n - 1) mcodes > Dx n mcodes (a - 1) := by
  intro l₁ l₂ h1 h12 hP
  have hle := H.probe_bound_left h0a hab hbn hBnd l₂ hP
  rw [H.delta_probe h0a (by omega)] at hP ⊢
  rw [if_neg (by omega)] at hP ⊢
  have hsub : blk mcodes a (a + l₁ * 1) ≤ blk mcodes a (a + l₂ * 1) :=
    H.blk_sub h0a le_rfl (by omega) (by omega) (by omega)
  omega

/-- `min_delta` is strictly below the in-range node delta (left case). -/
theorem md_lt_left (H : SortedCodes n mcodes) {a b : ℤ} (h0a : 0 ≤ a) (hab : a < b)
    (hbn : b ≤ n - 1)
    (hIn : ∀ t : ℤ, a ≤ t → t < b → Dx n mcodes (a - 1) < Dx n mcodes t) :
    Dx n mcodes (a - 1) < 64 - (blk mcodes a b : ℤ) := by
  set MD := Dx n mcodes (a - 1) with hMD
  have hMDm1 : -1 ≤ MD := H.Dx_ge_neg_one (a - 1)
  have hMD63 : MD ≤ 63 := H.Dx_le_63 (a - 1)
  have hall : ∀ t : ℤ, a ≤ t → t < b → blk mcodes t (t + 1) ≤ (63 - MD).toNat := by
    intro t h1 h2
    have hDt := hIn t h1 h2
    rw [Dx_in (by omega) (by omega)] at hDt
    omega
  have := SortedCodes.blk_le_of_adj_le hab.le hall
  omega

/-- Local correctness of the `build_tree` node computation for a left
representative: under the boundary invariant with `e = a`, the computation at
index `a` recovers direction `+1`, far end `b`, range length `b - a`, and the
split at the unique adjacent pair attaining the range's XOR length. -/
theorem buildNode_left (H : SortedCodes n mcodes) {a b : ℤ} (h0a : 0 ≤ a) (hab : a < b)
    (hbn : b ≤ n - 1) (hBnd : Dx n mcodes b ≤ Dx n mcodes (a - 1))
    (hIn : ∀ t : ℤ, a ≤ t → t < b → Dx n mcodes (a - 1) < Dx n mcodes t) :
    ∃ γ lmax : ℤ, a ≤ γ ∧ γ < b ∧ blk mcodes γ (γ + 1) = blk mcodes a b ∧
      buildNodeE n mcodes a = some ⟨1, Dx n mcodes (a - 1), lmax, b - a, b,
        64 - (blk mcodes a b : ℤ), γ - a, γ,
        (if a = γ then γ + (n - 1) else γ),
        (if b = γ + 1 then γ + 1 + (n - 1) else γ + 1)⟩ := by
  have hn2 : 2 ≤ n := H.two_le
  have han : a < n := by omega
  set MD := Dx n mcodes (a - 1) with hMDdef
  set m := blk mcodes a b with hmdef
  have hMDm1 : -1 ≤ MD := H.Dx_ge_neg_one (a - 1)
  have hMD63 : MD ≤ 63 := H.Dx_le_63 (a - 1)
  have hm_pos : 0 < m := H.blk_pos h0a han (by omega) (by omega) (by omega)
  have hm64 : m ≤ 64 := H.blk_le_64 h0a han (by omega) (by omega)
  have hMD_lt : MD < 64 - (m : ℤ) := H.md_lt_left h0a hab hbn hIn
  -- direction
  have hD : nodeD n mcodes a = 1 := by
    unfold nodeD
    rw [H.delta_succ h0a han, H.delta_pred h0a han]
    have hDa := hIn a le_rfl hab
    rw [if_neg (by omega)]
  have hMd : nodeMd n mcodes a = MD := by
    unfold nodeMd
    rw [hD]
    exact H.delta_pred h0a han
  -- probe facts
  have hPbound : ∀ l : ℤ, delta a (a + l * 1) (n - 1) mcodes > MD → l ≤ n - 1 := by
    intro l hP
    have := H.probe_bound_left h0a hab hbn hBnd l hP
    omega
  have hPle := H.probe_bound_left h0a hab hbn hBnd
  have hPmono := H.probe_mono_left h0a hab hbn hBnd
  have hPstar : delta a (a + (b - a) * 1) (n - 1) mcodes > MD := by
    have he : a + (b - a) * 1 = b := by ring
    rw [he, H.delta_probe h0a han, if_neg (by omega)]
    exact hMD_lt
  -- doubling loop
  have hpow : (n : ℤ) - 1 < 2 ^ (n.toNat + 1) * 2 := by
    have h1 : (n.toNat : ℤ) < 2 ^ n.toNat := by
      exact_mod_cast Nat.lt_two_pow n.toNat
    have h2 : (2 : ℤ) ^ (n.toNat + 1) * 2 = 4 * 2 ^ n.toNat := by ring
    have h3 : (n.toNat : ℤ) = n := by omega
    omega
  obtain ⟨lmax, hLmaxEq, hnP, hge2, κ, hκ⟩ :=
    lmaxLoopF_some a 1 MD (n - 1) mcodes hPbound (n.toNat + 1) 2 (by omega) hpow
  have hNodeLmax : nodeLmaxE n mcodes a = some lmax := by
    unfold nodeLmaxE
    rw [hD, hMd]
    exact hLmaxEq
  have hlmax_gt : b - a < lmax := by
    by_contra hge
    push_neg at hge
    exact hnP (hPmono lmax (b - a) (by omega) hge hPstar)
  -- binary search
  have hhalf : lmax / 2 = (2 : ℤ) ^ κ := by
    rw [hκ]
    omega
  have hhalfN : (lmax / 2).toNat = 2 ^ κ := by
    rw [hhalf]
    have : ((2 : ℤ) ^ κ) = ((2 ^ κ : ℕ) : ℤ) := by push_cast; ring
    rw [this, Int.toNat_natCast]
  have hL : nodeLE n mcodes a lmax = b - a := by
    unfold nodeLE
    rw [hD, hMd, hhalfN]
    apply blSearchF_spec a 1 MD (n - 1) mcodes (b - a) hPmono (Or.inl hPstar) hPle κ
      (2 ^ κ + 1) 0
    · have : κ < 2 ^ κ := Nat.lt_two_pow κ
      omega
    · omega
    · omega
    · have hc : ((2 : ℕ) ^ κ : ℤ) = 2 ^ κ := by push_cast; ring
      have : lmax = 2 * 2 ^ κ := hκ
      omega
  have hJ : nodeJE n mcodes a lmax = b := by
    unfold nodeJE
    rw [hL, hD]
    ring
  have hDn : nodeDnE n mcodes a lmax = 64 - (m : ℤ) := by
    unfold nodeDnE
    rw [hJ, H.delta_probe h0a han, if_neg (by omega)]
  -- split search
  obtain ⟨γ, haγ, hγb, hatt⟩ := H.attain_exists h0a hab hbn
  have hUniq := H.attain_lt h0a hbn haγ hγb hatt
  have hQle : ∀ x : ℤ, delta a (a + x * 1) (n - 1) mcodes > 64 - (m : ℤ) → x ≤ γ - a := by
    intro x hQ
    rw [H.delta_probe h0a han] at hQ
    by_cases hoor : a + x * 1 < 0 ∨ a + x * 1 > n - 1
    · rw [if_pos hoor] at hQ
      omega
    · rw [if_neg hoor] at hQ
      push_neg at hoor
      by_contra hgt
      push_neg at hgt
      have hsub : blk mcodes γ (γ + 1) ≤ blk mcodes a (a + x * 1) :=
        H.blk_sub h0a haγ (by omega) (by omega) (by omega)
      omega
  have hQmono : ∀ x₁ x₂ : ℤ, 1 ≤ x₁ → x₁ ≤ x₂ →
      delta a (a + x₂ * 1) (n - 1) mcodes > 64 - (m : ℤ) →
      delta a (a + x₁ * 1) (n - 1) mcodes > 64 - (m : ℤ) := by
    intro x₁ x₂ h1 h12 hQ
    have hle := hQle x₂ hQ
    rw [H.delta_probe h0a han] at hQ ⊢
    rw [if_neg (by omega)] at hQ ⊢
    have hsub : blk mcodes a (a + x₁ * 1) ≤ blk mcodes a (a + x₂ * 1) :=
      H.blk_sub h0a le_rfl (by omega) (by omega) (by omega)
    omega
  have hQstar : delta a (a + (γ - a) * 1) (n - 1) mcodes > 64 - (m : ℤ) ∨ γ - a = 0 := by
    by_cases hay : γ = a
    · right; omega
    · left
      have he : a + (γ - a) * 1 = γ := by ring
      rw [he, H.delta_probe h0a han, if_neg (by omega)]
      have hall : ∀ t : ℤ, a ≤ t → t < γ → blk mcodes t (t + 1) ≤ m - 1 := by
        intro t h1 h2
        have := hUniq t h1 (by omega) (by omega)
        omega
      have hblk : blk mcodes a γ ≤ m - 1 :=
        SortedCodes.blk_le_of_adj_le (by omega) hall
      omega
  have hS : nodeSE n mcodes a lmax = some (γ - a) := by
    unfold nodeSE
    rw [hD, hDn, hL]
    have hlpos : 1 ≤ (b - a).toNat := by omega
    have hfuel : ((b - a).toNat : ℤ) ≤ 2 ^ (0 + ((b - a).toNat + 1)) * 2 := by
      have h1 : (b - a).toNat < 2 ^ (b - a).toNat := Nat.lt_two_pow _
      have h2 : ((2 : ℕ) ^ (b - a).toNat : ℤ) = 2 ^ (b - a).toNat := by push_cast; ring
      have h3 : (2 : ℤ) ^ (0 + ((b - a).toNat + 1)) * 2 = 4 * 2 ^ (b - a).toNat := by
        rw [pow_add, pow_add]
        ring
      omega
    have hinv : γ - a < 0 + 2 * (ceilPow (b - a).toNat 0 : ℤ) := by
      have h1 := ceilPow_ge (b - a).toNat 0
      have h2 : (2 : ℕ) ^ (0 + 1) = 2 := by norm_num
      rw [h2] at h1
      have h3 : ((b - a).toNat : ℤ) = b - a := by omega
      omega
    exact splitLoopF_spec a 1 (64 - (m : ℤ)) (n - 1) mcodes (b - a).toNat (γ - a)
      hQmono hQstar hQle hlpos ((b - a).toNat + 1) 0 0 hfuel (by omega) (by omega) hinv
  refine ⟨γ, lmax, haγ, hγb, hatt, ?_⟩
  unfold buildNodeE
  rw [hNodeLmax]
  simp only
  rw [hS]
  simp only
  have hsplit : a + (γ - a) * nodeD n mcodes a + min (nodeD n mcodes a) 0 = γ := by
    rw [hD]
    norm_num
  have hminab : min a (nodeJE n mcodes a lmax) = a := by
    rw [hJ]
    exact min_eq_left hab.le
  have hmaxab : max a (nodeJE n mcodes a lmax) = b := by
    rw [hJ]
    exact max_eq_right hab.le
  rw [hD, hJ, hMd, hL, hDn]
  have e1 : a + (γ - a) * 1 + min 1 0 = γ := by norm_num
  rw [e1]
  have e2 : min a b = a := min_eq_left hab.le
  have e3 : max a b = b := max_eq_right hab.le
  rw [e2, e3]


/-- Bound on the probe beyond the far end for a right-representative node. -/
theorem probe_bound_right (H : SortedCodes n mcodes) {a b : ℤ} (h0a : 0 ≤ a) (hab : a < b)
    (hbn : b ≤ n - 1) (hBnd : Dx n mcodes (a - 1) ≤ Dx n mcodes b) :
    ∀ l : ℤ, delta b (b + l * -1) (n - 1) mcodes > Dx n mcodes b → l ≤ b - a := by
  intro l hP
  rw [H.delta_probe (by omega) (by omega)] at hP
  by_cases hoor : b + l * -1 < 0 ∨ b + l * -1 > n - 1
  · rw [if_pos hoor] at hP
    have := H.Dx_ge_neg_one b
    omega
  · rw [if_neg hoor] at hP
    push_neg at hoor
    by_contra hgt
    push_neg at hgt
    have ha1 : 1 ≤ a := by omega
    have hDa : Dx n mcodes (a - 1) = 64 - (blk mcodes (a - 1) a : ℤ) := by
      rw [Dx_in (by omega) (by omega), sub_add_cancel]
    have hsub : blk mcodes (a - 1) a ≤ blk mcodes (b + l * -1) b :=
      H.blk_sub (by omega) (by omega) (by omega) (by omega) (by omega)
    rw [SortedCodes.blk_comm b (b + l * -1)] at hP
    omega

/-- Monotone decrease of the probe along the chosen direction (right case). -/
theorem probe_mono_right (H : SortedCodes n mcodes) {a b : ℤ} (h0a : 0 ≤ a) (hab : a < b)
    (hbn : b ≤ n - 1) (hBnd : Dx n mcodes (a - 1) ≤ Dx n mcodes b) :
    ∀ l₁ l₂ : ℤ, 1 ≤ l₁ → l₁ ≤ l₂ →
      delta b (b + l₂ * -1) (n - 1) mcodes > Dx n mcodes b →
      delta b (b + l₁ * -1) (n - 1) mcodes > Dx n mcodes b := by
  intro l₁ l₂ h1 h12 hP
  have hle := H.probe_bound_right h0a hab hbn hBnd l₂ hP
  rw [H.delta_probe (by omega) (by omega)] at hP ⊢
  rw [if_neg (by omega)] at hP ⊢
  rw [SortedCodes.blk_comm b (b + l₂ * -1)] at hP
  rw [SortedCodes.blk_comm b (b + l₁ * -1)]
  have hsub : blk mcodes (b + l₁ * -1) b ≤ blk mcodes (b + l₂ * -1) b :=
    H.blk_sub (by omega) (by omega) (by omega) le_rfl (by omega)
  omega

/-- `min_delta` is strictly below the in-range node delta (right case). -/
theorem md_lt_right (H : SortedCodes n mcodes) {a b : ℤ} (h0a : 0 ≤ a) (hab : a < b)
    (hbn : b ≤ n - 1)
    (hIn : ∀ t : ℤ, a ≤ t → t < b → Dx n mcodes b < Dx n mcodes t) :
    Dx n mcodes b < 64 - (blk mcodes a b : ℤ) := by
  set MD := Dx n mcodes b with hMD
  have hMDm1 : -1 ≤ MD := H.Dx_ge_neg_one b
  have hMD63 : MD ≤ 63 := H.Dx_le_63 b
  have hall : ∀ t : ℤ, a ≤ t → t < b → blk mcodes t (t + 1) ≤ (63 - MD).toNat := by
    intro t h1 h2
    have hDt := hIn t h1 h2
    rw [Dx_in (by omega) (by omega)] at hDt
    omega
  have := SortedCodes.blk_le_of_adj_le hab.le hall
  omega

/-- Local correctness of the `build_tree` node computation for a right
representative: under the boundary invariant with `e = b`, the computation at
index `b` recovers direction `-1`, far end `a`, range length `b - a`, and the
split at the unique adjacent pair attaining the range's XOR length. -/
theorem buildNode_right (H : SortedCodes n mcodes) {a b : ℤ} (h0a : 0 ≤ a) (hab : a < b)
    (hbn : b ≤ n - 1) (hBnd : Dx n mcodes (a - 1) ≤ Dx n mcodes b)
    (hIn : ∀ t : ℤ, a ≤ t → t < b → Dx n mcodes b < Dx n mcodes t) :
    ∃ γ lmax : ℤ, a ≤ γ ∧ γ < b ∧ blk mcodes γ (γ + 1) = blk mcodes a b ∧
      buildNodeE n mcodes b = some ⟨-1, Dx n mcodes b, lmax, b - a, a,
        64 - (blk mcodes a b : ℤ), b - γ - 1, γ,
        (if a = γ then γ + (n - 1) else γ),
        (if b = γ + 1 then γ + 1 + (n - 1) else γ + 1)⟩ := by
  have hn2 : 2 ≤ n := H.two_le
  have hbnn : b < n := by omega
  set MD := Dx n mcodes b with hMDdef
  set m := blk mcodes a b with hmdef
  have hMDm1 : -1 ≤ MD := H.Dx_ge_neg_one b
  have hMD63 : MD ≤ 63 := H.Dx_le_63 b
  have hm_pos : 0 < m := H.blk_pos h0a (by omega) (by omega) (by omega) (by omega)
  have hm64 : m ≤ 64 := H.blk_le_64 h0a (by omega) (by omega) (by omega)
  have hMD_lt : MD < 64 - (m : ℤ) := H.md_lt_right h0a hab hbn hIn
  -- direction
  have hD : nodeD n mcodes b = -1 := by
    unfold nodeD
    rw [H.delta_succ (by omega) hbnn, H.delta_pred (by omega) hbnn]
    have hDb1 := hIn (b - 1) (by omega) (by omega)
    rw [if_pos (by omega)]
  have hMd : nodeMd n mcodes b = MD := by
    unfold nodeMd
    rw [hD]
    have he : b - (-1 : ℤ) = b + 1 := by ring
    rw [he]
    exact H.delta_succ (by omega) hbnn
  -- probe facts
  have hPbound : ∀ l : ℤ, delta b (b + l * -1) (n - 1) mcodes > MD → l ≤ n - 1 := by
    intro l hP
    have := H.probe_bound_right h0a hab hbn hBnd l hP
    omega
  have hPle := H.probe_bound_right h0a hab hbn hBnd
  have hPmono := H.probe_mono_right h0a hab hbn hBnd
  have hPstar : delta b (b + (b - a) * -1) (n - 1) mcodes > MD := by
    have he : b + (b - a) * -1 = a := by ring
    rw [he, H.delta_probe (by omega) hbnn, if_neg (by omega),
      SortedCodes.blk_comm b a]
    exact hMD_lt
  -- doubling loop
  have hpow : (n : ℤ) - 1 < 2 ^ (n.toNat + 1) * 2 := by
    have h1 : (n.toNat : ℤ) < 2 ^ n.toNat := by
      exact_mod_cast Nat.lt_two_pow n.toNat
    have h2 : (2 : ℤ) ^ (n.toNat + 1) * 2 = 4 * 2 ^ n.toNat := by ring
    have h3 : (n.toNat : ℤ) = n := by omega
    omega
  obtain ⟨lmax, hLmaxEq, hnP, hge2, κ, hκ⟩ :=
    lmaxLoopF_some b (-1) MD (n - 1) mcodes hPbound (n.toNat + 1) 2 (by omega) hpow
  have hNodeLmax : nodeLmaxE n mcodes b = some lmax := by
    unfold nodeLmaxE
    rw [hD, hMd]
    exact hLmaxEq
  have hlmax_gt : b - a < lmax := by
    by_contra hge
    push_neg at hge
    exact hnP (hPmono lmax (b - a) (by omega) hge hPstar)
  -- binary search
  have hhalf : lmax / 2 = (2 : ℤ) ^ κ := by
    rw [hκ]
    omega
  have hhalfN : (lmax / 2).toNat = 2 ^ κ := by
    rw [hhalf]
    have : ((2 : ℤ) ^ κ) = ((2 ^ κ : ℕ) : ℤ) := by push_cast; ring
    rw [this, Int.toNat_natCast]
  have hL : nodeLE n mcodes b lmax = b - a := by
    unfold nodeLE
    rw [hD, hMd, hhalfN]
    apply blSearchF_spec b (-1) MD (n - 1) mcodes (b - a) hPmono (Or.inl hPstar) hPle κ
      (2 ^ κ + 1) 0
    · have : κ < 2 ^ κ := Nat.lt_two_pow κ
      omega
    · omega
    · omega
    · have hc : ((2 : ℕ) ^ κ : ℤ) = 2 ^ κ := by push_cast; ring
      have : lmax = 2 * 2 ^ κ := hκ
      omega
  have hJ : nodeJE n mcodes b lmax = a := by
    unfold nodeJE
    rw [hL, hD]
    ring
  have hDn : nodeDnE n mcodes b lmax = 64 - (m : ℤ) := by
    unfold nodeDnE
    rw [hJ, H.delta_probe (by omega) hbnn, if_neg (by omega), SortedCodes.blk_comm b a]
  -- split search
  obtain ⟨γ, haγ, hγb, hatt⟩ := H.attain_exists h0a hab hbn
  have hUniq := H.attain_lt h0a hbn haγ hγb hatt
  have hQle : ∀ x : ℤ, delta b (b + x * -1) (n - 1) mcodes > 64 - (m : ℤ) →
      x ≤ b - γ - 1 := by
    intro x hQ
    rw [H.delta_probe (by omega) hbnn] at hQ
    by_cases hoor : b + x * -1 < 0 ∨ b + x * -1 > n - 1
    · rw [if_pos hoor] at hQ
      omega
    · rw [if_neg hoor] at hQ
      push_neg at hoor
      by_contra hgt
      push_neg at hgt
      have hsub : blk mcodes γ (γ + 1) ≤ blk mcodes (b + x * -1) b :=
        H.blk_sub (by omega) (by omega) (by omega) (by omega) (by omega)
      rw [SortedCodes.blk_comm b (b + x * -1)] at hQ
      omega
  have hQmono : ∀ x₁ x₂ : ℤ, 1 ≤ x₁ → x₁ ≤ x₂ →
      delta b (b + x₂ * -1) (n - 1) mcodes > 64 - (m : ℤ) →
      delta b (b + x₁ * -1) (n - 1) mcodes > 64 - (m : ℤ) := by
    intro x₁ x₂ h1 h12 hQ
    have hle := hQle x₂ hQ
    rw [H.delta_probe (by omega) hbnn] at hQ ⊢
    rw [if_neg (by omega)] at hQ ⊢
    rw [SortedCodes.blk_comm b (b + x₂ * -1)] at hQ
    rw [SortedCodes.blk_comm b (b + x₁ * -1)]
    have hsub : blk mcodes (b + x₁ * -1) b ≤ blk mcodes (b + x₂ * -1) b :=
      H.blk_sub (by omega) (by omega) (by omega) le_rfl (by omega)
    omega
  have hQstar : delta b (b + (b - γ - 1) * -1) (n - 1) mcodes > 64 - (m : ℤ) ∨
      b - γ - 1 = 0 := by
    by_cases hyb1 : γ = b - 1
    · right; omega
    · left
      have he : b + (b - γ - 1) * -1 = γ + 1 := by ring
      rw [he, H.delta_probe (by omega) hbnn, if_neg (by omega),
        SortedCodes.blk_comm b (γ + 1)]
      have hall : ∀ t : ℤ, γ + 1 ≤ t → t < b → blk mcodes t (t + 1) ≤ m - 1 := by
        intro t h1 h2
        have := hUniq t (by omega) h2 (by omega)
        omega
      have hblk : blk mcodes (γ + 1) b ≤ m - 1 :=
        SortedCodes.blk_le_of_adj_le (by omega) hall
      omega
  have hS : nodeSE n mcodes b lmax = some (b - γ - 1) := by
    unfold nodeSE
    rw [hD, hDn, hL]
    have hlpos : 1 ≤ (b - a).toNat := by omega
    have hfuel : ((b - a).toNat : ℤ) ≤ 2 ^ (0 + ((b - a).toNat + 1)) * 2 := by
      have h1 : (b - a).toNat < 2 ^ (b - a).toNat := Nat.lt_two_pow _
      have h2 : ((2 : ℕ) ^ (b - a).toNat : ℤ) = 2 ^ (b - a).toNat := by push_cast; ring
      have h3 : (2 : ℤ) ^ (0 + ((b - a).toNat + 1)) * 2 = 4 * 2 ^ (b - a).toNat := by
        rw [pow_add, pow_add]
        ring
      omega
    have hinv : b - γ - 1 < 0 + 2 * (ceilPow (b - a).toNat 0 : ℤ) := by
      have h1 := ceilPow_ge (b - a).toNat 0
      have h2 : (2 : ℕ) ^ (0 + 1) = 2 := by norm_num
      rw [h2] at h1
      have h3 : ((b - a).toNat : ℤ) = b - a := by omega
      omega
    exact splitLoopF_spec b (-1) (64 - (m : ℤ)) (n - 1) mcodes (b - a).toNat (b - γ - 1)
      hQmono hQstar hQle hlpos ((b - a).toNat + 1) 0 0 hfuel (by omega) (by omega) hinv
  refine ⟨γ, lmax, haγ, hγb, hatt, ?_⟩
  unfold buildNodeE
  rw [hNodeLmax]
  simp only
  rw [hS]
  simp only
  rw [hD, hJ, hMd, hL, hDn]
  have e1 : b + (b - γ - 1) * -1 + min (-1 : ℤ) 0 = γ := by
    rw [min_eq_left (by omega : (-1 : ℤ) ≤ 0)]
    ring
  rw [e1]
  have e2 : min b a = a := min_eq_right hab.le
  have e3 : max b a = b := max_eq_left hab.le
  rw [e2, e3]

end SortedCodes

/-- The Karras range invariant: `[a, b]` is a (candidate) internal-node leaf
range represented by the endpoint `e`; the boundary adjacent pair on the far
side of `e` is no better than the near one, and every adjacent pair strictly
inside the range beats the near boundary pair. -/
structure Inv (n : ℤ) (mcodes : ℤ → ℕ) (a b e : ℤ) : Prop where
  h0a : 0 ≤ a
  hab : a < b
  hbn : b ≤ n - 1
  he : e = a ∨ e = b
  hbl : e = a → Dx n mcodes b ≤ Dx n mcodes (a - 1) ∧
    ∀ t : ℤ, a ≤ t → t < b → Dx n mcodes (a - 1) < Dx n mcodes t
  hbr : e = b → Dx n mcodes (a - 1) ≤ Dx n mcodes b ∧
    ∀ t : ℤ, a ≤ t → t < b → Dx n mcodes b < Dx n mcodes t

namespace SortedCodes

variable {n : ℤ} {mcodes : ℤ → ℕ}

/-- Local correctness of one `build_tree` node computation plus propagation of
the invariant to both children. -/
theorem node_correct (H : SortedCodes n mcodes) {a b e : ℤ} (hv : Inv n mcodes a b e) :
    ∃ γ bn, buildNodeE n mcodes e = some bn ∧
      a ≤ γ ∧ γ < b ∧ blk mcodes γ (γ + 1) = blk mcodes a b ∧
      bn.split = γ ∧ bn.l = b - a ∧
      bn.d = (if e = a then 1 else -1) ∧
      bn.j = (if e = a then b else a) ∧
      bn.lc = (if a = γ then γ + (n - 1) else γ) ∧
      bn.rc = (if b = γ + 1 then γ + 1 + (n - 1) else γ + 1) ∧
      (a < γ → Inv n mcodes a γ γ) ∧
      (γ + 1 < b → Inv n mcodes (γ + 1) b (γ + 1)) := by
  obtain ⟨h0a, hab, hbn, he, hbl, hbr⟩ := hv
  have hDle63 := H.Dx_le_63
  have hDgem1 := H.Dx_ge_neg_one
  rcases he with he | he
  · -- e = a
    subst he
    obtain ⟨hBnd, hIn⟩ := hbl rfl
    obtain ⟨γ, lmax, haγ, hγb, hatt, hbn_eq⟩ := H.buildNode_left h0a hab hbn hBnd hIn
    have hUniq := H.attain_lt h0a hbn haγ hγb hatt
    have hMD_lt := H.md_lt_left h0a hab hbn hIn
    have hDγ : Dx n mcodes γ = 64 - (blk mcodes e b : ℤ) := by
      rw [SortedCodes.Dx_in (by omega) (by omega), hatt]
    refine ⟨γ, _, hbn_eq, haγ, hγb, hatt, rfl, rfl, by simp, by simp, rfl, rfl, ?_, ?_⟩
    · intro hay
      refine ⟨h0a, hay, by omega, Or.inr rfl, ?_, ?_⟩
      · intro hea
        exact absurd hea (by omega)
      · intro _
        constructor
        · rw [hDγ]
          omega
        · intro t h1 h2
          rw [hDγ, SortedCodes.Dx_in (by omega) (by omega)]
          have := hUniq t h1 (by omega) (by omega)
          omega
    · intro hyb
      refine ⟨by omega, hyb, hbn, Or.inl rfl, ?_, ?_⟩
      · intro _
        have hγ1 : γ + 1 - 1 = γ := by ring
        constructor
        · rw [hγ1, hDγ]
          omega
        · intro t h1 h2
          rw [hγ1, hDγ, SortedCodes.Dx_in (by omega) (by omega)]
          have := hUniq t (by omega) h2 (by omega)
          omega
      · intro heb
        exact absurd heb (by omega)
  · -- e = b
    subst he
    obtain ⟨hBnd, hIn⟩ := hbr rfl
    obtain ⟨γ, lmax, haγ, hγb, hatt, hbn_eq⟩ := H.buildNode_right h0a hab hbn hBnd hIn
    have hUniq := H.attain_lt h0a hbn haγ hγb hatt
    have hMD_lt := H.md_lt_right h0a hab hbn hIn
    have hDγ : Dx n mcodes γ = 64 - (blk mcodes a e : ℤ) := by
      rw [SortedCodes.Dx_in (by omega) (by omega), hatt]
    have hne : ¬(e = a) := by omega
    refine ⟨γ, _, hbn_eq, haγ, hγb, hatt, rfl, rfl, by simp [hne], by simp [hne],
      rfl, rfl, ?_, ?_⟩
    · intro hay
      refine ⟨h0a, hay, by omega, Or.inr rfl, ?_, ?_⟩
      · intro hea
        exact absurd hea (by omega)
      · intro _
        constructor
        · rw [hDγ]
          omega
        · intro t h1 h2
          rw [hDγ, SortedCodes.Dx_in (by omega) (by omega)]
          have := hUniq t h1 (by omega) (by omega)
          omega
    · intro hyb
      refine ⟨by omega, hyb, hbn, Or.inl rfl, ?_, ?_⟩
      · intro _
        have hγ1 : γ + 1 - 1 = γ := by ring
        constructor
        · rw [hγ1, hDγ]
          omega
        · intro t h1 h2
          rw [hγ1, hDγ, SortedCodes.Dx_in (by omega) (by omega)]
          have := hUniq t (by omega) h2 (by omega)
          omega
      · intro heb
        exact absurd heb (by omega)

end SortedCodes

/-! ### The family of tree ranges generated from the root -/

/-- The split index computed by `build_tree` at internal node `e` (junk 0 when
the node computation does not terminate — never the case on sorted inputs). -/
def gammaOf (n : ℤ) (mcodes : ℤ → ℕ) (e : ℤ) : ℤ :=
  match buildNodeE n mcodes e with
  | none => 0
  | some bn => bn.split

/-- One tree range: representative internal index `e`, leaf range `[a, b]`,
split `g`. -/
structure Rng where
  e : ℤ
  a : ℤ
  b : ℤ
  g : ℤ
  deriving DecidableEq, Repr

/-- The value stored into `lchildren[r.e]` by `build_tree`. -/
def childL (n : ℤ) (r : Rng) : ℤ :=
  if r.a = r.g then r.g + (n - 1) else r.g

/-- The value stored into `rchildren[r.e]` by `build_tree`. -/
def childR (n : ℤ) (r : Rng) : ℤ :=
  if r.b = r.g + 1 then r.g + 1 + (n - 1) else r.g + 1

/-- The family of tree ranges reachable from the range `[a, b]` represented by
`e`, by fuel-bounded recursion on the splits `build_tree` computes. -/
def famNodes (n : ℤ) (mcodes : ℤ → ℕ) : ℕ → ℤ → ℤ → ℤ → List Rng
  | 0, _, _, _ => []
  | f + 1, a, b, e =>
    let γ := gammaOf n mcodes e
    ⟨e, a, b, γ⟩ ::
      ((if a < γ then famNodes n mcodes f a γ γ else []) ++
       (if γ + 1 < b then famNodes n mcodes f (γ + 1) b (γ + 1) else []))

theorem mem_ite_nil {α : Type} {c : Prop} [Decidable c] {X : List α} {r : α} :
    r ∈ (if c then X else []) ↔ c ∧ r ∈ X := by
  by_cases hc : c <;> simp [hc]

/-- A child slot either names an internal node strictly inside `(lo, hi)` or a
leaf slot `x + (n-1)` for a leaf `x ∈ [lo, hi]`. -/
def EdgeIn (n lo hi k : ℤ) : Prop :=
  (lo < k ∧ k < hi) ∨ (∃ x : ℤ, lo ≤ x ∧ x ≤ hi ∧ k = x + (n - 1))

/-- All the structural facts about a generated family that the global
assembly needs, proved simultaneously by one induction. -/
structure FamOk (n : ℤ) (mcodes : ℤ → ℕ) (a b e : ℤ) (L : List Rng) : Prop where
  self_mem : (⟨e, a, b, gammaOf n mcodes e⟩ : Rng) ∈ L
  inv_all : ∀ r ∈ L, Inv n mcodes r.a r.b r.e
  g_eq : ∀ r ∈ L, r.g = gammaOf n mcodes r.e
  g_range : ∀ r ∈ L, r.a ≤ r.g ∧ r.g < r.b
  len : L.length = (b - a).toNat
  nested : ∀ r ∈ L, a ≤ r.a ∧ r.b ≤ b
  rep_loc : ∀ r ∈ L, r.e = e ∨ (a < r.e ∧ r.e < b)
  rep_nodup : (L.map Rng.e).Nodup
  rep_cover : ∀ x : ℤ, a < x → x < b → ∃ r ∈ L, r.e = x
  childL_mem : ∀ r ∈ L, r.a < r.g →
    (⟨r.g, r.a, r.g, gammaOf n mcodes r.g⟩ : Rng) ∈ L
  childR_mem : ∀ r ∈ L, r.g + 1 < r.b →
    (⟨r.g + 1, r.g + 1, r.b, gammaOf n mcodes (r.g + 1)⟩ : Rng) ∈ L
  parent_ex : ∀ r ∈ L, r.e = e ∨
    ∃ rp ∈ L, childL n rp = r.e ∨ childR n rp = r.e
  split_nodup : (L.map Rng.g).Nodup
  split_cover : ∀ x : ℤ, a ≤ x → x < b → ∃ r ∈ L, r.g = x
  edge_local : ∀ r ∈ L, EdgeIn n a b (childL n r) ∧ EdgeIn n a b (childR n r)
  edge_unique : ∀ r₁ ∈ L, ∀ r₂ ∈ L, ∀ k : ℤ,
    (childL n r₁ = k ∨ childR n r₁ = k) →
    (childL n r₂ = k ∨ childR n r₂ = k) → r₁ = r₂
  edge_cover_leaf : ∀ x : ℤ, a ≤ x → x ≤ b →
    ∃ r ∈ L, childL n r = x + (n - 1) ∨ childR n r = x + (n - 1)
  laminar : ∀ r1 ∈ L, ∀ r2 ∈ L, r1.a ≤ r2.b → r2.a ≤ r1.b →
    (r1.a ≤ r2.a ∧ r2.b ≤ r1.b) ∨ (r2.a ≤ r1.a ∧ r1.b ≤ r2.b)
  range_inj : ∀ r1 ∈ L, ∀ r2 ∈ L, r1.a = r2.a → r1.b = r2.b → r1 = r2

theorem EdgeIn_weaken {n lo hi lo' hi' k : ℤ} (h1 : lo' ≤ lo) (h2 : hi ≤ hi')
    (h : EdgeIn n lo hi k) : EdgeIn n lo' hi' k := by
  unfold EdgeIn at *
  rcases h with ⟨ha, hb⟩ | ⟨x, hx1, hx2, hx3⟩
  · exact Or.inl ⟨by omega, by omega⟩
  · exact Or.inr ⟨x, by omega, by omega, hx3⟩

theorem EdgeIn_lr_disjoint {n a γ b k : ℤ} (h0a : 0 ≤ a) (hbn : b ≤ n - 1)
    (hγ : a ≤ γ) (hγb : γ < b)
    (h1 : EdgeIn n a γ k) (h2 : EdgeIn n (γ + 1) b k) : False := by
  unfold EdgeIn at *
  rcases h1 with ⟨ha1, hb1⟩ | ⟨x, hx1, hx2, hx3⟩ <;>
    rcases h2 with ⟨ha2, hb2⟩ | ⟨y, hy1, hy2, hy3⟩ <;> omega

namespace SortedCodes

variable {n : ℤ} {mcodes : ℤ → ℕ}

/-- One step of the family construction: if both generated children families
are well-formed, so is the family with the parent range consed on. -/
theorem famOk_step (H : SortedCodes n mcodes) {a b e γ : ℤ} {L1 L2 : List Rng}
    (hv : Inv n mcodes a b e) (haγ : a ≤ γ) (hγb : γ < b)
    (hγeq : gammaOf n mcodes e = γ)
    (hF1 : a < γ → FamOk n mcodes a γ γ L1)
    (hF2 : γ + 1 < b → FamOk n mcodes (γ + 1) b (γ + 1) L2) :
    FamOk n mcodes a b e
      ((⟨e, a, b, γ⟩ : Rng) ::
        ((if a < γ then L1 else []) ++ (if γ + 1 < b then L2 else []))) := by
  have h0a := hv.h0a
  have hab := hv.hab
  have hbnle := hv.hbn
  have hee := hv.he
  have hn2 := H.two_le
  obtain ⟨FL, hFLdef⟩ :
      ∃ L, ((⟨e, a, b, γ⟩ : Rng) ::
        ((if a < γ then L1 else []) ++ (if γ + 1 < b then L2 else []))) = L := ⟨_, rfl⟩
  rw [hFLdef]
  have hmem : ∀ r : Rng, r ∈ FL ↔
      (r = ⟨e, a, b, γ⟩ ∨ (a < γ ∧ r ∈ L1) ∨ (γ + 1 < b ∧ r ∈ L2)) := by
    intro r
    rw [← hFLdef]
    simp only [List.mem_cons, List.mem_append, mem_ite_nil]
  have hhd_mem : (⟨e, a, b, γ⟩ : Rng) ∈ FL := by
    rw [← hFLdef]
    exact List.mem_cons_self _ _
  have hlift1 : ∀ {r : Rng}, a < γ → r ∈ L1 → r ∈ FL := by
    intro r hc hr
    rw [hmem r]
    exact Or.inr (Or.inl ⟨hc, hr⟩)
  have hlift2 : ∀ {r : Rng}, γ + 1 < b → r ∈ L2 → r ∈ FL := by
    intro r hc hr
    rw [hmem r]
    exact Or.inr (Or.inr ⟨hc, hr⟩)
  -- head child values
  have hclhd : childL n ⟨e, a, b, γ⟩ = if a = γ then γ + (n - 1) else γ := rfl
  have hcrhd : childR n ⟨e, a, b, γ⟩ = if b = γ + 1 then γ + 1 + (n - 1) else γ + 1 := rfl
  -- localization of sub-family edges
  have hsub1 : ∀ r ∈ L1, a < γ →
      EdgeIn n a γ (childL n r) ∧ EdgeIn n a γ (childR n r) := by
    intro r hr hc
    exact (hF1 hc).edge_local r hr
  have hsub2 : ∀ r ∈ L2, γ + 1 < b →
      EdgeIn n (γ + 1) b (childL n r) ∧ EdgeIn n (γ + 1) b (childR n r) := by
    intro r hr hc
    exact (hF2 hc).edge_local r hr
  -- a head edge never lands in the left sub-family territory
  have hhead_not1 : ∀ k : ℤ, a < γ →
      (childL n ⟨e, a, b, γ⟩ = k ∨ childR n ⟨e, a, b, γ⟩ = k) → ¬EdgeIn n a γ k := by
    intro k hc hk hE
    rw [hclhd, hcrhd] at hk
    rw [if_neg (by omega : ¬(a = γ))] at hk
    unfold EdgeIn at hE
    by_cases hbγ : b = γ + 1
    · rw [if_pos hbγ] at hk
      rcases hk with rfl | rfl <;>
        rcases hE with ⟨h1, h2⟩ | ⟨x, hx1, hx2, hx3⟩ <;> omega
    · rw [if_neg hbγ] at hk
      rcases hk with rfl | rfl <;>
        rcases hE with ⟨h1, h2⟩ | ⟨x, hx1, hx2, hx3⟩ <;> omega
  -- a head edge never lands in the right sub-family territory
  have hhead_not2 : ∀ k : ℤ, γ + 1 < b →
      (childL n ⟨e, a, b, γ⟩ = k ∨ childR n ⟨e, a, b, γ⟩ = k) →
        ¬EdgeIn n (γ + 1) b k := by
    intro k hc hk hE
    rw [hclhd, hcrhd] at hk
    rw [if_neg (by omega : ¬(b = γ + 1))] at hk
    unfold EdgeIn at hE
    by_cases haγ' : a = γ
    · rw [if_pos haγ'] at hk
      rcases hk with rfl | rfl <;>
        rcases hE with ⟨h1, h2⟩ | ⟨x, hx1, hx2, hx3⟩ <;> omega
    · rw [if_neg haγ'] at hk
      rcases hk with rfl | rfl <;>
        rcases hE with ⟨h1, h2⟩ | ⟨x, hx1, hx2, hx3⟩ <;> omega
  refine ⟨?_, ?_, ?_, ?_, ?_, ?_, ?_, ?_, ?_, ?_, ?_, ?_, ?_, ?_, ?_, ?_, ?_,
    ?_, ?_⟩
  · -- self_mem
    rw [hγeq]
    exact hhd_mem
  · -- inv_all
    intro r hr
    rw [hmem r] at hr
    rcases hr with rfl | ⟨hc, hr⟩ | ⟨hc, hr⟩
    · exact hv
    · exact (hF1 hc).inv_all r hr
    · exact (hF2 hc).inv_all r hr
  · -- g_eq
    intro r hr
    rw [hmem r] at hr
    rcases hr with rfl | ⟨hc, hr⟩ | ⟨hc, hr⟩
    · exact hγeq.symm
    · exact (hF1 hc).g_eq r hr
    · exact (hF2 hc).g_eq r hr
  · -- g_range
    intro r hr
    rw [hmem r] at hr
    rcases hr with rfl | ⟨hc, hr⟩ | ⟨hc, hr⟩
    · exact ⟨haγ, hγb⟩
    · exact (hF1 hc).g_range r hr
    · exact (hF2 hc).g_range r hr
  · -- len
    have hl1 : (if a < γ then L1 else []).length = (γ - a).toNat := by
      by_cases hc : a < γ
      · simp only [if_pos hc]
        exact (hF1 hc).len
      · simp only [if_neg hc, List.length_nil]
        omega
    have hl2 : (if γ + 1 < b then L2 else []).length = (b - (γ + 1)).toNat := by
      by_cases hc : γ + 1 < b
      · simp only [if_pos hc]
        exact (hF2 hc).len
      · simp only [if_neg hc, List.length_nil]
        omega
    rw [← hFLdef, List.length_cons, List.length_append, hl1, hl2]
    omega
  · -- nested
    intro r hr
    rw [hmem r] at hr
    rcases hr with rfl | ⟨hc, hr⟩ | ⟨hc, hr⟩
    · exact ⟨le_rfl, le_rfl⟩
    · have := (hF1 hc).nested r hr
      exact ⟨this.1, by omega⟩
    · have := (hF2 hc).nested r hr
      exact ⟨by omega, this.2⟩
  · -- rep_loc
    intro r hr
    rw [hmem r] at hr
    rcases hr with rfl | ⟨hc, hr⟩ | ⟨hc, hr⟩
    · exact Or.inl rfl
    · rcases (hF1 hc).rep_loc r hr with h | h
      · exact Or.inr ⟨by omega, by omega⟩
      · exact Or.inr ⟨h.1, by omega⟩
    · rcases (hF2 hc).rep_loc r hr with h | h
      · exact Or.inr ⟨by omega, by omega⟩
      · exact Or.inr ⟨by omega, h.2⟩
  · -- rep_nodup
    rw [← hFLdef]
    simp only [List.map_cons, List.map_append]
    have hrep1 : ∀ x : ℤ, x ∈ (if a < γ then L1 else []).map Rng.e →
        a < x ∧ x ≤ γ := by
      intro x hx
      rcases List.mem_map.1 hx with ⟨r, hr, rfl⟩
      rw [mem_ite_nil] at hr
      rcases (hF1 hr.1).rep_loc r hr.2 with h | h
      · omega
      · omega
    have hrep2 : ∀ x : ℤ, x ∈ (if γ + 1 < b then L2 else []).map Rng.e →
        γ + 1 ≤ x ∧ x < b := by
      intro x hx
      rcases List.mem_map.1 hx with ⟨r, hr, rfl⟩
      rw [mem_ite_nil] at hr
      rcases (hF2 hr.1).rep_loc r hr.2 with h | h
      · omega
      · omega
    apply List.nodup_cons.2
    constructor
    · intro hmem'
      rcases List.mem_append.1 hmem' with h | h
      · have := hrep1 _ h
        rcases hee with rfl | rfl <;> omega
      · have := hrep2 _ h
        rcases hee with rfl | rfl <;> omega
    · apply List.nodup_append.2
      refine ⟨?_, ?_, ?_⟩
      · by_cases hc : a < γ
        · simp only [if_pos hc]
          exact (hF1 hc).rep_nodup
        · simp only [if_neg hc, List.map_nil]
          exact List.nodup_nil
      · by_cases hc : γ + 1 < b
        · simp only [if_pos hc]
          exact (hF2 hc).rep_nodup
        · simp only [if_neg hc, List.map_nil]
          exact List.nodup_nil
      · intro x hx1 hx2
        have := hrep1 x hx1
        have := hrep2 x hx2
        omega
  · -- rep_cover
    intro x hax hxb
    by_cases hxγ : x < γ
    · obtain ⟨r, hr, hre⟩ := (hF1 (by omega)).rep_cover x hax hxγ
      exact ⟨r, hlift1 (by omega) hr, hre⟩
    · by_cases hxγ2 : x = γ
      · subst hxγ2
        exact ⟨⟨x, a, x, gammaOf n mcodes x⟩,
          hlift1 (by omega) (hF1 (by omega)).self_mem, rfl⟩
      · by_cases hxγ3 : x = γ + 1
        · subst hxγ3
          exact ⟨⟨γ + 1, γ + 1, b, gammaOf n mcodes (γ + 1)⟩,
            hlift2 (by omega) (hF2 (by omega)).self_mem, rfl⟩
        · obtain ⟨r, hr, hre⟩ := (hF2 (by omega)).rep_cover x (by omega) hxb
          exact ⟨r, hlift2 (by omega) hr, hre⟩
  · -- childL_mem
    intro r hr hlt
    rw [hmem r] at hr
    rcases hr with rfl | ⟨hc, hr⟩ | ⟨hc, hr⟩
    · exact hlift1 hlt (hF1 hlt).self_mem
    · exact hlift1 hc ((hF1 hc).childL_mem r hr hlt)
    · exact hlift2 hc ((hF2 hc).childL_mem r hr hlt)
  · -- childR_mem
    intro r hr hlt
    rw [hmem r] at hr
    rcases hr with rfl | ⟨hc, hr⟩ | ⟨hc, hr⟩
    · exact hlift2 hlt (hF2 hlt).self_mem
    · exact hlift1 hc ((hF1 hc).childR_mem r hr hlt)
    · exact hlift2 hc ((hF2 hc).childR_mem r hr hlt)
  · -- parent_ex
    intro r hr
    rw [hmem r] at hr
    rcases hr with rfl | ⟨hc, hr⟩ | ⟨hc, hr⟩
    · exact Or.inl rfl
    · rcases (hF1 hc).parent_ex r hr with he' | ⟨rp, hrp, hcp⟩
      · refine Or.inr ⟨⟨e, a, b, γ⟩, hhd_mem, Or.inl ?_⟩
        rw [hclhd, if_neg (by omega : ¬(a = γ)), he']
      · exact Or.inr ⟨rp, hlift1 hc hrp, hcp⟩
    · rcases (hF2 hc).parent_ex r hr with he' | ⟨rp, hrp, hcp⟩
      · refine Or.inr ⟨⟨e, a, b, γ⟩, hhd_mem, Or.inr ?_⟩
        rw [hcrhd, if_neg (by omega : ¬(b = γ + 1)), he']
      · exact Or.inr ⟨rp, hlift2 hc hrp, hcp⟩
  · -- split_nodup
    rw [← hFLdef]
    simp only [List.map_cons, List.map_append]
    have hg1 : ∀ x : ℤ, x ∈ (if a < γ then L1 else []).map Rng.g →
        a ≤ x ∧ x < γ := by
      intro x hx
      rcases List.mem_map.1 hx with ⟨r, hr, rfl⟩
      rw [mem_ite_nil] at hr
      have h1 := (hF1 hr.1).g_range r hr.2
      have h2 := (hF1 hr.1).nested r hr.2
      omega
    have hg2 : ∀ x : ℤ, x ∈ (if γ + 1 < b then L2 else []).map Rng.g →
        γ + 1 ≤ x ∧ x < b := by
      intro x hx
      rcases List.mem_map.1 hx with ⟨r, hr, rfl⟩
      rw [mem_ite_nil] at hr
      have h1 := (hF2 hr.1).g_range r hr.2
      have h2 := (hF2 hr.1).nested r hr.2
      omega
    apply List.nodup_cons.2
    constructor
    · intro hmem'
      rcases List.mem_append.1 hmem' with h | h
      · have := hg1 _ h
        omega
      · have := hg2 _ h
        omega
    · apply List.nodup_append.2
      refine ⟨?_, ?_, ?_⟩
      · by_cases hc : a < γ
        · simp only [if_pos hc]
          exact (hF1 hc).split_nodup
        · simp only [if_neg hc, List.map_nil]
          exact List.nodup_nil
      · by_cases hc : γ + 1 < b
        · simp only [if_pos hc]
          exact (hF2 hc).split_nodup
        · simp only [if_neg hc, List.map_nil]
          exact List.nodup_nil
      · intro x hx1 hx2
        have := hg1 x hx1
        have := hg2 x hx2
        omega
  · -- split_cover
    intro x hax hxb
    by_cases hxγ : x = γ
    · exact ⟨⟨e, a, b, γ⟩, hhd_mem, hxγ.symm⟩
    · by_cases hxlt : x < γ
      · obtain ⟨r, hr, hrg⟩ := (hF1 (by omega)).split_cover x hax hxlt
        exact ⟨r, hlift1 (by omega) hr, hrg⟩
      · obtain ⟨r, hr, hrg⟩ := (hF2 (by omega)).split_cover x (by omega) hxb
        exact ⟨r, hlift2 (by omega) hr, hrg⟩
  · -- edge_local
    intro r hr
    rw [hmem r] at hr
    rcases hr with rfl | ⟨hc, hr⟩ | ⟨hc, hr⟩
    · constructor
      · rw [hclhd]
        by_cases haγ' : a = γ
        · rw [if_pos haγ']
          exact Or.inr ⟨γ, by omega, by omega, rfl⟩
        · rw [if_neg haγ']
          exact Or.inl ⟨by omega, by omega⟩
      · rw [hcrhd]
        by_cases hbγ : b = γ + 1
        · rw [if_pos hbγ]
          exact Or.inr ⟨γ + 1, by omega, by omega, rfl⟩
        · rw [if_neg hbγ]
          exact Or.inl ⟨by omega, by omega⟩
    · have := (hF1 hc).edge_local r hr
      exact ⟨EdgeIn_weaken le_rfl (by omega) this.1,
        EdgeIn_weaken le_rfl (by omega) this.2⟩
    · have := (hF2 hc).edge_local r hr
      exact ⟨EdgeIn_weaken (by omega) le_rfl this.1,
        EdgeIn_weaken (by omega) le_rfl this.2⟩
  · -- edge_unique
    intro r₁ hr₁ r₂ hr₂ k hk₁ hk₂
    rw [hmem r₁] at hr₁
    rw [hmem r₂] at hr₂
    rcases hr₁ with rfl | ⟨hc₁, hm₁⟩ | ⟨hc₁, hm₁⟩ <;>
      rcases hr₂ with rfl | ⟨hc₂, hm₂⟩ | ⟨hc₂, hm₂⟩
    · rfl
    · exfalso
      have hE : EdgeIn n a γ k := by
        rcases hk₂ with h2 | h2
        · exact h2 ▸ (hsub1 r₂ hm₂ hc₂).1
        · exact h2 ▸ (hsub1 r₂ hm₂ hc₂).2
      exact hhead_not1 k hc₂ hk₁ hE
    · exfalso
      have hE : EdgeIn n (γ + 1) b k := by
        rcases hk₂ with h2 | h2
        · exact h2 ▸ (hsub2 r₂ hm₂ hc₂).1
        · exact h2 ▸ (hsub2 r₂ hm₂ hc₂).2
      exact hhead_not2 k hc₂ hk₁ hE
    · exfalso
      have hE : EdgeIn n a γ k := by
        rcases hk₁ with h1 | h1
        · exact h1 ▸ (hsub1 r₁ hm₁ hc₁).1
        · exact h1 ▸ (hsub1 r₁ hm₁ hc₁).2
      exact hhead_not1 k hc₁ hk₂ hE
    · exact (hF1 hc₁).edge_unique r₁ hm₁ r₂ hm₂ k hk₁ hk₂
    · exfalso
      have hE1 : EdgeIn n a γ k := by
        rcases hk₁ with h1 | h1
        · exact h1 ▸ (hsub1 r₁ hm₁ hc₁).1
        · exact h1 ▸ (hsub1 r₁ hm₁ hc₁).2
      have hE2 : EdgeIn n (γ + 1) b k := by
        rcases hk₂ with h2 | h2
        · exact h2 ▸ (hsub2 r₂ hm₂ hc₂).1
        · exact h2 ▸ (hsub2 r₂ hm₂ hc₂).2
      exact EdgeIn_lr_disjoint h0a hbnle haγ hγb hE1 hE2
    · exfalso
      have hE : EdgeIn n (γ + 1) b k := by
        rcases hk₁ with h1 | h1
        · exact h1 ▸ (hsub2 r₁ hm₁ hc₁).1
        · exact h1 ▸ (hsub2 r₁ hm₁ hc₁).2
      exact hhead_not2 k hc₁ hk₂ hE
    · exfalso
      have hE1 : EdgeIn n a γ k := by
        rcases hk₂ with h2 | h2
        · exact h2 ▸ (hsub1 r₂ hm₂ hc₂).1
        · exact h2 ▸ (hsub1 r₂ hm₂ hc₂).2
      have hE2 : EdgeIn n (γ + 1) b k := by
        rcases hk₁ with h1 | h1
        · exact h1 ▸ (hsub2 r₁ hm₁ hc₁).1
        · exact h1 ▸ (hsub2 r₁ hm₁ hc₁).2
      exact EdgeIn_lr_disjoint h0a hbnle haγ hγb hE1 hE2
    · exact (hF2 hc₁).edge_unique r₁ hm₁ r₂ hm₂ k hk₁ hk₂
  · -- edge_cover_leaf
    intro x hax hxb
    by_cases hxγ : x ≤ γ
    · by_cases haγ' : a = γ
      · have hxa : x = γ := by omega
        refine ⟨⟨e, a, b, γ⟩, hhd_mem, Or.inl ?_⟩
        rw [hclhd, if_pos haγ', hxa]
      · obtain ⟨r, hr, hcr⟩ := (hF1 (by omega)).edge_cover_leaf x hax hxγ
        exact ⟨r, hlift1 (by omega) hr, hcr⟩
    · by_cases hbγ : b = γ + 1
      · have hxb' : x = γ + 1 := by omega
        refine ⟨⟨e, a, b, γ⟩, hhd_mem, Or.inr ?_⟩
        rw [hcrhd, if_pos hbγ, hxb']
      · obtain ⟨r, hr, hcr⟩ := (hF2 (by omega)).edge_cover_leaf x (by omega) hxb
        exact ⟨r, hlift2 (by omega) hr, hcr⟩
  · -- laminar
    intro r1 hr1 r2 hr2 h12 h21
    rw [hmem] at hr1 hr2
    rcases hr1 with rfl | ⟨hc1, hm1⟩ | ⟨hc1, hm1⟩ <;>
      rcases hr2 with rfl | ⟨hc2, hm2⟩ | ⟨hc2, hm2⟩
    · dsimp only at h12 h21 ⊢
      omega
    · have := (hF1 hc2).nested r2 hm2
      dsimp only at h12 h21 ⊢
      omega
    · have := (hF2 hc2).nested r2 hm2
      dsimp only at h12 h21 ⊢
      omega
    · have := (hF1 hc1).nested r1 hm1
      dsimp only at h12 h21 ⊢
      omega
    · exact (hF1 hc1).laminar r1 hm1 r2 hm2 h12 h21
    · have hn1 := (hF1 hc1).nested r1 hm1
      have hn2 := (hF2 hc2).nested r2 hm2
      omega
    · have := (hF2 hc1).nested r1 hm1
      dsimp only at h12 h21 ⊢
      omega
    · have hn1 := (hF2 hc1).nested r1 hm1
      have hn2 := (hF1 hc2).nested r2 hm2
      omega
    · exact (hF2 hc1).laminar r1 hm1 r2 hm2 h12 h21
  · -- range_inj
    intro r1 hr1 r2 hr2 hA hB
    rw [hmem] at hr1 hr2
    rcases hr1 with rfl | ⟨hc1, hm1⟩ | ⟨hc1, hm1⟩ <;>
      rcases hr2 with rfl | ⟨hc2, hm2⟩ | ⟨hc2, hm2⟩
    · rfl
    · have := (hF1 hc2).nested r2 hm2
      dsimp only at hA hB
      exact absurd hB (by omega)
    · have := (hF2 hc2).nested r2 hm2
      dsimp only at hA hB
      exact absurd hA (by omega)
    · have := (hF1 hc1).nested r1 hm1
      dsimp only at hA hB
      exact absurd hB (by omega)
    · exact (hF1 hc1).range_inj r1 hm1 r2 hm2 hA hB
    · have hn1 := (hF1 hc1).nested r1 hm1
      have hn2 := (hF2 hc2).nested r2 hm2
      have hab1 := ((hF1 hc1).inv_all r1 hm1).hab
      exact absurd hA (by omega)
    · have := (hF2 hc1).nested r1 hm1
      dsimp only at hA hB
      exact absurd hA (by omega)
    · have hn1 := (hF2 hc1).nested r1 hm1
      have hn2 := (hF1 hc2).nested r2 hm2
      have hab2 := ((hF1 hc2).inv_all r2 hm2).hab
      exact absurd hA (by omega)
    · exact (hF2 hc1).range_inj r1 hm1 r2 hm2 hA hB

/-- The grand induction: starting from any range satisfying the invariant,
the generated family is well-formed in every way the global assembly needs. -/
theorem famNodes_ok (H : SortedCodes n mcodes) :
    ∀ (f : ℕ) (a b e : ℤ), Inv n mcodes a b e → (b - a).toNat ≤ f →
      FamOk n mcodes a b e (famNodes n mcodes f a b e) := by
  intro f
  induction f with
  | zero =>
    intro a b e hv hsz
    have := hv.hab
    exact absurd hsz (by omega)
  | succ f ih =>
    intro a b e hv hsz
    have hab := hv.hab
    obtain ⟨γ, bn, hbn, haγ, hγb, hatt, hsplit, hbl', hbd, hbj, hblc, hbrc, hInvL, hInvR⟩ :=
      H.node_correct hv
    have hγeq : gammaOf n mcodes e = γ := by
      unfold gammaOf
      rw [hbn]
      exact hsplit
    have hunf : famNodes n mcodes (f + 1) a b e =
        (⟨e, a, b, γ⟩ : Rng) ::
          ((if a < γ then famNodes n mcodes f a γ γ else []) ++
           (if γ + 1 < b then famNodes n mcodes f (γ + 1) b (γ + 1) else [])) := by
      simp only [famNodes]
      rw [hγeq]
    rw [hunf]
    exact famOk_step H hv haγ hγb hγeq
      (fun h => ih a γ γ (hInvL h) (by omega))
      (fun h => ih (γ + 1) b (γ + 1) (hInvR h) (by omega))

end SortedCodes

/-! ### The `build_tree` fold writes each slot exactly once -/

/-- Characterization of the sequential `build_tree` fold over any list of
(distinct) representative indices: it succeeds, writes each child slot of each
processed node, routes every parent slot to its unique writer, flags the root,
and leaves every other slot untouched. -/
theorem buildFold_ok (n : ℤ) (mcodes : ℤ → ℕ) (fam : List Rng)
    (hstep : ∀ r ∈ fam, ∃ bn, buildNodeE n mcodes r.e = some bn ∧
      bn.lc = childL n r ∧ bn.rc = childR n r)
    (hinj : ∀ r ∈ fam, ∀ r' ∈ fam, r.e = r'.e → r = r')
    (huni : ∀ r ∈ fam, ∀ r' ∈ fam, ∀ k : ℤ, (childL n r = k ∨ childR n r = k) →
      (childL n r' = k ∨ childR n r' = k) → r = r')
    (hpos : ∀ r ∈ fam, 0 < childL n r ∧ 0 < childR n r) :
    ∀ (idxs : List ℤ) (st : TreeArrays), idxs.Nodup →
      (∀ i ∈ idxs, ∃ r ∈ fam, r.e = i) →
      ∃ ta, List.foldlM (buildStepE n mcodes) st idxs = some ta ∧
        (∀ i : ℤ, i ∉ idxs → ta.lchild i = st.lchild i ∧ ta.rchild i = st.rchild i) ∧
        (∀ r ∈ fam, r.e ∈ idxs → ta.lchild r.e = childL n r ∧ ta.rchild r.e = childR n r) ∧
        (∀ k : ℤ, (∀ r ∈ fam, r.e ∈ idxs → childL n r ≠ k ∧ childR n r ≠ k) →
          ((0 : ℤ) ∉ idxs ∨ k ≠ 0) → ta.parent k = st.parent k) ∧
        (∀ r ∈ fam, r.e ∈ idxs → ∀ k : ℤ, (childL n r = k ∨ childR n r = k) →
          ta.parent k = r.e) ∧
        ((0 : ℤ) ∈ idxs → ta.parent 0 = -1) := by
  intro idxs
  induction idxs with
  | nil =>
    intro st _ _
    refine ⟨st, rfl, ?_, ?_, ?_, ?_, ?_⟩
    · intro i _
      exact ⟨rfl, rfl⟩
    · intro r _ hre
      exact absurd hre (List.not_mem_nil _)
    · intro k _ _
      rfl
    · intro r _ hre
      exact absurd hre (List.not_mem_nil _)
    · intro h0
      exact absurd h0 (List.not_mem_nil _)
  | cons i rest ih =>
    intro st hnd hall
    obtain ⟨ri, hri, hrie⟩ := hall i (List.mem_cons_self _ _)
    obtain ⟨bn, hbn, hlc, hrc⟩ := hstep ri hri
    rw [hrie] at hbn
    have hstepEq : buildStepE n mcodes st i = some
        ⟨Function.update st.lchild i bn.lc,
         Function.update st.rchild i bn.rc,
         (if i = 0 then
            Function.update (Function.update (Function.update st.parent bn.lc i) bn.rc i) 0 (-1)
          else Function.update (Function.update st.parent bn.lc i) bn.rc i)⟩ := by
      unfold buildStepE
      rw [hbn]
      rfl
    obtain ⟨st', hst'⟩ : ∃ st', buildStepE n mcodes st i = some st' ∧
        st'.lchild = Function.update st.lchild i bn.lc ∧
        st'.rchild = Function.update st.rchild i bn.rc ∧
        st'.parent = (if i = 0 then
            Function.update (Function.update (Function.update st.parent bn.lc i) bn.rc i) 0 (-1)
          else Function.update (Function.update st.parent bn.lc i) bn.rc i) :=
      ⟨_, hstepEq, rfl, rfl, rfl⟩
    obtain ⟨hstepEq', hplc, hprc, hppar⟩ := hst'
    have hnd' : rest.Nodup := (List.nodup_cons.1 hnd).2
    have hinot : i ∉ rest := (List.nodup_cons.1 hnd).1
    have hall' : ∀ j ∈ rest, ∃ r ∈ fam, r.e = j := fun j hj =>
      hall j (List.mem_cons_of_mem _ hj)
    obtain ⟨ta, hta, hA, hB, hC, hD, hE⟩ := ih st' hnd' hall'
    refine ⟨ta, ?_, ?_, ?_, ?_, ?_, ?_⟩
    · rw [List.foldlM_cons, hstepEq']
      exact hta
    · -- frame for children slots
      intro j hj
      have hj1 : j ≠ i := fun h => hj (h ▸ List.mem_cons_self _ _)
      have hj2 : j ∉ rest := fun h => hj (List.mem_cons_of_mem _ h)
      obtain ⟨hL, hR⟩ := hA j hj2
      rw [hL, hR, hplc, hprc, Function.update_noteq hj1, Function.update_noteq hj1]
      exact ⟨rfl, rfl⟩
    · -- children-slot values
      intro r hr hre
      rcases List.mem_cons.1 hre with hre0 | hre'
      · have hrr : r = ri := hinj r hr ri hri (by rw [hre0, hrie])
        subst hrr
        have hie : r.e = i := hre0
        obtain ⟨hL, hR⟩ := hA r.e (hie ▸ hinot)
        rw [hL, hR, hplc, hprc, hie, Function.update_same, Function.update_same]
        exact ⟨hlc.symm ▸ rfl, hrc.symm ▸ rfl⟩
      · exact hB r hr hre'
    · -- parent frame
      intro k hk hk0
      have hkr : ∀ r ∈ fam, r.e ∈ rest → childL n r ≠ k ∧ childR n r ≠ k :=
        fun r hr hre => hk r hr (List.mem_cons_of_mem _ hre)
      have hk0' : (0 : ℤ) ∉ rest ∨ k ≠ 0 := by
        rcases hk0 with h | h
        · exact Or.inl (fun hc => h (List.mem_cons_of_mem _ hc))
        · exact Or.inr h
      rw [hC k hkr hk0', hppar]
      have hkl : bn.lc ≠ k := by
        rw [hlc]
        exact (hk ri hri (hrie ▸ List.mem_cons_self _ _)).1
      have hkr' : bn.rc ≠ k := by
        rw [hrc]
        exact (hk ri hri (hrie ▸ List.mem_cons_self _ _)).2
      by_cases hi0 : i = 0
      · rw [if_pos hi0]
        have hkne0 : k ≠ 0 := by
          rcases hk0 with h | h
          · exact absurd (hi0 ▸ List.mem_cons_self i rest) h
          · exact h
        rw [Function.update_noteq hkne0, Function.update_noteq (Ne.symm hkr'),
          Function.update_noteq (Ne.symm hkl)]
      · rw [if_neg hi0]
        rw [Function.update_noteq (Ne.symm hkr'), Function.update_noteq (Ne.symm hkl)]
    · -- parent values
      intro r hr hre k hkchild
      rcases List.mem_cons.1 hre with hre0 | hre'
      · have hrr : r = ri := hinj r hr ri hri (by rw [hre0, hrie])
        subst hrr
        have hkpos : 0 < k := by
          rcases hkchild with h | h
          · exact h ▸ (hpos r hr).1
          · exact h ▸ (hpos r hr).2
        have hfr : ∀ r' ∈ fam, r'.e ∈ rest → childL n r' ≠ k ∧ childR n r' ≠ k := by
          intro r' hr' hre'
          constructor
          · intro hck
            have : r' = r := huni r' hr' r hr k (Or.inl hck) hkchild
            rw [this] at hre'
            exact hinot (hre0 ▸ hre')
          · intro hck
            have : r' = r := huni r' hr' r hr k (Or.inr hck) hkchild
            rw [this] at hre'
            exact hinot (hre0 ▸ hre')
        rw [hC k hfr (Or.inr (by omega)), hppar]
        by_cases hi0 : i = 0
        · rw [if_pos hi0]
          rw [Function.update_noteq (by omega : k ≠ 0)]
          rcases hkchild with h | h
          · rw [← hlc] at h
            by_cases hkrc : k = bn.rc
            · rw [hkrc, Function.update_same]
              exact hre0.symm
            · rw [Function.update_noteq hkrc, ← h, Function.update_same]
              exact hre0.symm
          · rw [← hrc] at h
            rw [← h, Function.update_same]
            exact hre0.symm
        · rw [if_neg hi0]
          rcases hkchild with h | h
          · rw [← hlc] at h
            by_cases hkrc : k = bn.rc
            · rw [hkrc, Function.update_same]
              exact hre0.symm
            · rw [Function.update_noteq hkrc, ← h, Function.update_same]
              exact hre0.symm
          · rw [← hrc] at h
            rw [← h, Function.update_same]
            exact hre0.symm
      · exact hD r hr hre' k hkchild
    · -- root sentinel
      intro h0
      rcases List.mem_cons.1 h0 with h00 | h0r
      · have hi0 : i = 0 := h00.symm
        have hfr : ∀ r' ∈ fam, r'.e ∈ rest → childL n r' ≠ 0 ∧ childR n r' ≠ 0 := by
          intro r' hr' _
          have := hpos r' hr'
          omega
        rw [hC 0 hfr (Or.inl (hi0 ▸ hinot)), hppar, if_pos hi0, Function.update_same]
      · exact hE h0r

theorem nodup_map_mem_inj {α β : Type} {f : α → β} {L : List α}
    (h : (L.map f).Nodup) : ∀ a ∈ L, ∀ b ∈ L, f a = f b → a = b := by
  induction L with
  | nil => simp
  | cons x xs ih =>
    simp only [List.map_cons, List.nodup_cons] at h
    intro a ha b hb hfab
    rcases List.mem_cons.1 ha with rfl | ha' <;> rcases List.mem_cons.1 hb with rfl | hb'
    · rfl
    · exact absurd (hfab ▸ List.mem_map_of_mem f hb') h.1
    · exact absurd (hfab ▸ List.mem_map_of_mem f ha') h.1
    · exact ih h.2 a ha' b hb' hfab

theorem mem_range_ofNat {m : ℤ} {c : ℕ} :
    m ∈ (List.range c).map Int.ofNat ↔ 0 ≤ m ∧ m < (c : ℤ) := by
  simp only [List.mem_map, List.mem_range, Int.ofNat_eq_natCast]
  constructor
  · rintro ⟨x, hx, rfl⟩
    omega
  · intro ⟨h0, hc⟩
    exact ⟨m.toNat, by omega, by omega⟩

theorem range_ofNat_nodup {c : ℕ} : ((List.range c).map Int.ofNat).Nodup :=
  (List.nodup_range c).map (fun x y h => by
    rw [Int.ofNat_eq_natCast, Int.ofNat_eq_natCast] at h
    omega)

namespace SortedCodes

variable {n : ℤ} {mcodes : ℤ → ℕ}

/-- The whole sorted array is a valid root range represented by index 0. -/
theorem root_inv (H : SortedCodes n mcodes) : Inv n mcodes 0 (n - 1) 0 := by
  have hn2 := H.two_le
  refine ⟨le_rfl, by omega, le_rfl, Or.inl rfl, ?_, ?_⟩
  · intro _
    constructor
    · rw [Dx_oor (by omega), Dx_oor (by omega)]
    · intro t h1 h2
      rw [Dx_oor (by omega : ¬(0 ≤ (0 : ℤ) - 1 ∧ (0 : ℤ) - 1 < n - 1)),
        Dx_in (by omega) (by omega)]
      have := H.blk_le_64 (a := t) (b := t + 1) (by omega) (by omega) (by omega) (by omega)
      omega
  · intro h0
    exact absurd h0 (by omega)

/-- `build_treeE` succeeds on sorted codes and its output arrays are exactly
the Karras tree of the generated family: every internal slot holds its two
child indices, every child's parent slot holds its parent, the root parent is
the `-1` sentinel, and all other slots are untouched. -/
theorem build_treeE_ok (H : SortedCodes n mcodes) (st0 : TreeArrays) :
    ∃ fam ta, FamOk n mcodes 0 (n - 1) 0 fam ∧
      build_treeE n mcodes st0 = some ta ∧
      (∀ r ∈ fam, ta.lchild r.e = childL n r ∧ ta.rchild r.e = childR n r) ∧
      (∀ r ∈ fam, ∀ k : ℤ, (childL n r = k ∨ childR n r = k) → ta.parent k = r.e) ∧
      ta.parent 0 = -1 ∧
      (∀ i : ℤ, ¬(0 ≤ i ∧ i < n - 1) → ta.lchild i = st0.lchild i ∧
        ta.rchild i = st0.rchild i) ∧
      (∀ k : ℤ, k ≠ 0 → (∀ r ∈ fam, childL n r ≠ k ∧ childR n r ≠ k) →
        ta.parent k = st0.parent k) := by
  have hn2 := H.two_le
  obtain ⟨fam, hfamdef⟩ : ∃ L, famNodes n mcodes n.toNat 0 (n - 1) 0 = L := ⟨_, rfl⟩
  have hfam : FamOk n mcodes 0 (n - 1) 0 fam :=
    hfamdef ▸ H.famNodes_ok n.toNat 0 (n - 1) 0 (H.root_inv) (by omega)
  have hstep : ∀ r ∈ fam, ∃ bn, buildNodeE n mcodes r.e = some bn ∧
      bn.lc = childL n r ∧ bn.rc = childR n r := by
    intro r hr
    obtain ⟨γ, bn, hbn, haγ, hγb, hatt, hsplit, _, _, _, hblc, hbrc, _, _⟩ :=
      H.node_correct (hfam.inv_all r hr)
    have hgg : r.g = γ := by
      rw [hfam.g_eq r hr]
      unfold gammaOf
      rw [hbn]
      exact hsplit
    refine ⟨bn, hbn, ?_, ?_⟩
    · rw [hblc]
      unfold childL
      rw [hgg]
    · rw [hbrc]
      unfold childR
      rw [hgg]
  have hinj : ∀ r ∈ fam, ∀ r' ∈ fam, r.e = r'.e → r = r' :=
    fun r hr r' hr' h => nodup_map_mem_inj hfam.rep_nodup r hr r' hr' h
  have hpos : ∀ r ∈ fam, 0 < childL n r ∧ 0 < childR n r := by
    intro r hr
    obtain ⟨h1, h2⟩ := hfam.edge_local r hr
    constructor
    · rcases h1 with ⟨ha, _⟩ | ⟨x, hx1, _, hx3⟩ <;> omega
    · rcases h2 with ⟨ha, _⟩ | ⟨x, hx1, _, hx3⟩ <;> omega
  have hall : ∀ i ∈ (List.range (n - 1).toNat).map Int.ofNat, ∃ r ∈ fam, r.e = i := by
    intro i hi
    rw [mem_range_ofNat] at hi
    by_cases hi0 : i = 0
    · exact ⟨⟨0, 0, n - 1, gammaOf n mcodes 0⟩, hfam.self_mem, hi0.symm⟩
    · exact hfam.rep_cover i (by omega) (by omega)
  obtain ⟨ta, hta, hA, hB, hC, hD, hE⟩ :=
    buildFold_ok n mcodes fam hstep hinj hfam.edge_unique hpos
      ((List.range (n - 1).toNat).map Int.ofNat) st0 range_ofNat_nodup hall
  have hmemrange : ∀ i : ℤ, i ∈ (List.range (n - 1).toNat).map Int.ofNat ↔
      0 ≤ i ∧ i < n - 1 := by
    intro i
    rw [mem_range_ofNat]
    omega
  have hrepin : ∀ r ∈ fam, r.e ∈ (List.range (n - 1).toNat).map Int.ofNat := by
    intro r hr
    rw [hmemrange]
    rcases hfam.rep_loc r hr with h | h
    · rw [h]
      omega
    · omega
  refine ⟨fam, ta, hfam, ?_, ?_, ?_, ?_, ?_, ?_⟩
  · unfold build_treeE
    exact hta
  · intro r hr
    exact hB r hr (hrepin r hr)
  · intro r hr k hk
    exact hD r hr (hrepin r hr) k hk
  · apply hE
    rw [hmemrange]
    omega
  · intro i hi
    apply hA
    rw [hmemrange]
    omega
  · intro k hk0 hkfr
    apply hC
    · intro r hr _
      exact hkfr r hr
    · exact Or.inr hk0

end SortedCodes

/-! ### Bridging the `int32`/`float32` arithmetic to the exact reference

On the domain `n ≤ 2^24 + 1` every range length fits a `float32` exactly and
no `int32` operation inside the loops can leave `(-2^31, 2^31)`, so the
source-arithmetic definitions coincide with the exact-arithmetic reference
definitions.  The theorems below prove this loop by loop and compose to
`build_tree_eq`. -/

theorem w32_eq_self {x : ℤ} (h1 : -(2 ^ 31) ≤ x) (h2 : x < 2 ^ 31) : w32 x = x := by
  unfold w32
  have e31 : (2 : ℤ) ^ 31 = 2147483648 := by norm_num
  have e32 : (2 : ℤ) ^ 32 = 4294967296 := by norm_num
  omega

theorem f32round_eq_self {l : ℤ} (h : l ≤ 2 ^ 24) : f32round l = l := by
  unfold f32round
  have e24 : (2 : ℤ) ^ 24 = 16777216 := by norm_num
  have e24n : (2 : ℕ) ^ 24 = 16777216 := by norm_num
  have hm : l.toNat ≤ 2 ^ 24 := by omega
  rw [if_pos hm]

/-- `delta` is the sentinel on any out-of-range probe. -/
theorem delta_oor {a b inner : ℤ} (mcodes : ℤ → ℕ) (h : b < 0 ∨ b > inner) :
    delta a b inner mcodes = -1 := by
  unfold delta
  rw [if_pos h]

/-- A probe that beats a threshold of at least `-1` lies in `[0, inner]`. -/
theorem delta_gt_in_range {a b inner md : ℤ} {mcodes : ℤ → ℕ}
    (hmd : -1 ≤ md) (h : delta a b inner mcodes > md) : 0 ≤ b ∧ b ≤ inner := by
  rcases lt_or_le b 0 with hb | hb
  · rw [delta_oor mcodes (Or.inl hb)] at h
    omega
  · rcases le_or_lt b inner with hbi | hbi
    · exact ⟨hb, hbi⟩
    · rw [delta_oor mcodes (Or.inr hbi)] at h
      omega

/-- A probe index computed with `int32` wraparound yields the same `delta` as
the exact index whenever `inner ≤ 2^24` and the summand is a (possibly just
overflowed) `int32` product: a wrap can only throw the index out of range on
the side where the exact index is also out of range. -/
theorem delta_w32_probe (mcodes : ℤ → ℕ) {inner i P : ℤ} (hin : inner ≤ 2 ^ 24)
    (h0i : 0 ≤ i) (hii : i ≤ inner) (hP1 : -(2 ^ 31) ≤ P) (hP2 : P ≤ 2 ^ 31) :
    delta i (w32 (i + w32 P)) inner mcodes = delta i (i + P) inner mcodes := by
  have e24 : (2 : ℤ) ^ 24 = 16777216 := by norm_num
  have e31 : (2 : ℤ) ^ 31 = 2147483648 := by norm_num
  have e32 : (2 : ℤ) ^ 32 = 4294967296 := by norm_num
  by_cases hP : P < 2 ^ 31
  · rw [w32_eq_self hP1 hP]
    by_cases hs : i + P < 2 ^ 31
    · rw [w32_eq_self (by omega) hs]
    · have hv : w32 (i + P) = i + P - 2 ^ 32 := by
        unfold w32
        omega
      rw [hv, delta_oor mcodes (Or.inl (by omega)), delta_oor mcodes (Or.inr (by omega))]
  · have hPe : P = 2 ^ 31 := by omega
    have h1 : w32 P = P - 2 ^ 32 := by
      unfold w32
      omega
    rw [h1, w32_eq_self (by omega) (by omega),
      delta_oor mcodes (Or.inl (by omega)), delta_oor mcodes (Or.inr (by omega))]

theorem nodeD_cases (n : ℤ) (mcodes : ℤ → ℕ) (i : ℤ) :
    nodeD n mcodes i = 1 ∨ nodeD n mcodes i = -1 := by
  unfold nodeD
  split_ifs with h
  · exact Or.inr rfl
  · exact Or.inl rfl

/-- On the no-wrap domain the `int32` doubling loop equals the exact one, from
any in-range `int32` start. -/
theorem lmaxLoop_eq (i d md inner : ℤ) (mcodes : ℤ → ℕ) (hin : inner ≤ 2 ^ 24)
    (h0i : 0 ≤ i) (hii : i ≤ inner) (hd : d = 1 ∨ d = -1) (hmd : -1 ≤ md) :
    ∀ (f : ℕ) (lmax : ℤ), -(2 ^ 31) ≤ lmax → lmax < 2 ^ 31 →
      lmaxLoop i d md inner mcodes f lmax = lmaxLoopF i d md inner mcodes f lmax := by
  have e24 : (2 : ℤ) ^ 24 = 16777216 := by norm_num
  have e31 : (2 : ℤ) ^ 31 = 2147483648 := by norm_num
  intro f
  induction f with
  | zero =>
    intro lmax _ _
    rfl
  | succ f ih =>
    intro lmax h1 h2
    have hP1 : -(2 ^ 31) ≤ lmax * d := by
      rcases hd with h | h <;> rw [h] <;> omega
    have hP2 : lmax * d ≤ 2 ^ 31 := by
      rcases hd with h | h <;> rw [h] <;> omega
    have hprobe := delta_w32_probe mcodes hin h0i hii hP1 hP2
    simp only [lmaxLoop, lmaxLoopF]
    by_cases hc : delta i (i + lmax * d) inner mcodes > md
    · have hc2 : delta i (w32 (i + w32 (lmax * d))) inner mcodes > md := by
        rw [hprobe]
        exact hc
      rw [if_pos hc2, if_pos hc]
      have hr := delta_gt_in_range hmd hc
      have hb : -(2 ^ 24) ≤ lmax ∧ lmax ≤ 2 ^ 24 := by
        rcases hd with h | h <;> rw [h] at hr <;> omega
      rw [w32_eq_self (x := 2 * lmax) (by omega) (by omega)]
      exact ih (2 * lmax) (by omega) (by omega)
    · have hc2 : ¬delta i (w32 (i + w32 (lmax * d))) inner mcodes > md := by
        rw [hprobe]
        exact hc
      rw [if_neg hc2, if_neg hc]

/-- The exact doubling loop only ever doubles values that pass an in-range
probe, so its result stays within `[2, 2 * inner]`. -/
theorem lmaxLoopF_bound (i d md inner : ℤ) (mcodes : ℤ → ℕ)
    (h0i : 0 ≤ i) (hii : i ≤ inner) (hd : d = 1 ∨ d = -1) (hmd : -1 ≤ md) :
    ∀ (f : ℕ) (lmax out : ℤ), 2 ≤ lmax → lmax ≤ 2 * inner →
      lmaxLoopF i d md inner mcodes f lmax = some out → 2 ≤ out ∧ out ≤ 2 * inner := by
  intro f
  induction f with
  | zero =>
    intro lmax out _ _ h
    exact Option.noConfusion h
  | succ f ih =>
    intro lmax out hl1 hl2 h
    simp only [lmaxLoopF] at h
    by_cases hc : delta i (i + lmax * d) inner mcodes > md
    · rw [if_pos hc] at h
      have hr := delta_gt_in_range hmd hc
      have hb : lmax ≤ inner := by
        rcases hd with hh | hh <;> rw [hh] at hr <;> omega
      exact ih (2 * lmax) out (by omega) (by omega) h
    · rw [if_neg hc] at h
      simp only [Option.some.injEq] at h
      omega

/-- On the no-wrap domain the `int32` binary search equals the exact one. -/
theorem blSearch_eq (i d md inner : ℤ) (mcodes : ℤ → ℕ) (hin : inner ≤ 2 ^ 24)
    (h0i : 0 ≤ i) (hii : i ≤ inner) (hd : d = 1 ∨ d = -1) (hmd : -1 ≤ md) :
    ∀ (f : ℕ) (t l : ℤ), t ≤ 2 ^ 30 → 0 ≤ l → l ≤ inner →
      blSearch i d md inner mcodes f t l = blSearchF i d md inner mcodes f t.toNat l := by
  have e24 : (2 : ℤ) ^ 24 = 16777216 := by norm_num
  have e30 : (2 : ℤ) ^ 30 = 1073741824 := by norm_num
  have e31 : (2 : ℤ) ^ 31 = 2147483648 := by norm_num
  intro f
  induction f with
  | zero =>
    intro t l _ _ _
    rfl
  | succ f ih =>
    intro t l ht h0l hli
    simp only [blSearch, blSearchF]
    by_cases ht1 : t < 1
    · rw [if_pos ht1]
      have htn : t.toNat = 0 := by omega
      rw [htn, if_pos rfl]
    · rw [if_neg ht1]
      have htn : ¬t.toNat = 0 := by omega
      rw [if_neg htn]
      have hcast : ((t.toNat : ℤ)) = t := by omega
      rw [hcast]
      have hw : w32 (l + t) = l + t := w32_eq_self (by omega) (by omega)
      rw [hw]
      have hP1 : -(2 ^ 31) ≤ (l + t) * d := by
        rcases hd with h | h <;> rw [h] <;> omega
      have hP2 : (l + t) * d ≤ 2 ^ 31 := by
        rcases hd with h | h <;> rw [h] <;> omega
      have hprobe := delta_w32_probe mcodes hin h0i hii hP1 hP2
      have hdivt : (t / 2).toNat = t.toNat / 2 := by omega
      by_cases hc : delta i (i + (l + t) * d) inner mcodes > md
      · have hc2 : delta i (w32 (i + w32 ((l + t) * d))) inner mcodes > md := by
          rw [hprobe]
          exact hc
        rw [if_pos hc2, if_pos hc]
        have hr := delta_gt_in_range hmd hc
        have hb : 0 ≤ l + t ∧ l + t ≤ inner := by
          rcases hd with h | h <;> rw [h] at hr <;> omega
        rw [← hdivt]
        exact ih (t / 2) (l + t) (by omega) (by omega) (by omega)
      · have hc2 : ¬delta i (w32 (i + w32 ((l + t) * d))) inner mcodes > md := by
          rw [hprobe]
          exact hc
        rw [if_neg hc2, if_neg hc]
        rw [← hdivt]
        exact ih (t / 2) l (by omega) h0l hli

/-- The exact binary search only accepts in-range probes, so its accumulator
stays within `[0, inner]`. -/
theorem blSearchF_bound (i d md inner : ℤ) (mcodes : ℤ → ℕ)
    (h0i : 0 ≤ i) (hii : i ≤ inner) (hd : d = 1 ∨ d = -1) (hmd : -1 ≤ md) :
    ∀ (f tn : ℕ) (l : ℤ), 0 ≤ l → l ≤ inner →
      0 ≤ blSearchF i d md inner mcodes f tn l ∧
        blSearchF i d md inner mcodes f tn l ≤ inner := by
  intro f
  induction f with
  | zero =>
    intro tn l h1 h2
    exact ⟨h1, h2⟩
  | succ f ih =>
    intro tn l h1 h2
    simp only [blSearchF]
    by_cases htn : tn = 0
    · rw [if_pos htn]
      exact ⟨h1, h2⟩
    · rw [if_neg htn]
      by_cases hc : delta i (i + (l + (tn : ℤ)) * d) inner mcodes > md
      · rw [if_pos hc]
        have hr := delta_gt_in_range hmd hc
        have hb : 0 ≤ l + (tn : ℤ) ∧ l + (tn : ℤ) ≤ inner := by
          rcases hd with h | h <;> rw [h] at hr <;> omega
        exact ih (tn / 2) _ hb.1 hb.2
      · rw [if_neg hc]
        exact ih (tn / 2) l h1 h2

theorem ceilPow_zero (k : ℕ) : ceilPow 0 k = 0 := by
  unfold ceilPow
  apply Nat.div_eq_of_lt
  have h : 0 < 2 ^ (k + 1) := by positivity
  omega

theorem ceilPow_le_self {l : ℕ} (h : 1 ≤ l) (k : ℕ) : ceilPow l k ≤ l := by
  unfold ceilPow
  apply Nat.div_le_of_le_mul
  obtain ⟨p, hp⟩ : ∃ p, 2 ^ (k + 1) = p + 1 := by
    have h0 : 0 < 2 ^ (k + 1) := by positivity
    exact ⟨2 ^ (k + 1) - 1, by omega⟩
  rw [hp]
  have h1 : p ≤ l * p := Nat.le_mul_of_pos_left p h
  have h2 : l * (p + 1) = l * p + l := by ring
  have h3 : (p + 1) * l = l * p + l := by ring
  omega

/-- On the no-wrap domain the `int32` split-point loop equals the exact one
(run on the same, exactly-converted length). -/
theorem splitLoop_eq (i d dn inner : ℤ) (mcodes : ℤ → ℕ) (l : ℕ) (hin : inner ≤ 2 ^ 24)
    (h0i : 0 ≤ i) (hii : i ≤ inner) (hd : d = 1 ∨ d = -1) (hdn : -1 ≤ dn)
    (hl : (l : ℤ) ≤ 2 ^ 24) :
    ∀ (f k : ℕ) (s : ℤ), 0 ≤ s → s ≤ inner →
      splitLoop i d dn inner mcodes l f k s = splitLoopF i d dn inner mcodes l f k s := by
  have e24 : (2 : ℤ) ^ 24 = 16777216 := by norm_num
  have e31 : (2 : ℤ) ^ 31 = 2147483648 := by norm_num
  intro f
  induction f with
  | zero =>
    intro k s _ _
    rfl
  | succ f ih =>
    intro k s h0s hsi
    have htb : ((ceilPow l k : ℕ) : ℤ) ≤ 2 ^ 24 := by
      rcases Nat.eq_zero_or_pos l with h | h
      · rw [h, ceilPow_zero]
        norm_num
      · have := ceilPow_le_self h k
        omega
    simp only [splitLoop, splitLoopF]
    have hw : w32 (s + ((ceilPow l k : ℕ) : ℤ)) = s + ((ceilPow l k : ℕ) : ℤ) :=
      w32_eq_self (by omega) (by omega)
    rw [hw]
    have hP1 : -(2 ^ 31) ≤ (s + ((ceilPow l k : ℕ) : ℤ)) * d := by
      rcases hd with h | h <;> rw [h] <;> omega
    have hP2 : (s + ((ceilPow l k : ℕ) : ℤ)) * d ≤ 2 ^ 31 := by
      rcases hd with h | h <;> rw [h] <;> omega
    have hprobe := delta_w32_probe mcodes hin h0i hii hP1 hP2
    by_cases hc : delta i (i + (s + ((ceilPow l k : ℕ) : ℤ)) * d) inner mcodes > dn
    · have hc2 : delta i (w32 (i + w32 ((s + ((ceilPow l k : ℕ) : ℤ)) * d))) inner
          mcodes > dn := by
        rw [hprobe]
        exact hc
      rw [if_pos hc2, if_pos hc]
      have hr := delta_gt_in_range hdn hc
      have hb : 0 ≤ s + ((ceilPow l k : ℕ) : ℤ) ∧
          s + ((ceilPow l k : ℕ) : ℤ) ≤ inner := by
        rcases hd with h | h <;> rw [h] at hr <;> omega
      by_cases ht1 : ceilPow l k = 1
      · rw [if_pos ht1, if_pos ht1]
      · rw [if_neg ht1, if_neg ht1]
        exact ih (k + 1) _ hb.1 hb.2
    · have hc2 : ¬delta i (w32 (i + w32 ((s + ((ceilPow l k : ℕ) : ℤ)) * d))) inner
          mcodes > dn := by
        rw [hprobe]
        exact hc
      rw [if_neg hc2, if_neg hc]
      by_cases ht1 : ceilPow l k = 1
      · rw [if_pos ht1, if_pos ht1]
      · rw [if_neg ht1, if_neg ht1]
        exact ih (k + 1) s h0s hsi

/-- The exact split-point loop only accepts in-range probes, so a returned
split offset lies within `[0, inner]`. -/
theorem splitLoopF_bound (i d dn inner : ℤ) (mcodes : ℤ → ℕ) (l : ℕ)
    (h0i : 0 ≤ i) (hii : i ≤ inner) (hd : d = 1 ∨ d = -1) (hdn : -1 ≤ dn) :
    ∀ (f k : ℕ) (s out : ℤ), 0 ≤ s → s ≤ inner →
      splitLoopF i d dn inner mcodes l f k s = some out → 0 ≤ out ∧ out ≤ inner := by
  intro f
  induction f with
  | zero =>
    intro k s out _ _ h
    exact Option.noConfusion h
  | succ f ih =>
    intro k s out h0s hsi h
    simp only [splitLoopF] at h
    by_cases hc : delta i (i + (s + ((ceilPow l k : ℕ) : ℤ)) * d) inner mcodes > dn
    · rw [if_pos hc] at h
      have hr := delta_gt_in_range hdn hc
      have hb : 0 ≤ s + ((ceilPow l k : ℕ) : ℤ) ∧
          s + ((ceilPow l k : ℕ) : ℤ) ≤ inner := by
        rcases hd with hh | hh <;> rw [hh] at hr <;> omega
      by_cases ht1 : ceilPow l k = 1
      · rw [if_pos ht1] at h
        simp only [Option.some.injEq] at h
        omega
      · rw [if_neg ht1] at h
        exact ih (k + 1) _ out hb.1 hb.2 h
    · rw [if_neg hc] at h
      by_cases ht1 : ceilPow l k = 1
      · rw [if_pos ht1] at h
        simp only [Option.some.injEq] at h
        omega
      · rw [if_neg ht1] at h
        exact ih (k + 1) s out h0s hsi h

/-- Folding pointwise-equal `Option`-valued steps gives equal folds. -/
theorem foldlM_option_congr {α β : Type} {f g : β → α → Option β} (L : List α)
    (h : ∀ a ∈ L, ∀ s, f s a = g s a) :
    ∀ s, List.foldlM f s L = List.foldlM g s L := by
  induction L with
  | nil =>
    intro s
    rfl
  | cons a L ih =>
    intro s
    simp only [List.foldlM_cons]
    rw [h a (List.mem_cons_self a L)]
    cases hg : g s a with
    | none => rfl
    | some s2 => exact ih (fun x hx s => h x (List.mem_cons_of_mem a hx) s) s2

namespace SortedCodes

variable {n : ℤ} {mcodes : ℤ → ℕ}

/-- Over sorted 32-bit codes every `delta` probe from an in-range `a` is at
least the sentinel `-1`. -/
theorem delta_ge_neg_one (H : SortedCodes n mcodes) (b : ℤ) {a : ℤ}
    (h0a : 0 ≤ a) (ha : a < n) : -1 ≤ delta a b (n - 1) mcodes := by
  rw [H.delta_probe h0a ha]
  by_cases hoor : b < 0 ∨ b > n - 1
  · rw [if_pos hoor]
  · rw [if_neg hoor]
    push_neg at hoor
    have := H.blk_le_64 h0a ha hoor.1 (by omega)
    omega

/-- `min_delta = delta(i, i - d)` is at least the sentinel. -/
theorem nodeMd_ge (H : SortedCodes n mcodes) {i : ℤ} (h0i : 0 ≤ i) (hi : i < n) :
    -1 ≤ nodeMd n mcodes i := by
  unfold nodeMd
  exact H.delta_ge_neg_one _ h0i hi

/-- `delta_node = delta(i, j)` (reference) is at least the sentinel. -/
theorem nodeDnE_ge (H : SortedCodes n mcodes) (lmax : ℤ) {i : ℤ} (h0i : 0 ≤ i)
    (hi : i < n) : -1 ≤ nodeDnE n mcodes i lmax := by
  unfold nodeDnE
  exact H.delta_ge_neg_one _ h0i hi

theorem nodeLmax_eq (H : SortedCodes n mcodes) (hn24 : n ≤ 2 ^ 24 + 1)
    {i : ℤ} (h0i : 0 ≤ i) (hi : i ≤ n - 1) :
    nodeLmax n mcodes i = nodeLmaxE n mcodes i := by
  unfold nodeLmax nodeLmaxE
  exact lmaxLoop_eq i _ _ (n - 1) mcodes (by omega) h0i hi (nodeD_cases n mcodes i)
    (H.nodeMd_ge h0i (by omega)) (n.toNat + 2) 2 (by norm_num) (by norm_num)

theorem nodeLmaxE_bound (H : SortedCodes n mcodes) {i lmax : ℤ} (h0i : 0 ≤ i)
    (hi : i ≤ n - 1) (h : nodeLmaxE n mcodes i = some lmax) :
    2 ≤ lmax ∧ lmax ≤ 2 * (n - 1) := by
  have hn2 := H.two_le
  have h2 : lmaxLoopF i (nodeD n mcodes i) (nodeMd n mcodes i) (n - 1) mcodes
      (n.toNat + 2) 2 = some lmax := h
  exact lmaxLoopF_bound i _ _ (n - 1) mcodes h0i hi (nodeD_cases n mcodes i)
    (H.nodeMd_ge h0i (by omega)) (n.toNat + 2) 2 lmax (by norm_num) (by omega) h2

theorem nodeL_eq (H : SortedCodes n mcodes) (hn24 : n ≤ 2 ^ 24 + 1)
    {i lmax : ℤ} (h0i : 0 ≤ i) (hi : i ≤ n - 1) (hl1 : 2 ≤ lmax)
    (hl2 : lmax ≤ 2 * (n - 1)) :
    nodeL n mcodes i lmax = nodeLE n mcodes i lmax := by
  have hn2 := H.two_le
  have e24 : (2 : ℤ) ^ 24 = 16777216 := by norm_num
  have e30 : (2 : ℤ) ^ 30 = 1073741824 := by norm_num
  unfold nodeL nodeLE
  have htd : Int.tdiv lmax 2 = lmax / 2 := by
    rw [Int.tdiv_eq_ediv] <;> omega
  rw [htd]
  exact blSearch_eq i _ _ (n - 1) mcodes (by omega) h0i hi (nodeD_cases n mcodes i)
    (H.nodeMd_ge h0i (by omega)) ((lmax / 2).toNat + 1) (lmax / 2) 0 (by omega)
    le_rfl (by omega)

theorem nodeLE_bound (H : SortedCodes n mcodes) (lmax : ℤ) {i : ℤ} (h0i : 0 ≤ i)
    (hi : i ≤ n - 1) :
    0 ≤ nodeLE n mcodes i lmax ∧ nodeLE n mcodes i lmax ≤ n - 1 := by
  have hn2 := H.two_le
  unfold nodeLE
  exact blSearchF_bound i _ _ (n - 1) mcodes h0i hi (nodeD_cases n mcodes i)
    (H.nodeMd_ge h0i (by omega)) ((lmax / 2).toNat + 1) (lmax / 2).toNat 0 le_rfl
    (by omega)

theorem nodeJ_eq (H : SortedCodes n mcodes) (hn24 : n ≤ 2 ^ 24 + 1)
    {i lmax : ℤ} (h0i : 0 ≤ i) (hi : i ≤ n - 1) (hl1 : 2 ≤ lmax)
    (hl2 : lmax ≤ 2 * (n - 1)) :
    nodeJ n mcodes i lmax = nodeJE n mcodes i lmax := by
  have hn2 := H.two_le
  have e24 : (2 : ℤ) ^ 24 = 16777216 := by norm_num
  have e31 : (2 : ℤ) ^ 31 = 2147483648 := by norm_num
  unfold nodeJ nodeJE
  rw [H.nodeL_eq hn24 h0i hi hl1 hl2]
  obtain ⟨hb1, hb2⟩ := H.nodeLE_bound lmax h0i hi
  have hd := nodeD_cases n mcodes i
  have hP1 : -(2 ^ 31) ≤ nodeLE n mcodes i lmax * nodeD n mcodes i := by
    rcases hd with h | h <;> rw [h] <;> omega
  have hP2 : nodeLE n mcodes i lmax * nodeD n mcodes i < 2 ^ 31 := by
    rcases hd with h | h <;> rw [h] <;> omega
  have hS1 : -(2 ^ 31) ≤ i + nodeLE n mcodes i lmax * nodeD n mcodes i := by
    rcases hd with h | h <;> rw [h] <;> omega
  have hS2 : i + nodeLE n mcodes i lmax * nodeD n mcodes i < 2 ^ 31 := by
    rcases hd with h | h <;> rw [h] <;> omega
  rw [w32_eq_self hP1 hP2, w32_eq_self hS1 hS2]

theorem nodeDn_eq (H : SortedCodes n mcodes) (hn24 : n ≤ 2 ^ 24 + 1)
    {i lmax : ℤ} (h0i : 0 ≤ i) (hi : i ≤ n - 1) (hl1 : 2 ≤ lmax)
    (hl2 : lmax ≤ 2 * (n - 1)) :
    nodeDn n mcodes i lmax = nodeDnE n mcodes i lmax := by
  unfold nodeDn nodeDnE
  rw [H.nodeJ_eq hn24 h0i hi hl1 hl2]

theorem nodeS_eq (H : SortedCodes n mcodes) (hn24 : n ≤ 2 ^ 24 + 1)
    {i lmax : ℤ} (h0i : 0 ≤ i) (hi : i ≤ n - 1) (hl1 : 2 ≤ lmax)
    (hl2 : lmax ≤ 2 * (n - 1)) :
    nodeS n mcodes i lmax = nodeSE n mcodes i lmax := by
  have hn2 := H.two_le
  have e24 : (2 : ℤ) ^ 24 = 16777216 := by norm_num
  unfold nodeS nodeSE
  rw [H.nodeL_eq hn24 h0i hi hl1 hl2, H.nodeDn_eq hn24 h0i hi hl1 hl2]
  obtain ⟨hb1, hb2⟩ := H.nodeLE_bound lmax h0i hi
  rw [f32round_eq_self (by omega)]
  exact splitLoop_eq i _ _ (n - 1) mcodes (nodeLE n mcodes i lmax).toNat (by omega)
    h0i hi (nodeD_cases n mcodes i) (H.nodeDnE_ge lmax h0i (by omega)) (by omega)
    ((nodeLE n mcodes i lmax).toNat + 2) 0 0 le_rfl (by omega)

theorem nodeSE_bound (H : SortedCodes n mcodes) {i lmax s : ℤ} (h0i : 0 ≤ i)
    (hi : i ≤ n - 1) (h : nodeSE n mcodes i lmax = some s) :
    0 ≤ s ∧ s ≤ n - 1 := by
  have hn2 := H.two_le
  have h2 : splitLoopF i (nodeD n mcodes i) (nodeDnE n mcodes i lmax) (n - 1) mcodes
      (nodeLE n mcodes i lmax).toNat ((nodeLE n mcodes i lmax).toNat + 2) 0 0 =
        some s := h
  exact splitLoopF_bound i _ _ (n - 1) mcodes (nodeLE n mcodes i lmax).toNat h0i hi
    (nodeD_cases n mcodes i) (H.nodeDnE_ge lmax h0i (by omega))
    ((nodeLE n mcodes i lmax).toNat + 2) 0 0 s le_rfl (by omega) h2

/-- On the no-wrap domain the whole `int32` node computation equals the
exact-arithmetic reference. -/
theorem buildNode_eq (H : SortedCodes n mcodes) (hn24 : n ≤ 2 ^ 24 + 1)
    {i : ℤ} (h0i : 0 ≤ i) (hi : i < n - 1) :
    buildNode n mcodes i = buildNodeE n mcodes i := by
  have hn2 := H.two_le
  have e24 : (2 : ℤ) ^ 24 = 16777216 := by norm_num
  have e31 : (2 : ℤ) ^ 31 = 2147483648 := by norm_num
  unfold buildNode buildNodeE
  rw [H.nodeLmax_eq hn24 h0i (by omega)]
  rcases hE : nodeLmaxE n mcodes i with _ | lmax
  · rfl
  · obtain ⟨hl1, hl2⟩ := H.nodeLmaxE_bound h0i (by omega) hE
    dsimp only
    rw [H.nodeS_eq hn24 h0i (by omega) hl1 hl2]
    rcases hS : nodeSE n mcodes i lmax with _ | s
    · rfl
    · obtain ⟨hs1, hs2⟩ := H.nodeSE_bound h0i (by omega) hS
      dsimp only
      rw [H.nodeL_eq hn24 h0i (by omega) hl1 hl2,
        H.nodeJ_eq hn24 h0i (by omega) hl1 hl2,
        H.nodeDn_eq hn24 h0i (by omega) hl1 hl2]
      have hd := nodeD_cases n mcodes i
      have hm1 : -(2 ^ 24) ≤ s * nodeD n mcodes i := by
        rcases hd with h | h <;> rw [h] <;> omega
      have hm2 : s * nodeD n mcodes i ≤ 2 ^ 24 := by
        rcases hd with h | h <;> rw [h] <;> omega
      have hq1 : -(2 ^ 24) ≤ i + s * nodeD n mcodes i := by
        rcases hd with h | h <;> rw [h] <;> omega
      have hq2 : i + s * nodeD n mcodes i ≤ 2 ^ 25 := by
        rcases hd with h | h <;> rw [h] <;> omega
      have hmin : -(1 : ℤ) ≤ min (nodeD n mcodes i) 0 ∧ min (nodeD n mcodes i) 0 ≤ 0 := by
        rcases hd with h | h <;> rw [h] <;> norm_num
      have e25 : (2 : ℤ) ^ 25 = 33554432 := by norm_num
      rw [w32_eq_self (x := s * nodeD n mcodes i) (by omega) (by omega),
        w32_eq_self (x := i + s * nodeD n mcodes i) (by omega) (by omega),
        w32_eq_self (x := i + s * nodeD n mcodes i + min (nodeD n mcodes i) 0)
          (by omega) (by omega),
        w32_eq_self (x := i + s * nodeD n mcodes i + min (nodeD n mcodes i) 0 + (n - 1))
          (by omega) (by omega),
        w32_eq_self
          (x := i + s * nodeD n mcodes i + min (nodeD n mcodes i) 0 + (n - 1) + 1)
          (by omega) (by omega),
        w32_eq_self (x := i + s * nodeD n mcodes i + min (nodeD n mcodes i) 0 + 1)
          (by omega) (by omega)]
      have hassoc : i + s * nodeD n mcodes i + min (nodeD n mcodes i) 0 + (n - 1) + 1 =
          i + s * nodeD n mcodes i + min (nodeD n mcodes i) 0 + 1 + (n - 1) := by
        ring
      rw [hassoc]

theorem buildStep_eq (H : SortedCodes n mcodes) (hn24 : n ≤ 2 ^ 24 + 1)
    (st : TreeArrays) {i : ℤ} (h0i : 0 ≤ i) (hi : i < n - 1) :
    buildStep n mcodes st i = buildStepE n mcodes st i := by
  unfold buildStep buildStepE
  rw [H.buildNode_eq hn24 h0i hi]

/-- On `n ≤ 2^24 + 1` the source-arithmetic `build_tree` equals the
exact-arithmetic reference fold. -/
theorem build_tree_eq (H : SortedCodes n mcodes) (hn24 : n ≤ 2 ^ 24 + 1)
    (st : TreeArrays) : build_tree n mcodes st = build_treeE n mcodes st := by
  have hn2 := H.two_le
  unfold build_tree build_treeE
  apply foldlM_option_congr
  intro a ha s
  rw [mem_range_ofNat] at ha
  exact H.buildStep_eq hn24 s ha.1 (by omega)

/-- `build_tree` (the source-arithmetic fold) succeeds on sorted codes with
`n ≤ 2^24 + 1` — where it provably equals the exact-arithmetic reference —
and its output arrays are exactly the Karras tree of the generated family:
every internal slot holds its two child indices, every child's parent slot
holds its parent, the root parent is the `-1` sentinel, and all other slots
are untouched. -/
theorem build_tree_ok (H : SortedCodes n mcodes) (hn24 : n ≤ 2 ^ 24 + 1)
    (st0 : TreeArrays) :
    ∃ fam ta, FamOk n mcodes 0 (n - 1) 0 fam ∧
      build_tree n mcodes st0 = some ta ∧
      (∀ r ∈ fam, ta.lchild r.e = childL n r ∧ ta.rchild r.e = childR n r) ∧
      (∀ r ∈ fam, ∀ k : ℤ, (childL n r = k ∨ childR n r = k) → ta.parent k = r.e) ∧
      ta.parent 0 = -1 ∧
      (∀ i : ℤ, ¬(0 ≤ i ∧ i < n - 1) → ta.lchild i = st0.lchild i ∧
        ta.rchild i = st0.rchild i) ∧
      (∀ k : ℤ, k ≠ 0 → (∀ r ∈ fam, childL n r ≠ k ∧ childR n r ≠ k) →
        ta.parent k = st0.parent k) := by
  obtain ⟨fam, ta, h1, h2, h3, h4, h5, h6, h7⟩ := H.build_treeE_ok st0
  exact ⟨fam, ta, h1, (H.build_tree_eq hn24 st0).trans h2, h3, h4, h5, h6, h7⟩

end SortedCodes

/-! ### Depth-first traversal along the child arrays -/

/-- Follow left/right children from a node: indices at or above `n - 1` are
leaves, internal nodes list themselves then both subtrees. -/
def trav (n : ℤ) (lch rch : ℤ → ℤ) : ℕ → ℤ → List ℤ
  | 0, _ => []
  | f + 1, x =>
    if n - 1 ≤ x then [x]
    else x :: (trav n lch rch f (lch x) ++ trav n lch rch f (rch x))

namespace SortedCodes

variable {n : ℤ} {mcodes : ℤ → ℕ}

/-- Traversal from the representative of any family range visits exactly the
internal nodes and leaf slots of that range, each exactly once. -/
theorem trav_ok (H : SortedCodes n mcodes) {fam : List Rng} {ta : TreeArrays}
    (hfam : FamOk n mcodes 0 (n - 1) 0 fam)
    (hch : ∀ r ∈ fam, ta.lchild r.e = childL n r ∧ ta.rchild r.e = childR n r) :
    ∀ (sz : ℕ), ∀ r ∈ fam, ∀ f : ℕ, (r.b - r.a).toNat ≤ sz → sz < f →
      ∃ lst, trav n ta.lchild ta.rchild f r.e = lst ∧
        lst.length = (2 * (r.b - r.a) + 1).toNat ∧
        lst.Nodup ∧
        (∀ x ∈ lst, (x = r.e ∨ (r.a < x ∧ x < r.b)) ∨
          (∃ y : ℤ, r.a ≤ y ∧ y ≤ r.b ∧ x = y + (n - 1))) ∧
        (∀ x : ℤ, (x = r.e ∨ (r.a < x ∧ x < r.b)) → x ∈ lst) ∧
        (∀ y : ℤ, r.a ≤ y → y ≤ r.b → y + (n - 1) ∈ lst) := by
  have hn2 := H.two_le
  intro sz
  induction sz with
  | zero =>
    intro r hr f hsz _
    have := (hfam.inv_all r hr).hab
    exact absurd hsz (by omega)
  | succ sz ih =>
    intro r hr f hsz hf
    have hinv := hfam.inv_all r hr
    have hab := hinv.hab
    have h0a := hinv.h0a
    have hbn := hinv.hbn
    have hnest := hfam.nested r hr
    have hgr := hfam.g_range r hr
    have hrep := hfam.rep_loc r hr
    have hre_lt : r.e < n - 1 := by
      rcases hrep with h | h
      · omega
      · omega
    have hre_mem : r.e = r.a ∨ r.e = r.b := hinv.he
    obtain ⟨f1, rfl⟩ : ∃ f1, f = f1 + 1 := ⟨f - 1, by omega⟩
    have hf1 : 1 ≤ f1 := by omega
    obtain ⟨hcl, hcr⟩ := hch r hr
    have hunf : trav n ta.lchild ta.rchild (f1 + 1) r.e =
        r.e :: (trav n ta.lchild ta.rchild f1 (ta.lchild r.e) ++
          trav n ta.lchild ta.rchild f1 (ta.rchild r.e)) := by
      simp only [trav]
      rw [if_neg (by omega)]
    -- left subtree list
    have hleft : ∃ lstL, trav n ta.lchild ta.rchild f1 (ta.lchild r.e) = lstL ∧
        lstL.length = (2 * (r.g - r.a) + 1).toNat ∧
        lstL.Nodup ∧
        (∀ x ∈ lstL, (r.a < x ∧ x ≤ r.g) ∨
          (∃ y : ℤ, r.a ≤ y ∧ y ≤ r.g ∧ x = y + (n - 1))) ∧
        (∀ x : ℤ, r.a < x → x ≤ r.g → x ∈ lstL) ∧
        (∀ y : ℤ, r.a ≤ y → y ≤ r.g → y + (n - 1) ∈ lstL) := by
      rw [hcl]
      by_cases hlf : r.a = r.g
      · -- left child is the leaf r.g
        have hv : childL n r = r.g + (n - 1) := by
          unfold childL
          rw [if_pos hlf]
        rw [hv]
        obtain ⟨f2, rfl⟩ : ∃ f2, f1 = f2 + 1 := ⟨f1 - 1, by omega⟩
        refine ⟨[r.g + (n - 1)], ?_, by simp; omega, List.nodup_singleton _, ?_, ?_, ?_⟩
        · simp only [trav]
          rw [if_pos (by omega)]
        · intro x hx
          rw [List.mem_singleton] at hx
          exact Or.inr ⟨r.g, le_of_eq hlf, le_rfl, hx⟩
        · intro x h1 h2
          exact absurd (lt_of_lt_of_le h1 h2) (by omega)
        · intro y h1 h2
          have : y = r.g := by omega
          rw [List.mem_singleton, this]
      · -- left child is the internal node r.g
        have hv : childL n r = r.g := by
          unfold childL
          rw [if_neg hlf]
        rw [hv]
        have hmem := hfam.childL_mem r hr (by omega)
        obtain ⟨lstL, he1, he2, he3, he4, he5, he6⟩ :=
          ih ⟨r.g, r.a, r.g, gammaOf n mcodes r.g⟩ hmem (f1) (by simp; omega) (by omega)
        have hagl : r.a < r.g := lt_of_le_of_ne hgr.1 hlf
        refine ⟨lstL, he1, he2, he3, ?_, ?_, he6⟩
        · intro x hx
          rcases he4 x hx with h | h
          · have h2 : x = r.g ∨ (r.a < x ∧ x < r.g) := h
            exact Or.inl (by omega)
          · exact Or.inr h
        · intro x h1 h2
          rcases eq_or_lt_of_le h2 with h | h
          · exact he5 x (Or.inl h)
          · exact he5 x (Or.inr ⟨h1, h⟩)
    -- right subtree list
    have hright : ∃ lstR, trav n ta.lchild ta.rchild f1 (ta.rchild r.e) = lstR ∧
        lstR.length = (2 * (r.b - (r.g + 1)) + 1).toNat ∧
        lstR.Nodup ∧
        (∀ x ∈ lstR, (r.g + 1 ≤ x ∧ x < r.b) ∨
          (∃ y : ℤ, r.g + 1 ≤ y ∧ y ≤ r.b ∧ x = y + (n - 1))) ∧
        (∀ x : ℤ, r.g + 1 ≤ x → x < r.b → x ∈ lstR) ∧
        (∀ y : ℤ, r.g + 1 ≤ y → y ≤ r.b → y + (n - 1) ∈ lstR) := by
      rw [hcr]
      by_cases hlf : r.b = r.g + 1
      · have hv : childR n r = r.g + 1 + (n - 1) := by
          unfold childR
          rw [if_pos hlf]
        rw [hv]
        obtain ⟨f2, rfl⟩ : ∃ f2, f1 = f2 + 1 := ⟨f1 - 1, by omega⟩
        refine ⟨[r.g + 1 + (n - 1)], ?_, by simp; omega, List.nodup_singleton _,
          ?_, ?_, ?_⟩
        · simp only [trav]
          rw [if_pos (by omega)]
        · intro x hx
          rw [List.mem_singleton] at hx
          exact Or.inr ⟨r.g + 1, le_rfl, by omega, hx⟩
        · intro x h1 h2
          exact absurd (lt_of_le_of_lt h1 h2) (by omega)
        · intro y h1 h2
          have hy : y = r.g + 1 := by omega
          rw [List.mem_singleton, hy]
      · have hv : childR n r = r.g + 1 := by
          unfold childR
          rw [if_neg hlf]
        rw [hv]
        have hmem := hfam.childR_mem r hr (by omega)
        obtain ⟨lstR, he1, he2, he3, he4, he5, he6⟩ :=
          ih ⟨r.g + 1, r.g + 1, r.b, gammaOf n mcodes (r.g + 1)⟩ hmem (f1)
            (by simp; omega) (by omega)
        have hgb : r.g + 1 < r.b := lt_of_le_of_ne (by omega) (fun h => hlf h.symm)
        refine ⟨lstR, he1, he2, he3, ?_, ?_, he6⟩
        · intro x hx
          rcases he4 x hx with h | h
          · have h2 : x = r.g + 1 ∨ (r.g + 1 < x ∧ x < r.b) := h
            exact Or.inl (by omega)
          · exact Or.inr h
        · intro x h1 h2
          rcases eq_or_lt_of_le h1 with h | h
          · exact he5 x (Or.inl h.symm)
          · exact he5 x (Or.inr ⟨h, h2⟩)
    obtain ⟨lstL, hL1, hL2, hL3, hL4, hL5, hL6⟩ := hleft
    obtain ⟨lstR, hR1, hR2, hR3, hR4, hR5, hR6⟩ := hright
    refine ⟨r.e :: (lstL ++ lstR), by rw [hunf, hL1, hR1], ?_, ?_, ?_, ?_, ?_⟩
    · simp only [List.length_cons, List.length_append, hL2, hR2]
      omega
    · apply List.nodup_cons.2
      constructor
      · intro hmem'
        rcases List.mem_append.1 hmem' with h | h
        · rcases hL4 _ h with ⟨h1, h2⟩ | ⟨y, hy1, hy2, hy3⟩
          · rcases hre_mem with h'' | h'' <;> omega
          · omega
        · rcases hR4 _ h with ⟨h1, h2⟩ | ⟨y, hy1, hy2, hy3⟩
          · rcases hre_mem with h'' | h'' <;> omega
          · omega
      · apply List.nodup_append.2
        refine ⟨hL3, hR3, ?_⟩
        intro x hx1 hx2
        rcases hL4 _ hx1 with ⟨h11, h12⟩ | ⟨y1, hy11, hy12, hy13⟩ <;>
          rcases hR4 _ hx2 with ⟨h21, h22⟩ | ⟨y2, hy21, hy22, hy23⟩ <;> omega
    · intro x hx
      rcases List.mem_cons.1 hx with rfl | hx'
      · exact Or.inl (Or.inl rfl)
      · rcases List.mem_append.1 hx' with h | h
        · rcases hL4 _ h with ⟨h1, h2⟩ | ⟨y, hy1, hy2, hy3⟩
          · exact Or.inl (Or.inr (by omega))
          · exact Or.inr ⟨y, by omega, by omega, hy3⟩
        · rcases hR4 _ h with ⟨h1, h2⟩ | ⟨y, hy1, hy2, hy3⟩
          · exact Or.inl (Or.inr (by omega))
          · exact Or.inr ⟨y, by omega, by omega, hy3⟩
    · intro x hx
      rcases hx with rfl | ⟨h1, h2⟩
      · exact List.mem_cons_self _ _
      · apply List.mem_cons_of_mem
        apply List.mem_append.2
        by_cases hxγ : x ≤ r.g
        · exact Or.inl (hL5 x h1 hxγ)
        · exact Or.inr (hR5 x (by omega) h2)
    · intro y h1 h2
      apply List.mem_cons_of_mem
      apply List.mem_append.2
      by_cases hyγ : y ≤ r.g
      · exact Or.inl (hL6 y h1 hyγ)
      · exact Or.inr (hR6 y (by omega) h2)

end SortedCodes

/-! ### Claim C1 -/

/-- C1, amended to the no-wrap domain: for every sorted input of
`2 ≤ n ≤ 2^24 + 1` primitives, `build_tree` (source `int32`/`float32`
arithmetic) succeeds and yields a strictly binary tree on internal indices
`[0, n-1)` and leaf indices `[n-1, 2n-1)`: every internal node is assigned
one left and one right child index, distinct and in range; every non-root
node has exactly one parent, recorded in the parent array; node 0 is the only
node with parent sentinel `-1`; and following left/right children from the
root visits every one of the `2n-1` nodes exactly once.  The bound is needed:
beyond `2^24 + 1` the `float32` rounding of range lengths diverts the split
search, and at `n = 2^30 + 2` the original (unbounded) claim fails outright —
see the counterexample `claim_C1_cex`. -/
theorem claim_C1 (n : ℤ) (mcodes : ℤ → ℕ) (H : SortedCodes n mcodes)
    (hn24 : n ≤ 2 ^ 24 + 1) (st0 : TreeArrays) :
    ∃ ta, build_tree n mcodes st0 = some ta ∧
      (∀ i : ℤ, 0 ≤ i → i < n - 1 →
        (0 < ta.lchild i ∧ ta.lchild i < 2 * n - 1) ∧
        (0 < ta.rchild i ∧ ta.rchild i < 2 * n - 1) ∧
        ta.lchild i ≠ ta.rchild i) ∧
      (∀ k : ℤ, 0 < k → k < 2 * n - 1 →
        ∃! p : ℤ, (0 ≤ p ∧ p < n - 1) ∧
          (ta.lchild p = k ∨ ta.rchild p = k) ∧ ta.parent k = p) ∧
      ta.parent 0 = -1 ∧
      (∀ k : ℤ, 0 < k → k < 2 * n - 1 → ta.parent k ≠ -1) ∧
      (∃ lst, trav n ta.lchild ta.rchild (n.toNat + 1) 0 = lst ∧
        lst.Nodup ∧ lst.length = (2 * n - 1).toNat ∧
        (∀ x ∈ lst, 0 ≤ x ∧ x < 2 * n - 1) ∧
        (∀ k : ℤ, 0 ≤ k → k < 2 * n - 1 → k ∈ lst)) := by
  have hn2 := H.two_le
  obtain ⟨fam, ta, hfam, hbt, hch, hpar, hroot, _, _⟩ := H.build_tree_ok hn24 st0
  have hrep : ∀ i : ℤ, 0 ≤ i → i < n - 1 → ∃ r ∈ fam, r.e = i := by
    intro i h1 h2
    by_cases hi0 : i = 0
    · exact ⟨⟨0, 0, n - 1, gammaOf n mcodes 0⟩, hfam.self_mem, hi0.symm⟩
    · exact hfam.rep_cover i (by omega) (by omega)
  have hwriter : ∀ k : ℤ, 0 < k → k < 2 * n - 1 →
      ∃ rp ∈ fam, childL n rp = k ∨ childR n rp = k := by
    intro k hk1 hk2
    by_cases hik : k < n - 1
    · obtain ⟨r, hr, hrie⟩ := hfam.rep_cover k (by omega) (by omega)
      rcases hfam.parent_ex r hr with h | ⟨rp, hrp, hrpc⟩
      · omega
      · rw [hrie] at hrpc
        exact ⟨rp, hrp, hrpc⟩
    · obtain ⟨rp, hrp, h⟩ := hfam.edge_cover_leaf (k - (n - 1)) (by omega) (by omega)
      refine ⟨rp, hrp, ?_⟩
      rcases h with h | h
      · left
        omega
      · right
        omega
  refine ⟨ta, hbt, ?_, ?_, hroot, ?_, ?_⟩
  · intro i h1 h2
    obtain ⟨r, hr, hrie⟩ := hrep i h1 h2
    obtain ⟨hcl, hcr⟩ := hch r hr
    obtain ⟨hg1, hg2⟩ := hfam.g_range r hr
    obtain ⟨hv1, hv2⟩ := hfam.nested r hr
    rw [hrie] at hcl hcr
    have hclv : ta.lchild i = if r.a = r.g then r.g + (n - 1) else r.g := hcl
    have hcrv : ta.rchild i = if r.b = r.g + 1 then r.g + 1 + (n - 1) else r.g + 1 :=
      hcr
    split_ifs at hclv hcrv <;>
      exact ⟨⟨by omega, by omega⟩, ⟨by omega, by omega⟩, by omega⟩
  · intro k hk1 hk2
    obtain ⟨rp, hrp, hc⟩ := hwriter k hk1 hk2
    have hpe : ta.parent k = rp.e := hpar rp hrp k hc
    have hrng : 0 ≤ rp.e ∧ rp.e < n - 1 := by
      rcases hfam.rep_loc rp hrp with h | h <;> omega
    have hchc : ta.lchild rp.e = k ∨ ta.rchild rp.e = k := by
      obtain ⟨h1, h2⟩ := hch rp hrp
      rcases hc with h | h
      · left
        rw [h1, h]
      · right
        rw [h2, h]
    refine ⟨rp.e, ⟨hrng, hchc, hpe⟩, ?_⟩
    rintro p ⟨⟨hp1, hp2⟩, hpc, hpk⟩
    obtain ⟨r2, hr2, hr2e⟩ := hrep p hp1 hp2
    obtain ⟨h1, h2⟩ := hch r2 hr2
    have hc2 : childL n r2 = k ∨ childR n r2 = k := by
      rcases hpc with h | h
      · left
        rw [← h1, hr2e, h]
      · right
        rw [← h2, hr2e, h]
    have := hfam.edge_unique r2 hr2 rp hrp k hc2 hc
    rw [← hr2e, this]
  · intro k hk1 hk2
    obtain ⟨rp, hrp, hc⟩ := hwriter k hk1 hk2
    have hpe : ta.parent k = rp.e := hpar rp hrp k hc
    have hrng : 0 ≤ rp.e ∧ rp.e < n - 1 := by
      rcases hfam.rep_loc rp hrp with h | h <;> omega
    omega
  · obtain ⟨lst, ht1, ht2, ht3, ht4, ht5, ht6⟩ :=
      H.trav_ok hfam hch ((n - 1).toNat) ⟨0, 0, n - 1, gammaOf n mcodes 0⟩
        hfam.self_mem (n.toNat + 1)
        (by show ((n - 1 : ℤ) - 0).toNat ≤ (n - 1).toNat; omega) (by omega)
    refine ⟨lst, ht1, ht3, ?_, ?_, ?_⟩
    · have hlen : lst.length = (2 * ((n - 1 : ℤ) - 0) + 1).toNat := ht2
      rw [hlen]
      congr 1
      ring
    · intro x hx
      rcases ht4 x hx with h | ⟨y, hy1, hy2, hy3⟩
      · have h2 : x = 0 ∨ ((0 : ℤ) < x ∧ x < n - 1) := h
        omega
      · have h1 : (0 : ℤ) ≤ y := hy1
        have h2 : y ≤ n - 1 := hy2
        omega
    · intro k hk1 hk2
      by_cases hik : k < n - 1
      · by_cases hk0 : k = 0
        · exact ht5 k (Or.inl (show k = (0 : ℤ) from hk0))
        · exact ht5 k (Or.inr ⟨show (0 : ℤ) < k from by omega,
            show k < n - 1 from hik⟩)
      · have := ht6 (k - (n - 1)) (show (0 : ℤ) ≤ k - (n - 1) from by omega)
          (show k - (n - 1) ≤ n - 1 from by omega)
        have hk : k - (n - 1) + (n - 1) = k := by omega
        rwa [hk] at this

/-- C1 witness: the theorem applied to the four sorted Morton codes
`0, 1, 2, 3`. -/
theorem claim_C1_witness :
    ∃ ta, build_tree 4 Int.toNat ⟨fun _ => 0, fun _ => 0, fun _ => 0⟩ = some ta ∧
      (∀ i : ℤ, 0 ≤ i → i < 4 - 1 →
        (0 < ta.lchild i ∧ ta.lchild i < 2 * 4 - 1) ∧
        (0 < ta.rchild i ∧ ta.rchild i < 2 * 4 - 1) ∧
        ta.lchild i ≠ ta.rchild i) ∧
      (∀ k : ℤ, 0 < k → k < 2 * 4 - 1 →
        ∃! p : ℤ, (0 ≤ p ∧ p < 4 - 1) ∧
          (ta.lchild p = k ∨ ta.rchild p = k) ∧ ta.parent k = p) ∧
      ta.parent 0 = -1 ∧
      (∀ k : ℤ, 0 < k → k < 2 * 4 - 1 → ta.parent k ≠ -1) ∧
      (∃ lst, trav 4 ta.lchild ta.rchild ((4 : ℤ).toNat + 1) 0 = lst ∧
        lst.Nodup ∧ lst.length = ((2 * 4 - 1 : ℤ)).toNat ∧
        (∀ x ∈ lst, 0 ≤ x ∧ x < 2 * 4 - 1) ∧
        (∀ k : ℤ, 0 ≤ k → k < 2 * 4 - 1 → k ∈ lst)) :=
  claim_C1 4 Int.toNat
    ⟨by norm_num, by norm_num, fun k h1 h2 => by omega, fun j k h1 h2 h3 => by omega⟩
    (by norm_num) ⟨fun _ => 0, fun _ => 0, fun _ => 0⟩

/-- Inversion of `buildNodeE`: success of the whole node computation yields
success of the doubling loop and of the split-point loop. -/
theorem buildNodeE_inv {n : ℤ} {mcodes : ℤ → ℕ} {i : ℤ} {bn : BN}
    (h : buildNodeE n mcodes i = some bn) :
    nodeLmaxE n mcodes i = some bn.lmax ∧ nodeSE n mcodes i bn.lmax = some bn.s := by
  unfold buildNodeE at h
  rcases hLm : nodeLmaxE n mcodes i with _ | lmax <;> rw [hLm] at h
  · exact absurd h (by simp)
  · dsimp only at h
    rcases hS : nodeSE n mcodes i lmax with _ | s <;> rw [hS] at h
    · exact absurd h (by simp)
    · dsimp only at h
      simp only [Option.some.injEq] at h
      rw [← h]
      exact ⟨rfl, hS⟩

namespace SortedCodes

variable {n : ℤ} {mcodes : ℤ → ℕ}

end SortedCodes

/-! ### Claim C4 -/

/-- C4, amended to the no-wrap domain: on every sorted code array of length
`2 ≤ n ≤ 2^24 + 1` (duplicates allowed) and every internal index `i`, the
node computation (source `int32`/`float32` arithmetic) terminates: the
doubling loop and the split-point step-halving loop both return within their
fuel, the probe metric `delta` is the `-1` sentinel at every probe outside
`[0, n-1]`, the chosen direction satisfies `delta(i, i+d) > delta(i, i-d)`
strictly, and the range length `l` found by the binary search is at least 1.
The bound is needed: at `n = 2^30 + 2` with duplicate codes the `int32`
doubling overflows and the split loop of node 0 never terminates — see the
counterexample `claim_C4_cex`. -/
theorem claim_C4 (n : ℤ) (mcodes : ℤ → ℕ) (H : SortedCodes n mcodes)
    (hn24 : n ≤ 2 ^ 24 + 1) :
    ∀ i : ℤ, 0 ≤ i → i < n - 1 →
      ∃ bn, buildNode n mcodes i = some bn ∧
        nodeLmax n mcodes i = some bn.lmax ∧
        nodeS n mcodes i bn.lmax = some bn.s ∧
        delta i (i - bn.d) (n - 1) mcodes < delta i (i + bn.d) (n - 1) mcodes ∧
        1 ≤ bn.l ∧
        (∀ p : ℤ, p < 0 ∨ p > n - 1 → delta i p (n - 1) mcodes = -1) := by
  have hn2 := H.two_le
  intro i h0 h1
  obtain ⟨fam, hfamdef⟩ : ∃ L, famNodes n mcodes n.toNat 0 (n - 1) 0 = L := ⟨_, rfl⟩
  have hfam : FamOk n mcodes 0 (n - 1) 0 fam :=
    hfamdef ▸ H.famNodes_ok n.toNat 0 (n - 1) 0 (H.root_inv) (by omega)
  have hsent : ∀ p : ℤ, p < 0 ∨ p > n - 1 → delta i p (n - 1) mcodes = -1 := by
    intro p hp
    rw [H.delta_probe (by omega) (by omega), if_pos hp]
  obtain ⟨r, hr, hrie⟩ : ∃ r ∈ fam, r.e = i := by
    by_cases hi0 : i = 0
    · exact ⟨⟨0, 0, n - 1, gammaOf n mcodes 0⟩, hfam.self_mem, hi0.symm⟩
    · exact hfam.rep_cover i (by omega) (by omega)
  have hinv := hfam.inv_all r hr
  rw [hrie] at hinv
  have h0a := hinv.h0a
  have hab := hinv.hab
  have hbn' := hinv.hbn
  rcases hinv.he with hea | heb
  · obtain ⟨hBnd, hIn⟩ := hinv.hbl hea
    obtain ⟨γ, lmax, hγ1, hγ2, hγ3, hbeq⟩ :=
      H.buildNode_left h0a hab hbn' hBnd hIn
    rw [← hea] at hbeq
    have hinvE := buildNodeE_inv hbeq
    have hlb := H.nodeLmaxE_bound h0 (by omega) hinvE.1
    refine ⟨_, (H.buildNode_eq hn24 h0 h1).trans hbeq,
      (H.nodeLmax_eq hn24 h0 (by omega)).trans hinvE.1,
      (H.nodeS_eq hn24 h0 (by omega) hlb.1 hlb.2).trans hinvE.2, ?_, ?_, hsent⟩
    · show delta i (i - 1) (n - 1) mcodes < delta i (i + 1) (n - 1) mcodes
      rw [H.delta_pred (by omega) (by omega), H.delta_succ (by omega) (by omega), hea]
      exact hIn r.a le_rfl hab
    · show (1 : ℤ) ≤ r.b - i
      omega
  · obtain ⟨hBnd, hIn⟩ := hinv.hbr heb
    obtain ⟨γ, lmax, hγ1, hγ2, hγ3, hbeq⟩ :=
      H.buildNode_right h0a hab hbn' hBnd hIn
    rw [← heb] at hbeq
    have hinvE := buildNodeE_inv hbeq
    have hlb := H.nodeLmaxE_bound h0 (by omega) hinvE.1
    refine ⟨_, (H.buildNode_eq hn24 h0 h1).trans hbeq,
      (H.nodeLmax_eq hn24 h0 (by omega)).trans hinvE.1,
      (H.nodeS_eq hn24 h0 (by omega) hlb.1 hlb.2).trans hinvE.2, ?_, ?_, hsent⟩
    · show delta i (i - (-1)) (n - 1) mcodes < delta i (i + (-1)) (n - 1) mcodes
      have e1 : i - (-1) = i + 1 := by ring
      have e2 : i + (-1) = i - 1 := by ring
      rw [e1, e2, H.delta_pred (by omega) (by omega),
        H.delta_succ (by omega) (by omega), heb]
      exact hIn (r.b - 1) (by omega) (by omega)
    · show (1 : ℤ) ≤ i - r.a
      omega

/-- C4 witness: the theorem applied at internal index 1 of the sorted Morton
codes `0, 1, 2, 3`. -/
theorem claim_C4_witness :
    ∃ bn, buildNode 4 Int.toNat 1 = some bn ∧
      nodeLmax 4 Int.toNat 1 = some bn.lmax ∧
      nodeS 4 Int.toNat 1 bn.lmax = some bn.s ∧
      delta 1 (1 - bn.d) (4 - 1) Int.toNat < delta 1 (1 + bn.d) (4 - 1) Int.toNat ∧
      1 ≤ bn.l ∧
      (∀ p : ℤ, p < 0 ∨ p > 4 - 1 → delta 1 p (4 - 1) Int.toNat = -1) :=
  claim_C4 4 Int.toNat
    ⟨by norm_num, by norm_num, fun k h1 h2 => by omega, fun j k h1 h2 h3 => by omega⟩
    (by norm_num) 1 (by norm_num) (by norm_num)

/-! ### Claim C3 -/

/-- C3: for every position `a` in `[0, n-1]` and every integer `b`, with 32-bit
codes and `n ≤ 2^32`, `delta a b` is `-1` exactly when `b` lies outside
`[0, n-1]`; on an in-range `b` it is the number of leading zero bits of the
XOR of the two codes, except that for identical codes it is `32` plus the
number of leading zero bits of the XOR of the positions themselves. -/
theorem claim_C3 (n : ℤ) (mcodes : ℤ → ℕ) (a b : ℤ)
    (hcode : ∀ k : ℤ, 0 ≤ k → k < n → mcodes k < 2 ^ 32) (hn32 : n ≤ 2 ^ 32)
    (ha0 : 0 ≤ a) (han : a ≤ n - 1) :
    (delta a b (n - 1) mcodes = -1 ↔ (b < 0 ∨ b > n - 1)) ∧
    (0 ≤ b → b ≤ n - 1 →
      (mcodes a ≠ mcodes b →
        delta a b (n - 1) mcodes = leadingZeros (mcodes a ^^^ mcodes b)) ∧
      (mcodes a = mcodes b →
        delta a b (n - 1) mcodes = 32 + leadingZeros (a.toNat ^^^ b.toNat))) := by
  by_cases hoor : b < 0 ∨ b > n - 1
  · constructor
    · rw [iff_true_right hoor]
      simp only [delta]
      rw [if_pos hoor]
    · intro h1 h2
      exact absurd hoor (by omega)
  · have hb0 : 0 ≤ b := by omega
    have hbn : b ≤ n - 1 := by omega
    have hbb : (if b < 0 ∨ b > n - 1 then (0 : ℤ) else b) = b := if_neg hoor
    constructor
    · rw [iff_false_right hoor]
      intro hcontra
      simp only [delta, hbb, if_neg hoor] at hcontra
      by_cases htie : mcodes a ^^^ mcodes b = 0
      · rw [if_pos htie, if_pos htie] at hcontra
        have hlz : 0 ≤ leadingZeros (a.toNat ^^^ b.toNat) := by
          unfold leadingZeros
          have : a.toNat ^^^ b.toNat < 2 ^ 32 := by
            apply Nat.xor_lt_two_pow (n := 32) <;> omega
          have := bitlen_le_iff.2 this
          omega
        omega
      · rw [if_neg htie, if_neg htie] at hcontra
        have hlz : 0 ≤ leadingZeros (mcodes a ^^^ mcodes b) := by
          unfold leadingZeros
          have : mcodes a ^^^ mcodes b < 2 ^ 32 := by
            apply Nat.xor_lt_two_pow
            · exact hcode a (by omega) (by omega)
            · exact hcode b (by omega) (by omega)
          have := bitlen_le_iff.2 this
          omega
        omega
    · intro _ _
      constructor
      · intro hne
        have htie : ¬(mcodes a ^^^ mcodes b = 0) := by
          intro h
          exact hne (Nat.xor_eq_zero.1 h)
        simp only [delta, hbb, if_neg hoor, if_neg htie]
      · intro heq
        have htie : mcodes a ^^^ mcodes b = 0 := by
          rw [heq]
          exact Nat.xor_self _
        simp only [delta, hbb, if_pos htie, if_neg hoor]
        ring

/-- C3 witness: positions 1 and 2 of the four sorted Morton codes
`0, 1, 2, 3`. -/
theorem claim_C3_witness :
    (delta 1 2 (4 - 1) Int.toNat = -1 ↔ ((2 : ℤ) < 0 ∨ (2 : ℤ) > 4 - 1)) ∧
    ((0 : ℤ) ≤ 2 → (2 : ℤ) ≤ 4 - 1 →
      (Int.toNat 1 ≠ Int.toNat 2 →
        delta 1 2 (4 - 1) Int.toNat = leadingZeros (Int.toNat 1 ^^^ Int.toNat 2)) ∧
      (Int.toNat 1 = Int.toNat 2 →
        delta 1 2 (4 - 1) Int.toNat =
          32 + leadingZeros ((1 : ℤ).toNat ^^^ (2 : ℤ).toNat))) :=
  claim_C3 4 Int.toNat 1 2 (fun k h1 h2 => by omega) (by norm_num)
    (by norm_num) (by norm_num)

/-! ### The sorted permutation: stability and permutation facts -/

theorem range_map_getD {α : Type} (l : List α) (d : α) :
    (List.range l.length).map (fun k => l.getD k d) = l := by
  apply List.ext_getElem
  · simp
  · intro i h1 h2
    simp [List.getD_eq_getElem?_getD, List.getElem?_eq_getElem h2]

theorem sortIter_perm (n : ℕ) (mc : ℤ → ℕ) : (sortIter n mc).Perm (List.range n) :=
  List.mergeSort_perm _ _

theorem sortIter_length (n : ℕ) (mc : ℤ → ℕ) : (sortIter n mc).length = n := by
  rw [(sortIter_perm n mc).length_eq, List.length_range]

theorem sortIter_nodup (n : ℕ) (mc : ℤ → ℕ) : (sortIter n mc).Nodup :=
  (sortIter_perm n mc).symm.nodup (List.nodup_range n)

theorem mortonLe_iff (mc : ℤ → ℕ) (i j : ℕ) :
    mortonLe mc i j = true ↔ (mc i < mc j ∨ (mc i = mc j ∧ i ≤ j)) := by
  simp [mortonLe]

theorem sortIter_sorted (n : ℕ) (mc : ℤ → ℕ) :
    List.Pairwise (fun a b => mortonLe mc a b = true) (sortIter n mc) := by
  apply List.sorted_mergeSort
  · intro a b c hab hbc
    rw [mortonLe_iff] at hab hbc ⊢
    omega
  · intro a b
    rw [Bool.or_eq_true, mortonLe_iff, mortonLe_iff]
    omega

theorem sort_mcodes_iter_eq (n : ℤ) (mc0 : ℤ → ℕ) (it0 : ℤ → ℤ) {p : ℤ}
    (h0 : 0 ≤ p) (h1 : p < n)
    (hp : p.toNat < (sortIter n.toNat mc0).length) :
    (sort_mcodes n mc0 it0).2 p = ((sortIter n.toNat mc0)[p.toNat] : ℕ) := by
  unfold sort_mcodes
  dsimp only
  rw [if_pos ⟨h0, h1⟩, List.getD_eq_getElem _ _ hp]

theorem sort_mcodes_mc_eq (n : ℤ) (mc0 : ℤ → ℕ) (it0 : ℤ → ℤ) {p : ℤ}
    (h0 : 0 ≤ p) (h1 : p < n) :
    (sort_mcodes n mc0 it0).1 p = mc0 ((sort_mcodes n mc0 it0).2 p) := by
  unfold sort_mcodes
  dsimp only
  rw [if_pos ⟨h0, h1⟩]

theorem sort_mcodes_iter_perm (n : ℤ) (mc0 : ℤ → ℕ) (it0 : ℤ → ℤ) :
    ((List.range n.toNat).map
        (fun k => (sort_mcodes n mc0 it0).2 (Int.ofNat k))).Perm
      ((List.range n.toNat).map Int.ofNat) := by
  have hlen := sortIter_length n.toNat mc0
  have h1 : (List.range n.toNat).map
      (fun k => (sort_mcodes n mc0 it0).2 (Int.ofNat k)) =
      (sortIter n.toNat mc0).map (fun x : ℕ => (x : ℤ)) := by
    apply List.ext_getElem
    · simp [hlen]
    · intro i hi1 hi2
      simp only [List.getElem_map, List.getElem_range]
      have hin : i < n.toNat := by simpa using hi1
      have hplen : (Int.ofNat i).toNat < (sortIter n.toNat mc0).length := by
        rw [hlen]
        simpa using hin
      rw [sort_mcodes_iter_eq n mc0 it0 (by rw [Int.ofNat_eq_natCast]; omega)
        (by rw [Int.ofNat_eq_natCast]; omega) hplen]
      rfl
  have h2 : (List.range n.toNat).map Int.ofNat =
      (List.range n.toNat).map (fun x : ℕ => (x : ℤ)) := by
    apply List.map_congr_left
    intro a _
    exact Int.ofNat_eq_natCast a
  rw [h1, h2]
  exact (sortIter_perm n.toNat mc0).map _

/-! ### Claim C7 -/

/-- C7: for every code array, `sort_mcodes` produces an index permutation of
`[0, n)` through which the codes read non-decreasing, with ties among equal
codes broken by original position ascending (stability), and the returned
code array is the original codes reordered through that permutation. -/
theorem claim_C7 (n : ℤ) (mc0 : ℤ → ℕ) (it0 : ℤ → ℤ) :
    ((List.range n.toNat).map
        (fun k => (sort_mcodes n mc0 it0).2 (Int.ofNat k))).Perm
      ((List.range n.toNat).map Int.ofNat) ∧
    (∀ p q : ℤ, 0 ≤ p → p ≤ q → q < n →
      mc0 ((sort_mcodes n mc0 it0).2 p) ≤ mc0 ((sort_mcodes n mc0 it0).2 q)) ∧
    (∀ p q : ℤ, 0 ≤ p → p < q → q < n →
      mc0 ((sort_mcodes n mc0 it0).2 p) = mc0 ((sort_mcodes n mc0 it0).2 q) →
      (sort_mcodes n mc0 it0).2 p < (sort_mcodes n mc0 it0).2 q) ∧
    (∀ p : ℤ, 0 ≤ p → p < n →
      (sort_mcodes n mc0 it0).1 p = mc0 ((sort_mcodes n mc0 it0).2 p)) := by
  have hlen := sortIter_length n.toNat mc0
  refine ⟨sort_mcodes_iter_perm n mc0 it0, ?_, ?_, ?_⟩
  · intro p q hp0 hpq hqn
    rcases eq_or_lt_of_le hpq with rfl | hlt
    · exact le_rfl
    · have hplen : p.toNat < (sortIter n.toNat mc0).length := by omega
      have hqlen : q.toNat < (sortIter n.toNat mc0).length := by omega
      rw [sort_mcodes_iter_eq n mc0 it0 hp0 (by omega) hplen,
        sort_mcodes_iter_eq n mc0 it0 (by omega) hqn hqlen]
      have hpw := List.pairwise_iff_getElem.1 (sortIter_sorted n.toNat mc0)
        p.toNat q.toNat hplen hqlen (by omega)
      rw [mortonLe_iff] at hpw
      omega
  · intro p q hp0 hpq hqn heq
    have hplen : p.toNat < (sortIter n.toNat mc0).length := by omega
    have hqlen : q.toNat < (sortIter n.toNat mc0).length := by omega
    rw [sort_mcodes_iter_eq n mc0 it0 hp0 (by omega) hplen,
      sort_mcodes_iter_eq n mc0 it0 (by omega) hqn hqlen] at heq ⊢
    have hpw := List.pairwise_iff_getElem.1 (sortIter_sorted n.toNat mc0)
      p.toNat q.toNat hplen hqlen (by omega)
    rw [mortonLe_iff] at hpw
    have hne : (sortIter n.toNat mc0)[p.toNat] ≠ (sortIter n.toNat mc0)[q.toNat] := by
      rw [Ne, (sortIter_nodup n.toNat mc0).getElem_inj_iff]
      omega
    omega
  · intro p h0 h1
    exact sort_mcodes_mc_eq n mc0 it0 h0 h1

/-! ### Inversion of the pipeline -/

/-- Inverting a successful `build_radix_tree` run into its stages. -/
theorem build_radix_tree_inv {dim : ℕ} {boxes : ℤ → Box dim} {size : ℤ} {sf : ℚ}
    {out : BuildOut dim} (h : build_radix_tree dim boxes size sf = some out) :
    ∀ la bounds mc srt la2,
      la = transform_boxes dim boxes (fun _ => invalidBox dim) size sf →
      bounds = reduce dim la size →
      mc = get_mcodes dim la size bounds (fun _ => 0) →
      srt = sort_mcodes size mc (fun _ => 0) →
      la2 = reorder srt.2 la size →
      ∃ ta ps,
        build_tree size srt.1 ⟨fun _ => 0, fun _ => 0, allocParent size⟩ = some ta ∧
        propagate_aabbs dim size ta la2 = some ps ∧
        out = ⟨bounds, la2, srt.1, srt.2, ta, ps⟩ := by
  intro la bounds mc srt la2 h1 h2 h3 h4 h5
  unfold build_radix_tree at h
  dsimp only at h
  rw [← h1, ← h2, ← h3, ← h4, ← h5] at h
  rcases hbt : build_tree size srt.1 ⟨fun _ => 0, fun _ => 0, allocParent size⟩
    with _ | ta <;> rw [hbt] at h
  · exact absurd h (by simp)
  · dsimp only at h
    rcases hpp : propagate_aabbs dim size ta la2 with _ | ps <;> rw [hpp] at h
    · exact absurd h (by simp)
    · dsimp only at h
      simp only [Option.some.injEq] at h
      exact ⟨ta, ps, rfl, hpp, h.symm⟩

/-! ### Claim C8 -/

/-- C8: whenever the build completes, the `leafs` array is a permutation of
`[0, n)`, and the sorted leaf-box array read at any sorted position `p` is
exactly the pre-sort (scaled, copied) box at original index `leafs p` — so
applying the permutation to the sorted array reproduces the pre-sort array
element for element. -/
theorem claim_C8 (dim : ℕ) (boxes : ℤ → Box dim) (size : ℤ) (sf : ℚ)
    (out : BuildOut dim) (h : build_radix_tree dim boxes size sf = some out) :
    ((List.range size.toNat).map (fun k => out.leafs (Int.ofNat k))).Perm
      ((List.range size.toNat).map Int.ofNat) ∧
    (∀ p : ℤ, 0 ≤ p → p < size →
      out.leaf_aabbs p =
        transform_boxes dim boxes (fun _ => invalidBox dim) size sf
          (out.leafs p)) := by
  obtain ⟨ta, ps, hbt, hpp, hout⟩ :=
    build_radix_tree_inv h _ _ _ _ _ rfl rfl rfl rfl rfl
  have hleafs : out.leafs =
      (sort_mcodes size (get_mcodes dim
        (transform_boxes dim boxes (fun _ => invalidBox dim) size sf) size
        (reduce dim (transform_boxes dim boxes (fun _ => invalidBox dim) size sf)
          size) (fun _ => 0)) (fun _ => 0)).2 := by
    rw [hout]
  have hla : out.leaf_aabbs = reorder out.leafs
      (transform_boxes dim boxes (fun _ => invalidBox dim) size sf) size := by
    rw [hleafs, hout]
  constructor
  · simp only [hleafs]
    exact sort_mcodes_iter_perm size _ _
  · intro p h0 h1
    rw [hla]
    unfold reorder
    rw [if_pos ⟨h0, h1⟩]

/-! ### Claim C10: the memory-level pipeline -/

/-- The memory that `build_radix_tree` works over: the caller's input box
array plus the tree's own arrays (`RadixTree` storage and the propagate
scratch).  This is the state-level elaboration of the same source pipeline,
retaining which array each stage writes. -/
structure BvhMem (dim : ℕ) where
  input : ℤ → Box dim
  leaf_aabbs : ℤ → Box dim
  mcodes : ℤ → ℕ
  leafs : ℤ → ℤ
  lchild : ℤ → ℤ
  rchild : ℤ → ℤ
  parent : ℤ → ℤ
  counters : ℤ → ℤ
  inner_aabbs : ℤ → Box dim

/-- `build_radix_tree` as a transformer of the full memory: each stage writes
exactly the arrays it writes in the source (`transform_boxes` copies the
scaled input boxes into the tree's leaf storage; everything after reads and
writes only the tree's arrays). -/
def build_radix_tree_mem (dim : ℕ) (size : ℤ) (sf : ℚ) (m0 : BvhMem dim) :
    Option (BvhMem dim × Box dim) :=
  let m1 := { m0 with
    leaf_aabbs := transform_boxes dim m0.input m0.leaf_aabbs size sf }
  let bounds := reduce dim m1.leaf_aabbs size
  let m2 := { m1 with
    mcodes := get_mcodes dim m1.leaf_aabbs size bounds m1.mcodes }
  let srt := sort_mcodes size m2.mcodes m2.leafs
  let m3 := { m2 with mcodes := srt.1, leafs := srt.2 }
  let m4 := { m3 with leaf_aabbs := reorder m3.leafs m3.leaf_aabbs size }
  match build_tree size m4.mcodes ⟨m4.lchild, m4.rchild, m4.parent⟩ with
  | none => none
  | some ta =>
    let m5 := { m4 with
      lchild := ta.lchild, rchild := ta.rchild, parent := ta.parent }
    match propagate_aabbs dim size ⟨m5.lchild, m5.rchild, m5.parent⟩
        m5.leaf_aabbs with
    | none => none
    | some ps =>
      some ({ m5 with counters := ps.counters, inner_aabbs := ps.inner_aabbs },
        bounds)

/-- C10: the caller's input box array is never modified — after the whole
pipeline the `input` component of memory is exactly what it was, and the only
flow out of it is the copy made by the first stage: every sorted leaf slot
holds the scaled copy of the input box named by the `leafs` permutation. -/
theorem claim_C10 (dim : ℕ) (size : ℤ) (sf : ℚ) (m0 : BvhMem dim)
    (out : BvhMem dim × Box dim)
    (h : build_radix_tree_mem dim size sf m0 = some out) :
    out.1.input = m0.input ∧
    (∀ i : ℤ, 0 ≤ i → i < size →
      out.1.leaf_aabbs i =
        transform_boxes dim m0.input m0.leaf_aabbs size sf (out.1.leafs i)) := by
  unfold build_radix_tree_mem at h
  dsimp only at h
  rcases hbt : build_tree size
      (sort_mcodes size
        (get_mcodes dim (transform_boxes dim m0.input m0.leaf_aabbs size sf) size
          (reduce dim (transform_boxes dim m0.input m0.leaf_aabbs size sf) size)
          m0.mcodes) m0.leafs).1
      ⟨m0.lchild, m0.rchild, m0.parent⟩ with _ | ta <;> rw [hbt] at h
  · exact absurd h (by simp)
  · dsimp only at h
    rcases hpp : propagate_aabbs dim size ⟨ta.lchild, ta.rchild, ta.parent⟩
        (reorder
          (sort_mcodes size
            (get_mcodes dim (transform_boxes dim m0.input m0.leaf_aabbs size sf)
              size
              (reduce dim (transform_boxes dim m0.input m0.leaf_aabbs size sf)
                size) m0.mcodes) m0.leafs).2
          (transform_boxes dim m0.input m0.leaf_aabbs size sf) size)
      with _ | ps <;> rw [hpp] at h
    · exact absurd h (by simp)
    · dsimp only at h
      simp only [Option.some.injEq] at h
      rw [← h]
      refine ⟨rfl, ?_⟩
      intro i h0 h1
      show reorder _ _ size i = _
      unfold reorder
      rw [if_pos ⟨h0, h1⟩]

/-! ### Box union algebra and ranges of leaf boxes -/

theorem addBox_comm {dim : ℕ} (x y : Box dim) : addBox x y = addBox y x := by
  unfold addBox
  congr 1 <;> funext i
  · exact min_comm _ _
  · exact max_comm _ _

theorem addBox_assoc {dim : ℕ} (x y z : Box dim) :
    addBox (addBox x y) z = addBox x (addBox y z) := by
  unfold addBox
  congr 1 <;> funext i
  · exact min_assoc _ _ _
  · exact max_assoc _ _ _

/-- The union of the leaf boxes `la lo, …, la (lo + f)`. -/
def unionRangeF (dim : ℕ) (la : ℤ → Box dim) (lo : ℤ) : ℕ → Box dim
  | 0 => la lo
  | f + 1 => addBox (unionRangeF dim la lo f) (la (lo + (f + 1)))

/-- The union of the leaf boxes with indices in `[lo, hi]`. -/
def unionRange (dim : ℕ) (la : ℤ → Box dim) (lo hi : ℤ) : Box dim :=
  unionRangeF dim la lo (hi - lo).toNat

theorem unionRange_self (dim : ℕ) (la : ℤ → Box dim) (lo : ℤ) :
    unionRange dim la lo lo = la lo := by
  unfold unionRange
  rw [show (lo - lo).toNat = 0 from by omega]
  rfl

theorem unionRange_snoc (dim : ℕ) (la : ℤ → Box dim) {lo hi : ℤ} (h : lo ≤ hi) :
    unionRange dim la lo (hi + 1) = addBox (unionRange dim la lo hi) (la (hi + 1)) := by
  unfold unionRange
  rw [show (hi + 1 - lo).toNat = (hi - lo).toNat + 1 from by omega]
  show addBox _ (la (lo + ((hi - lo).toNat + 1 : ℕ))) = _
  congr 2
  push_cast
  omega

theorem unionRange_split (dim : ℕ) (la : ℤ → Box dim) {lo γ hi : ℤ}
    (h1 : lo ≤ γ) (h2 : γ < hi) :
    addBox (unionRange dim la lo γ) (unionRange dim la (γ + 1) hi) =
      unionRange dim la lo hi := by
  obtain ⟨m, hm⟩ : ∃ m : ℕ, hi = γ + 1 + m := ⟨(hi - γ - 1).toNat, by omega⟩
  subst hm
  induction m with
  | zero =>
    rw [show γ + 1 + ((0 : ℕ) : ℤ) = γ + 1 from by push_cast; ring]
    rw [unionRange_self, unionRange_snoc dim la h1]
  | succ m ih =>
    have e1 : γ + 1 + ((m + 1 : ℕ) : ℤ) = (γ + 1 + m) + 1 := by push_cast; ring
    rw [e1, unionRange_snoc dim la (by push_cast; omega),
      unionRange_snoc dim la (by push_cast; omega), ← addBox_assoc,
      ih (by push_cast; omega)]

/-! ### The propagate invariant -/

/-- Counter value of internal node `r` after the walks of leaves `< k`:
both arrivals once the range is finished (its last leaf `r.b` processed), one
arrival once the left half is finished (leaf `r.g` processed), none before. -/
def cnt (k : ℤ) (r : Rng) : ℤ := if r.b < k then 2 else if r.g < k then 1 else 0

/-- Ghost write count of internal node `r` after the walks of leaves `< k`. -/
def doneW (k : ℤ) (r : Rng) : ℕ := if r.b < k then 1 else 0

/-- State of `propagate_aabbs` after the walks of leaves `< k`: every internal
node carries its counter phase, and a finished node holds exactly the union of
its range's leaf boxes, stored once. -/
def PreInv (dim : ℕ) (fam : List Rng) (la2 : ℤ → Box dim) (k : ℤ)
    (ps : PropState dim) : Prop :=
  ∀ r ∈ fam, ps.counters r.e = cnt k r ∧
    (r.b < k → ps.inner_aabbs r.e = unionRange dim la2 r.a r.b) ∧
    ps.wcount r.e = doneW k r

namespace SortedCodes

variable {n : ℤ} {mcodes : ℤ → ℕ}

/-- Distinct splits name distinct records. -/
theorem g_inj {a b e : ℤ} {fam : List Rng} (hfam : FamOk n mcodes a b e fam) :
    ∀ r1 ∈ fam, ∀ r2 ∈ fam, r1.g = r2.g → r1 = r2 :=
  fun r1 h1 r2 h2 h => nodup_map_mem_inj hfam.split_nodup r1 h1 r2 h2 h

/-- The two child slots of a node are always distinct. -/
theorem childL_ne_childR (H : SortedCodes n mcodes) {fam : List Rng}
    (hfam : FamOk n mcodes 0 (n - 1) 0 fam) :
    ∀ r ∈ fam, childL n r ≠ childR n r := by
  have hn2 := H.two_le
  intro r hr
  obtain ⟨hg1, hg2⟩ := hfam.g_range r hr
  obtain ⟨hv1, hv2⟩ := hfam.nested r hr
  have hab := (hfam.inv_all r hr).hab
  unfold childL childR
  split_ifs <;> omega

/-- Any non-root record is the left or the right child range of a unique
parent record. -/
theorem parent_rec (H : SortedCodes n mcodes) {fam : List Rng}
    (hfam : FamOk n mcodes 0 (n - 1) 0 fam) :
    ∀ r ∈ fam, r.e ≠ 0 →
      ∃ rp ∈ fam,
        (childL n rp = r.e ∧ rp.a = r.a ∧ rp.g = r.b) ∨
        (childR n rp = r.e ∧ rp.g + 1 = r.a ∧ rp.b = r.b) := by
  have hn2 := H.two_le
  intro r hr hne
  have hre : r.e < n - 1 := by
    rcases hfam.rep_loc r hr with h | h <;> omega
  have hre0 : 0 ≤ r.e := by
    rcases hfam.rep_loc r hr with h | h <;> omega
  rcases hfam.parent_ex r hr with h | ⟨rp, hrp, hc⟩
  · exact absurd h hne
  · obtain ⟨hpg1, hpg2⟩ := hfam.g_range rp hrp
    obtain ⟨hpv1, hpv2⟩ := hfam.nested rp hrp
    refine ⟨rp, hrp, ?_⟩
    rcases hc with hc | hc
    · left
      have hlf : ¬(rp.a = rp.g) := by
        intro hlf
        unfold childL at hc
        rw [if_pos hlf] at hc
        omega
      unfold childL at hc
      rw [if_neg hlf] at hc
      have hmem := hfam.childL_mem rp hrp (by omega)
      have hrec := nodup_map_mem_inj hfam.rep_nodup r hr _ hmem (by
        show r.e = rp.g
        omega)
      refine ⟨?_, ?_, ?_⟩
      · unfold childL
        rw [if_neg hlf]
        exact hc
      · rw [hrec]
      · rw [hrec]
    · right
      have hlf : ¬(rp.b = rp.g + 1) := by
        intro hlf
        unfold childR at hc
        rw [if_pos hlf] at hc
        omega
      unfold childR at hc
      rw [if_neg hlf] at hc
      have hmem := hfam.childR_mem rp hrp (by omega)
      have hrec := nodup_map_mem_inj hfam.rep_nodup r hr _ hmem (by
        show r.e = rp.g + 1
        omega)
      refine ⟨?_, ?_, ?_⟩
      · unfold childR
        rw [if_neg hlf]
        exact hc
      · rw [hrec]
      · rw [hrec]

/-- The unique record whose range is the whole `[0, n-1]` is the root. -/
theorem root_unique (H : SortedCodes n mcodes) {fam : List Rng}
    (hfam : FamOk n mcodes 0 (n - 1) 0 fam) :
    ∀ r ∈ fam, r.a = 0 → r.b = n - 1 → r.e = 0 := by
  intro r hr h1 h2
  have hroot := hfam.self_mem
  have := hfam.range_inj r hr _ hroot (by rw [h1]) (by rw [h2])
  rw [this]

/-- One write step of the climbing walk: entering node `r` from its right
child with the box of the right half, the walk increments the counter `1 → 2`,
reads the left half box, stores the union of the whole range, and climbs to
the parent carrying that union. -/
theorem walk_write (H : SortedCodes n mcodes) {fam : List Rng} {ta : TreeArrays}
    (hfam : FamOk n mcodes 0 (n - 1) 0 fam)
    (hch : ∀ r ∈ fam, ta.lchild r.e = childL n r ∧ ta.rchild r.e = childR n r)
    (dim : ℕ) (la2 : ℤ → Box dim) {r : Rng} (hr : r ∈ fam)
    (f : ℕ) (ps : PropState dim)
    (hcnt1 : ps.counters r.e = 1)
    (hboxL : ¬(r.a = r.g) → ps.inner_aabbs r.g = unionRange dim la2 r.a r.g) :
    propWalkF dim (n - 1) ta.parent ta.lchild ta.rchild la2 (f + 1) ps
        (childR n r) r.e (unionRange dim la2 (r.g + 1) r.b) =
      propWalkF dim (n - 1) ta.parent ta.lchild ta.rchild la2 f
        ⟨Function.update ps.counters r.e 2,
         Function.update ps.inner_aabbs r.e (unionRange dim la2 r.a r.b),
         Function.update ps.wcount r.e (ps.wcount r.e + 1)⟩
        r.e (ta.parent r.e) (unionRange dim la2 r.a r.b) := by
  have hn2 := H.two_le
  have hre : 0 ≤ r.e ∧ r.e < n - 1 := by
    rcases hfam.rep_loc r hr with h | h <;> omega
  obtain ⟨hg1, hg2⟩ := hfam.g_range r hr
  obtain ⟨hv1, hv2⟩ := hfam.nested r hr
  obtain ⟨hcl, hcr⟩ := hch r hr
  have hne := H.childL_ne_childR hfam r hr
  have hother : (if n - 1 ≤ childL n r then la2 (childL n r - (n - 1))
      else ps.inner_aabbs (childL n r)) = unionRange dim la2 r.a r.g := by
    by_cases hlf : r.a = r.g
    · have hv : childL n r = r.g + (n - 1) := by
        unfold childL
        rw [if_pos hlf]
      rw [hv, if_pos (by omega), show r.g + (n - 1) - (n - 1) = r.g from by ring,
        hlf, unionRange_self]
    · have hv : childL n r = r.g := by
        unfold childL
        rw [if_neg hlf]
      rw [hv, if_neg (by omega)]
      exact hboxL hlf
  simp only [propWalkF]
  rw [if_neg (show ¬(r.e = -1) from by omega), hcnt1]
  rw [if_neg (show ¬(1 : ℤ) = 0 from by norm_num)]
  rw [hcl, hcr]
  rw [if_neg hne]
  rw [hother]
  rw [addBox_comm, unionRange_split dim la2 hg1 hg2]
  norm_num

/-- Two distinct records whose ranges share the right endpoint are strictly
nested. -/
theorem bk_nested {fam : List Rng} (hfam : FamOk n mcodes 0 (n - 1) 0 fam) :
    ∀ w ∈ fam, ∀ r ∈ fam, w.b = r.b → w ≠ r →
      (w.b - w.a < r.b - r.a ∧ r.a < w.a) ∨
      (r.b - r.a < w.b - w.a ∧ w.a < r.a) := by
  intro w hw r hr hb hne
  have habw := (hfam.inv_all w hw).hab
  have habr := (hfam.inv_all r hr).hab
  have hl := hfam.laminar w hw r hr (by omega) (by omega)
  rcases hl with ⟨h1, h2⟩ | ⟨h1, h2⟩
  · -- r ⊆ w
    rcases eq_or_lt_of_le h1 with he | he
    · exact absurd (hfam.range_inj w hw r hr (by omega) hb).symm (Ne.symm hne)
    · exact Or.inr ⟨by omega, he⟩
  · rcases eq_or_lt_of_le h1 with he | he
    · exact absurd (hfam.range_inj w hw r hr (by omega) hb) hne
    · exact Or.inl ⟨by omega, he⟩

/-- No record whose range ends where `rp` splits: once the walk dies at `rp`
(range split exactly at leaf `k`), no unfinished record ending at `k` and at
least as large as the child `r` remains. -/
theorem no_bigger_die {fam : List Rng} (hfam : FamOk n mcodes 0 (n - 1) 0 fam) :
    ∀ r ∈ fam, ∀ rp ∈ fam, rp.a = r.a → rp.g = r.b →
      ∀ w ∈ fam, w.b = r.b → r.b - r.a < w.b - w.a → False := by
  intro r hr rp hrp ha hg w hw hb hsz
  have habw := (hfam.inv_all w hw).hab
  have habr := (hfam.inv_all r hr).hab
  have habp := (hfam.inv_all rp hrp).hab
  have hgp := hfam.g_range rp hrp
  have hl := hfam.laminar w hw rp hrp (by omega) (by omega)
  rcases hl with ⟨h1, h2⟩ | ⟨h1, h2⟩ <;> omega

/-- No record with range ending at `k` lies strictly between a right child `r`
and its parent `rp`. -/
theorem no_between {fam : List Rng} (hfam : FamOk n mcodes 0 (n - 1) 0 fam) :
    ∀ r ∈ fam, ∀ rp ∈ fam, rp.g + 1 = r.a → rp.b = r.b →
      ∀ w ∈ fam, w.b = r.b → r.b - r.a < w.b - w.a → w.b - w.a < rp.b - rp.a →
        False := by
  intro r hr rp hrp ha hb w hw hwb hsz1 hsz2
  have habw := (hfam.inv_all w hw).hab
  have habr := (hfam.inv_all r hr).hab
  have habp := (hfam.inv_all rp hrp).hab
  have hgp := hfam.g_range rp hrp
  -- w is strictly nested between r and rp, sharing the right endpoint
  have hnw : w.a < r.a := by
    rcases bk_nested hfam w hw r hr (by omega)
        (by intro he; rw [he] at hsz1; omega) with h | h <;> omega
  have hnwp : rp.a < w.a := by
    rcases bk_nested hfam w hw rp hrp (by omega)
        (by intro he; rw [he] at hsz2; omega) with h | h <;> omega
  -- compare w with the left child of rp
  have hmemc := hfam.childL_mem rp hrp (by omega)
  have hlc := hfam.laminar w hw _ hmemc (by dsimp only; omega)
    (by dsimp only; omega)
  dsimp only at hlc
  omega

/-- The climbing phase of the walk of leaf `k`.  Entering from the right
child a node `r` whose range ends at `k`, with the mid-walk state (strictly
smaller ranges ending at `k` finished, everything else at its phase-`k`
values), the walk terminates and leaves the full phase-`k+1` invariant. -/
theorem walk_climb (H : SortedCodes n mcodes) {fam : List Rng} {ta : TreeArrays}
    (hfam : FamOk n mcodes 0 (n - 1) 0 fam)
    (hch : ∀ r ∈ fam, ta.lchild r.e = childL n r ∧ ta.rchild r.e = childR n r)
    (hpar : ∀ r ∈ fam, ∀ j : ℤ, (childL n r = j ∨ childR n r = j) →
      ta.parent j = r.e)
    (hroot : ta.parent 0 = -1)
    (dim : ℕ) (la2 : ℤ → Box dim) {k : ℤ} (hk0 : 0 ≤ k) (hkn : k ≤ n - 1) :
    ∀ M : ℕ, ∀ r ∈ fam, r.b = k → (n - 1 - (r.b - r.a)).toNat ≤ M →
      ∀ f : ℕ, M + 2 ≤ f → ∀ ps : PropState dim,
      (∀ w ∈ fam,
        (w.b = k ∧ w.b - w.a < r.b - r.a →
          ps.counters w.e = 2 ∧
          ps.inner_aabbs w.e = unionRange dim la2 w.a w.b ∧
          ps.wcount w.e = 1) ∧
        (¬(w.b = k ∧ w.b - w.a < r.b - r.a) →
          ps.counters w.e = cnt k w ∧
          (w.b < k → ps.inner_aabbs w.e = unionRange dim la2 w.a w.b) ∧
          ps.wcount w.e = doneW k w)) →
      ∃ psF, propWalkF dim (n - 1) ta.parent ta.lchild ta.rchild la2 f ps
          (childR n r) r.e (unionRange dim la2 (r.g + 1) r.b) = some psF ∧
        PreInv dim fam la2 (k + 1) psF := by
  have hn2 := H.two_le
  intro M
  induction M using Nat.strong_induction_on with
  | _ M ih =>
  intro r hr hrb hM f hf ps hmid
  have habr := (hfam.inv_all r hr).hab
  obtain ⟨hg1, hg2⟩ := hfam.g_range r hr
  obtain ⟨hv1, hv2⟩ := hfam.nested r hr
  have hre : 0 ≤ r.e ∧ r.e < n - 1 := by
    rcases hfam.rep_loc r hr with h | h <;> omega
  have hrne : ∀ w ∈ fam, w ≠ r → w.e ≠ r.e := by
    intro w hw hne he
    exact hne (nodup_map_mem_inj hfam.rep_nodup w hw r hr he)
  have hcnt1 : ps.counters r.e = 1 := by
    have h := ((hmid r hr).2 (by omega)).1
    rw [h]
    unfold cnt
    rw [if_neg (by omega), if_pos (by omega)]
  have hw0 : ps.wcount r.e = 0 := by
    have h := ((hmid r hr).2 (by omega)).2.2
    rw [h]
    unfold doneW
    rw [if_neg (by omega)]
  have hboxL : ¬(r.a = r.g) → ps.inner_aabbs r.g = unionRange dim la2 r.a r.g := by
    intro hlf
    have hmemc := hfam.childL_mem r hr (by omega)
    exact ((hmid _ hmemc).2 (by dsimp only; omega)).2.1 (by dsimp only; omega)
  obtain ⟨f1, rfl⟩ : ∃ f1, f = f1 + 1 := ⟨f - 1, by omega⟩
  have hkey := H.walk_write hfam hch dim la2 hr f1 ps hcnt1 hboxL
  rw [hkey]
  obtain ⟨ps2, hps2⟩ : ∃ x, (⟨Function.update ps.counters r.e 2,
      Function.update ps.inner_aabbs r.e (unionRange dim la2 r.a r.b),
      Function.update ps.wcount r.e (ps.wcount r.e + 1)⟩ : PropState dim) = x :=
    ⟨_, rfl⟩
  rw [hps2]
  have hc2q : ps2.counters = Function.update ps.counters r.e 2 := by rw [← hps2]
  have hb2q : ps2.inner_aabbs =
      Function.update ps.inner_aabbs r.e (unionRange dim la2 r.a r.b) := by
    rw [← hps2]
  have hw2q : ps2.wcount =
      Function.update ps.wcount r.e (ps.wcount r.e + 1) := by
    rw [← hps2]
  by_cases hr0 : r.e = 0
  · -- the current node is the root: after the write the walk exits
    have hrroot : r = ⟨0, 0, n - 1, gammaOf n mcodes 0⟩ :=
      nodup_map_mem_inj hfam.rep_nodup r hr _ hfam.self_mem (by rw [hr0])
    have hra : r.a = 0 := by rw [hrroot]
    have hrbn : r.b = n - 1 := by rw [hrroot]
    have hpr : ta.parent r.e = -1 := by rw [hr0, hroot]
    rw [hpr]
    obtain ⟨f2, rfl⟩ : ∃ f2, f1 = f2 + 1 := ⟨f1 - 1, by omega⟩
    refine ⟨ps2, ?_, ?_⟩
    · simp only [propWalkF]
      rw [if_pos trivial]
    · intro w hw
      by_cases hwr : w = r
      · subst hwr
        refine ⟨?_, fun _ => ?_, ?_⟩
        · rw [hc2q, Function.update_same]
          unfold cnt
          rw [if_pos (by omega)]
        · rw [hb2q, Function.update_same]
        · rw [hw2q, Function.update_same, hw0]
          unfold doneW
          rw [if_pos (by omega)]
      · have hwe := hrne w hw hwr
        have hnw := hfam.nested w hw
        by_cases hcond : w.b = k ∧ w.b - w.a < r.b - r.a
        · obtain ⟨h1, h2, h3⟩ := (hmid w hw).1 hcond
          refine ⟨?_, fun _ => ?_, ?_⟩
          · rw [hc2q, Function.update_noteq hwe, h1]
            unfold cnt
            rw [if_pos (by omega)]
          · rw [hb2q, Function.update_noteq hwe]
            exact h2
          · rw [hw2q, Function.update_noteq hwe, h3]
            unfold doneW
            rw [if_pos (by omega)]
        · obtain ⟨h1, h2, h3⟩ := (hmid w hw).2 hcond
          have hwbk : w.b ≠ k := by
            intro hbk
            rcases bk_nested hfam w hw r hr (by omega) hwr with h | h
            · exact hcond ⟨hbk, h.1⟩
            · omega
          have hwgk : w.g ≠ k := by
            have := hfam.g_range w hw
            omega
          refine ⟨?_, fun hlt => ?_, ?_⟩
          · rw [hc2q, Function.update_noteq hwe, h1]
            unfold cnt
            split_ifs <;> omega
          · rw [hb2q, Function.update_noteq hwe]
            exact h2 (by omega)
          · rw [hw2q, Function.update_noteq hwe, h3]
            unfold doneW
            split_ifs <;> omega
  · -- not the root: find the parent record
    obtain ⟨rp, hrp, hpc⟩ := H.parent_rec hfam r hr hr0
    have habp := (hfam.inv_all rp hrp).hab
    obtain ⟨hgp1, hgp2⟩ := hfam.g_range rp hrp
    obtain ⟨hvp1, hvp2⟩ := hfam.nested rp hrp
    have hrpe : 0 ≤ rp.e ∧ rp.e < n - 1 := by
      rcases hfam.rep_loc rp hrp with h | h <;> omega
    rcases hpc with ⟨hcpl, hpa, hpg⟩ | ⟨hcpr, hpa, hpb⟩
    · -- the current node is a left child: the walk dies at the parent
      have hrpne : rp ≠ r := by
        intro he
        rw [he] at hpg
        omega
      have hrpe_ne : rp.e ≠ r.e := hrne rp hrp hrpne
      have e2 : ta.parent r.e = rp.e := hpar rp hrp r.e (Or.inl hcpl)
      rw [e2]
      obtain ⟨f2, rfl⟩ : ∃ f2, f1 = f2 + 1 := ⟨f1 - 1, by omega⟩
      have hcnt0 : ps2.counters rp.e = 0 := by
        rw [hc2q, Function.update_noteq hrpe_ne]
        have h := ((hmid rp hrp).2 (by omega)).1
        rw [h]
        unfold cnt
        rw [if_neg (by omega), if_neg (by omega)]
      obtain ⟨ps3, hps3⟩ : ∃ x, (⟨Function.update ps2.counters rp.e 1,
          ps2.inner_aabbs, ps2.wcount⟩ : PropState dim) = x := ⟨_, rfl⟩
      have hc3q : ps3.counters = Function.update ps2.counters rp.e 1 := by
        rw [← hps3]
      have hb3q : ps3.inner_aabbs = ps2.inner_aabbs := by rw [← hps3]
      have hw3q : ps3.wcount = ps2.wcount := by rw [← hps3]
      refine ⟨ps3, ?_, ?_⟩
      · simp only [propWalkF]
        rw [if_neg (show ¬(rp.e = -1) from by omega), hcnt0]
        rw [if_pos rfl]
        rw [show (0 : ℤ) + 1 = 1 from by norm_num]
        rw [hps3]
      · intro w hw
        by_cases hwrp : w = rp
        · subst hwrp
          refine ⟨?_, fun hlt => ?_, ?_⟩
          · rw [hc3q, Function.update_same]
            unfold cnt
            rw [if_neg (by omega), if_pos (by omega)]
          · exact absurd hlt (by omega)
          · rw [hw3q, hw2q, Function.update_noteq hrpe_ne]
            have h := ((hmid w hrp).2 (by omega)).2.2
            rw [h]
            unfold doneW
            rw [if_neg (by omega), if_neg (by omega)]
        · by_cases hwr : w = r
          · subst hwr
            have hwe' : w.e ≠ rp.e := fun he => hrpne (nodup_map_mem_inj
              hfam.rep_nodup rp hrp w hw he.symm)
            refine ⟨?_, fun _ => ?_, ?_⟩
            · rw [hc3q, Function.update_noteq hwe', hc2q, Function.update_same]
              unfold cnt
              rw [if_pos (by omega)]
            · rw [hb3q, hb2q, Function.update_same]
            · rw [hw3q, hw2q, Function.update_same, hw0]
              unfold doneW
              rw [if_pos (by omega)]
          · have hwe := hrne w hw hwr
            have hwe' : w.e ≠ rp.e := fun he => hwrp (nodup_map_mem_inj
              hfam.rep_nodup w hw rp hrp he)
            by_cases hcond : w.b = k ∧ w.b - w.a < r.b - r.a
            · obtain ⟨h1, h2, h3⟩ := (hmid w hw).1 hcond
              refine ⟨?_, fun _ => ?_, ?_⟩
              · rw [hc3q, Function.update_noteq hwe', hc2q,
                  Function.update_noteq hwe, h1]
                unfold cnt
                rw [if_pos (by omega)]
              · rw [hb3q, hb2q, Function.update_noteq hwe]
                exact h2
              · rw [hw3q, hw2q, Function.update_noteq hwe, h3]
                unfold doneW
                rw [if_pos (by omega)]
            · obtain ⟨h1, h2, h3⟩ := (hmid w hw).2 hcond
              have hwbk : w.b ≠ k := by
                intro hbk
                rcases bk_nested hfam w hw r hr (by omega) hwr with h | h
                · exact hcond ⟨hbk, h.1⟩
                · exact no_bigger_die hfam r hr rp hrp hpa (by omega) w hw
                    (by omega) (by omega)
              have hwgk : w.g ≠ k := by
                intro hgk
                exact hwrp (g_inj hfam w hw rp hrp (by omega))
              refine ⟨?_, fun hlt => ?_, ?_⟩
              · rw [hc3q, Function.update_noteq hwe', hc2q,
                  Function.update_noteq hwe, h1]
                unfold cnt
                split_ifs <;> omega
              · rw [hb3q, hb2q, Function.update_noteq hwe]
                exact h2 (by omega)
              · rw [hw3q, hw2q, Function.update_noteq hwe, h3]
                unfold doneW
                split_ifs <;> omega
    · -- the current node is a right child: continue climbing at the parent
      have hszp : r.b - r.a < rp.b - rp.a := by omega
      have hlt : (n - 1 - (rp.b - rp.a)).toNat < M := by omega
      have hmid2 : ∀ w ∈ fam,
          (w.b = k ∧ w.b - w.a < rp.b - rp.a →
            ps2.counters w.e = 2 ∧
            ps2.inner_aabbs w.e = unionRange dim la2 w.a w.b ∧
            ps2.wcount w.e = 1) ∧
          (¬(w.b = k ∧ w.b - w.a < rp.b - rp.a) →
            ps2.counters w.e = cnt k w ∧
            (w.b < k → ps2.inner_aabbs w.e = unionRange dim la2 w.a w.b) ∧
            ps2.wcount w.e = doneW k w) := by
        intro w hw
        constructor
        · rintro ⟨hwb, hwsz⟩
          by_cases hwr : w = r
          · subst hwr
            refine ⟨?_, ?_, ?_⟩
            · rw [hc2q, Function.update_same]
            · rw [hb2q, Function.update_same]
            · rw [hw2q, Function.update_same, hw0]
          · have hwe := hrne w hw hwr
            rcases bk_nested hfam w hw r hr (by omega) hwr with ⟨hs, _⟩ |
                ⟨hs, _⟩
            · obtain ⟨h1, h2, h3⟩ := (hmid w hw).1 ⟨hwb, hs⟩
              exact ⟨by rw [hc2q, Function.update_noteq hwe]; exact h1,
                by rw [hb2q, Function.update_noteq hwe]; exact h2,
                by rw [hw2q, Function.update_noteq hwe]; exact h3⟩
            · exact (no_between hfam r hr rp hrp hpa (by omega) w hw
                (by omega) (by omega) (by omega)).elim
        · intro hncond
          have hwr : w ≠ r := by
            intro he
            subst he
            exact hncond ⟨by omega, by omega⟩
          have hwe := hrne w hw hwr
          have hnc' : ¬(w.b = k ∧ w.b - w.a < r.b - r.a) := by
            rintro ⟨h1, h2⟩
            exact hncond ⟨h1, by omega⟩
          obtain ⟨h1, h2, h3⟩ := (hmid w hw).2 hnc'
          exact ⟨by rw [hc2q, Function.update_noteq hwe]; exact h1,
            fun hlt => by rw [hb2q, Function.update_noteq hwe]; exact h2 hlt,
            by rw [hw2q, Function.update_noteq hwe]; exact h3⟩
      obtain ⟨psF, hF, hPre⟩ := ih _ hlt rp hrp (by omega) le_rfl f1 (by omega)
        ps2 hmid2
      have e2 : ta.parent r.e = rp.e := hpar rp hrp r.e (Or.inr hcpr)
      have e3 : unionRange dim la2 (rp.g + 1) rp.b = unionRange dim la2 r.a r.b := by
        rw [hpa, hpb]
      rw [hcpr, e3] at hF
      rw [e2]
      exact ⟨psF, hF, hPre⟩

/-- One leaf of the propagate loop: the walk of leaf `k` terminates and turns
the phase-`k` invariant into the phase-`k+1` invariant. -/
theorem leaf_step (H : SortedCodes n mcodes) {fam : List Rng} {ta : TreeArrays}
    (hfam : FamOk n mcodes 0 (n - 1) 0 fam)
    (hch : ∀ r ∈ fam, ta.lchild r.e = childL n r ∧ ta.rchild r.e = childR n r)
    (hpar : ∀ r ∈ fam, ∀ j : ℤ, (childL n r = j ∨ childR n r = j) →
      ta.parent j = r.e)
    (hroot : ta.parent 0 = -1)
    (dim : ℕ) (la2 : ℤ → Box dim) {k : ℤ} (hk0 : 0 ≤ k) (hkn : k < n)
    (f : ℕ) (hf : n.toNat + 2 ≤ f) (ps : PropState dim)
    (hpre : PreInv dim fam la2 k ps) :
    ∃ psF, propWalkF dim (n - 1) ta.parent ta.lchild ta.rchild la2 f
        ps ((n - 1) + k) (ta.parent ((n - 1) + k)) (la2 k) = some psF ∧
      PreInv dim fam la2 (k + 1) psF := by
  have hn2 := H.two_le
  obtain ⟨r0, hr0, hc0⟩ := hfam.edge_cover_leaf k (by omega) (by omega)
  have hab0 := (hfam.inv_all r0 hr0).hab
  obtain ⟨hg01, hg02⟩ := hfam.g_range r0 hr0
  obtain ⟨hv01, hv02⟩ := hfam.nested r0 hr0
  have hre0 : 0 ≤ r0.e ∧ r0.e < n - 1 := by
    rcases hfam.rep_loc r0 hr0 with h | h <;> omega
  have hpar0 : ta.parent ((n - 1) + k) = r0.e := by
    rw [show (n - 1) + k = k + (n - 1) from by ring]
    exact hpar r0 hr0 (k + (n - 1)) hc0
  have hrne : ∀ w ∈ fam, w ≠ r0 → w.e ≠ r0.e := by
    intro w hw hne he
    exact hne (nodup_map_mem_inj hfam.rep_nodup w hw r0 hr0 he)
  rcases hc0 with hc0 | hc0
  · -- the leaf slot is the left child of `r0`: first arrival, the walk dies
    have hlf : r0.a = r0.g ∧ r0.g = k := by
      unfold childL at hc0
      by_cases h : r0.a = r0.g
      · rw [if_pos h] at hc0
        exact ⟨h, by omega⟩
      · rw [if_neg h] at hc0
        omega
    have hnobk : ∀ w ∈ fam, w.b ≠ k := by
      intro w hw hbk
      have habw := (hfam.inv_all w hw).hab
      by_cases hwr : w = r0
      · rw [hwr] at hbk
        omega
      · have hl := hfam.laminar w hw r0 hr0 (by omega) (by omega)
        rcases hl with h | h <;> omega
    have hcnt0 : ps.counters r0.e = 0 := by
      rw [(hpre r0 hr0).1]
      unfold cnt
      rw [if_neg (by omega), if_neg (by omega)]
    rw [hpar0]
    obtain ⟨f1, rfl⟩ : ∃ f1, f = f1 + 1 := ⟨f - 1, by omega⟩
    obtain ⟨ps1, hps1⟩ : ∃ x, (⟨Function.update ps.counters r0.e 1,
        ps.inner_aabbs, ps.wcount⟩ : PropState dim) = x := ⟨_, rfl⟩
    have hc1q : ps1.counters = Function.update ps.counters r0.e 1 := by
      rw [← hps1]
    have hb1q : ps1.inner_aabbs = ps.inner_aabbs := by rw [← hps1]
    have hw1q : ps1.wcount = ps.wcount := by rw [← hps1]
    refine ⟨ps1, ?_, ?_⟩
    · simp only [propWalkF]
      rw [if_neg (show ¬(r0.e = -1) from by omega), hcnt0]
      rw [if_pos rfl]
      rw [show (0 : ℤ) + 1 = 1 from by norm_num]
      rw [hps1]
    · intro w hw
      have habw := (hfam.inv_all w hw).hab
      obtain ⟨h1, h2, h3⟩ := hpre w hw
      by_cases hwr : w = r0
      · subst hwr
        refine ⟨?_, fun hlt => ?_, ?_⟩
        · rw [hc1q, Function.update_same]
          unfold cnt
          rw [if_neg (by omega), if_pos (by omega)]
        · exact absurd hlt (by omega)
        · rw [hw1q, h3]
          unfold doneW
          rw [if_neg (by omega), if_neg (by omega)]
      · have hwe := hrne w hw hwr
        have hwbk := hnobk w hw
        have hwgk : w.g ≠ k := by
          intro hgk
          exact hwr (g_inj hfam w hw r0 hr0 (by omega))
        refine ⟨?_, fun hlt => ?_, ?_⟩
        · rw [hc1q, Function.update_noteq hwe, h1]
          unfold cnt
          split_ifs <;> omega
        · rw [hb1q]
          exact h2 (by omega)
        · rw [hw1q, h3]
          unfold doneW
          split_ifs <;> omega
  · -- the leaf slot is the right child of `r0`: hand over to the climb
    have hlf : r0.b = r0.g + 1 ∧ r0.g + 1 = k := by
      unfold childR at hc0
      by_cases h : r0.b = r0.g + 1
      · rw [if_pos h] at hc0
        exact ⟨h, by omega⟩
      · rw [if_neg h] at hc0
        omega
    have hmid : ∀ w ∈ fam,
        (w.b = k ∧ w.b - w.a < r0.b - r0.a →
          ps.counters w.e = 2 ∧
          ps.inner_aabbs w.e = unionRange dim la2 w.a w.b ∧
          ps.wcount w.e = 1) ∧
        (¬(w.b = k ∧ w.b - w.a < r0.b - r0.a) →
          ps.counters w.e = cnt k w ∧
          (w.b < k → ps.inner_aabbs w.e = unionRange dim la2 w.a w.b) ∧
          ps.wcount w.e = doneW k w) := by
      intro w hw
      have habw := (hfam.inv_all w hw).hab
      constructor
      · rintro ⟨hwb, hwsz⟩
        exfalso
        by_cases hwr : w = r0
        · rw [hwr] at hwsz
          omega
        · rcases bk_nested hfam w hw r0 hr0 (by omega) hwr with ⟨hs, hsa⟩ |
              ⟨hs, hsa⟩
          · by_cases hlf0 : r0.a = r0.g
            · omega
            · have hmemc := hfam.childL_mem r0 hr0 (by omega)
              have habc := (hfam.inv_all _ hmemc).hab
              have hlc := hfam.laminar w hw _ hmemc (by dsimp only; omega)
                (by dsimp only; omega)
              dsimp only at hlc habc
              omega
          · omega
      · intro _
        exact hpre w hw
    have e1 : childR n r0 = (n - 1) + k := by omega
    have e3 : unionRange dim la2 (r0.g + 1) r0.b = la2 k := by
      rw [show r0.g + 1 = k from by omega, show r0.b = k from by omega,
        unionRange_self]
    obtain ⟨psF, hF, hPre⟩ := H.walk_climb hfam hch hpar hroot dim la2 hk0
      (by omega) ((n - 1 - (r0.b - r0.a)).toNat) r0 hr0 (by omega) le_rfl
      f (by omega) ps hmid
    rw [e1, e3, ← hpar0] at hF
    exact ⟨psF, hF, hPre⟩

/-- The sequential leaf loop of `propagate_aabbs` maintains the phase
invariant. -/
theorem prop_fold (H : SortedCodes n mcodes) {fam : List Rng} {ta : TreeArrays}
    (hfam : FamOk n mcodes 0 (n - 1) 0 fam)
    (hch : ∀ r ∈ fam, ta.lchild r.e = childL n r ∧ ta.rchild r.e = childR n r)
    (hpar : ∀ r ∈ fam, ∀ j : ℤ, (childL n r = j ∨ childR n r = j) →
      ta.parent j = r.e)
    (hroot : ta.parent 0 = -1)
    (dim : ℕ) (la2 : ℤ → Box dim) :
    ∀ m : ℕ, m ≤ n.toNat →
      ∃ psF, List.foldlM (fun ps (i : ℤ) =>
          propWalkF dim (n - 1) ta.parent ta.lchild ta.rchild la2 (n.toNat + 2)
            ps ((n - 1) + i) (ta.parent ((n - 1) + i)) (la2 i))
          (⟨fun _ => 0, fun _ => invalidBox dim, fun _ => 0⟩ : PropState dim)
          ((List.range m).map Int.ofNat) = some psF ∧
        PreInv dim fam la2 (m : ℤ) psF := by
  have hn2 := H.two_le
  intro m
  induction m with
  | zero =>
    intro _
    refine ⟨_, rfl, ?_⟩
    intro r hr
    have hab := (hfam.inv_all r hr).hab
    have hg := hfam.g_range r hr
    have hnest := hfam.nested r hr
    refine ⟨?_, fun hlt => ?_, ?_⟩
    · show (0 : ℤ) = cnt 0 r
      unfold cnt
      rw [if_neg (by omega), if_neg (by omega)]
    · exact absurd hlt (by omega)
    · show (0 : ℕ) = doneW 0 r
      unfold doneW
      rw [if_neg (by omega)]
  | succ m ihm =>
    intro hm
    obtain ⟨ps1, hFold, hPre⟩ := ihm (by omega)
    obtain ⟨psF, hStep, hPre2⟩ := H.leaf_step hfam hch hpar hroot dim la2
      (k := (Int.ofNat m)) (by rw [Int.ofNat_eq_natCast]; omega)
      (by rw [Int.ofNat_eq_natCast]; omega) (n.toNat + 2) le_rfl ps1 (by
        rwa [show (Int.ofNat m : ℤ) = (m : ℤ) from Int.ofNat_eq_natCast m])
    refine ⟨psF, ?_, ?_⟩
    · rw [List.range_succ, List.map_append, List.foldlM_append, hFold]
      simp only [Option.bind_eq_bind, Option.some_bind, List.map_cons,
        List.map_nil, List.foldlM_cons, List.foldlM_nil]
      rw [hStep]
      rfl
    · have he : ((m + 1 : ℕ) : ℤ) = (Int.ofNat m) + 1 := by
        rw [Int.ofNat_eq_natCast]
        push_cast
        ring
      rw [he]
      exact hPre2

/-- `propagate_aabbs` terminates on the `build_tree` output and establishes
the final invariant: every internal node counted twice, its box stored once
and equal to the union of its range's leaf boxes. -/
theorem propagate_ok (H : SortedCodes n mcodes) {fam : List Rng}
    {ta : TreeArrays}
    (hfam : FamOk n mcodes 0 (n - 1) 0 fam)
    (hch : ∀ r ∈ fam, ta.lchild r.e = childL n r ∧ ta.rchild r.e = childR n r)
    (hpar : ∀ r ∈ fam, ∀ j : ℤ, (childL n r = j ∨ childR n r = j) →
      ta.parent j = r.e)
    (hroot : ta.parent 0 = -1)
    (dim : ℕ) (la2 : ℤ → Box dim) :
    ∃ ps, propagate_aabbs dim n ta la2 = some ps ∧
      PreInv dim fam la2 n ps := by
  have hn2 := H.two_le
  obtain ⟨psF, hFold, hPre⟩ := H.prop_fold hfam hch hpar hroot dim la2
    n.toNat le_rfl
  refine ⟨psF, ?_, ?_⟩
  · unfold propagate_aabbs
    exact hFold
  · rwa [show ((n.toNat : ℤ)) = n from by omega] at hPre

end SortedCodes

/-! ### Claim C2 -/

/-- C2, amended to the no-wrap domain `2 ≤ n ≤ 2^24 + 1` (where the source
`int32`/`float32` arithmetic of `build_tree` provably builds the exact Karras
tree — at `n = 2^30 + 2` the original unbounded claim fails, see
`claim_C2_cex`): after `build_tree` and `propagate_aabbs` (sequential
elaboration of the parallel leaf loop), every internal node's counter was
incremented exactly twice (from its zero initialization), its box was stored
exactly once — the arrival seeing pre-increment 0 stopped without writing,
the arrival seeing 1 wrote and climbed — and the stored box is exactly the
union of its two children's boxes, leaf boxes read from the sorted leaf
array. -/
theorem claim_C2 (n : ℤ) (mcodes : ℤ → ℕ) (H : SortedCodes n mcodes)
    (hn24 : n ≤ 2 ^ 24 + 1) (st0 : TreeArrays) (dim : ℕ) (la2 : ℤ → Box dim) :
    ∃ ta ps, build_tree n mcodes st0 = some ta ∧
      propagate_aabbs dim n ta la2 = some ps ∧
      ∀ i : ℤ, 0 ≤ i → i < n - 1 →
        ps.counters i = 2 ∧ ps.wcount i = 1 ∧
        ps.inner_aabbs i =
          addBox
            (if n - 1 ≤ ta.lchild i then la2 (ta.lchild i - (n - 1))
             else ps.inner_aabbs (ta.lchild i))
            (if n - 1 ≤ ta.rchild i then la2 (ta.rchild i - (n - 1))
             else ps.inner_aabbs (ta.rchild i)) := by
  have hn2 := H.two_le
  obtain ⟨fam, ta, hfam, hbt, hch, hpar, hroot, _, _⟩ := H.build_tree_ok hn24 st0
  obtain ⟨ps, hpp, hPre⟩ := H.propagate_ok hfam hch hpar hroot dim la2
  refine ⟨ta, ps, hbt, hpp, ?_⟩
  intro i h0 h1
  obtain ⟨r, hr, hrie⟩ : ∃ r ∈ fam, r.e = i := by
    by_cases hi0 : i = 0
    · exact ⟨⟨0, 0, n - 1, gammaOf n mcodes 0⟩, hfam.self_mem, hi0.symm⟩
    · exact hfam.rep_cover i (by omega) (by omega)
  have hab := (hfam.inv_all r hr).hab
  obtain ⟨hg1, hg2⟩ := hfam.g_range r hr
  obtain ⟨hv1, hv2⟩ := hfam.nested r hr
  obtain ⟨hc1, hc2, hc3⟩ := hPre r hr
  rw [hrie] at hc1 hc2 hc3
  obtain ⟨hcl, hcr⟩ := hch r hr
  rw [hrie] at hcl hcr
  have hboxL : (if n - 1 ≤ ta.lchild i then la2 (ta.lchild i - (n - 1))
      else ps.inner_aabbs (ta.lchild i)) = unionRange dim la2 r.a r.g := by
    by_cases hlf : r.a = r.g
    · have hv : ta.lchild i = r.g + (n - 1) := by
        rw [hcl]
        unfold childL
        rw [if_pos hlf]
      rw [hv, if_pos (by omega), show r.g + (n - 1) - (n - 1) = r.g from by ring,
        hlf, unionRange_self]
    · have hv : ta.lchild i = r.g := by
        rw [hcl]
        unfold childL
        rw [if_neg hlf]
      rw [hv, if_neg (by omega)]
      have hmemc := hfam.childL_mem r hr (by omega)
      have h := (hPre _ hmemc).2.1 (by dsimp only; omega)
      exact h
  have hboxR : (if n - 1 ≤ ta.rchild i then la2 (ta.rchild i - (n - 1))
      else ps.inner_aabbs (ta.rchild i)) = unionRange dim la2 (r.g + 1) r.b := by
    by_cases hlf : r.b = r.g + 1
    · have hv : ta.rchild i = r.g + 1 + (n - 1) := by
        rw [hcr]
        unfold childR
        rw [if_pos hlf]
      rw [hv, if_pos (by omega),
        show r.g + 1 + (n - 1) - (n - 1) = r.g + 1 from by ring, ← hlf,
        show r.b = r.g + 1 from hlf, unionRange_self]
    · have hv : ta.rchild i = r.g + 1 := by
        rw [hcr]
        unfold childR
        rw [if_neg hlf]
      rw [hv, if_neg (by omega)]
      have hmemc := hfam.childR_mem r hr (by omega)
      have h := (hPre _ hmemc).2.1 (by dsimp only; omega)
      exact h
  refine ⟨?_, ?_, ?_⟩
  · rw [hc1]
    unfold cnt
    rw [if_pos (by omega)]
  · rw [hc3]
    unfold doneW
    rw [if_pos (by omega)]
  · rw [hboxL, hboxR, unionRange_split dim la2 hg1 hg2]
    exact hc2 (by omega)

/-- C2 witness: four sorted Morton codes `0, 1, 2, 3` in one dimension. -/
theorem claim_C2_witness :
    ∃ ta ps, build_tree 4 Int.toNat ⟨fun _ => 0, fun _ => 0, fun _ => 0⟩ =
        some ta ∧
      propagate_aabbs 1 4 ta (fun _ => invalidBox 1) = some ps ∧
      ∀ i : ℤ, 0 ≤ i → i < 4 - 1 →
        ps.counters i = 2 ∧ ps.wcount i = 1 ∧
        ps.inner_aabbs i =
          addBox
            (if 4 - 1 ≤ ta.lchild i then
              (fun _ => invalidBox 1) (ta.lchild i - (4 - 1))
             else ps.inner_aabbs (ta.lchild i))
            (if 4 - 1 ≤ ta.rchild i then
              (fun _ => invalidBox 1) (ta.rchild i - (4 - 1))
             else ps.inner_aabbs (ta.rchild i)) :=
  claim_C2 4 Int.toNat
    ⟨by norm_num, by norm_num, fun k h1 h2 => by omega, fun j k h1 h2 h3 => by omega⟩
    (by norm_num) ⟨fun _ => 0, fun _ => 0, fun _ => 0⟩ 1 (fun _ => invalidBox 1)

/-! ### Claim C6 -/

theorem sortIter_one (mc : ℤ → ℕ) : sortIter 1 mc = [0] := by
  have h := sortIter_perm 1 mc
  rw [show List.range 1 = [0] from rfl] at h
  have h1 := h.length_eq
  simp at h1
  obtain ⟨a, ha⟩ := List.length_eq_one.1 h1
  rw [ha] at h ⊢
  have ha0 : a ∈ [0] := h.subset (by simp)
  simp at ha0
  simp [ha0]

/-- C6: the single-primitive build is degenerate but fully completes: the
pipeline returns, the lone leaf is the entire tree (its parent slot is the
root sentinel `-1`, from the allocation special case), no internal node is
ever counted or written, and the leaf storage holds the scaled copy of the one
input box under the identity permutation. -/
theorem claim_C6 (dim : ℕ) (boxes : ℤ → Box dim) (sf : ℚ) :
    ∃ out, build_radix_tree dim boxes 1 sf = some out ∧
      out.arrays.parent 0 = -1 ∧
      out.prop.counters 0 = 0 ∧ out.prop.wcount 0 = 0 ∧
      out.leafs 0 = 0 ∧
      out.leaf_aabbs 0 = scaleBox sf (boxes 0) := by
  have h20 : ∀ mc0 : ℤ → ℕ, (sort_mcodes 1 mc0 (fun _ => (0 : ℤ))).2 0 = 0 := by
    intro mc0
    show (if (0 : ℤ) ≤ 0 ∧ (0 : ℤ) < 1 then
        ((sortIter (1 : ℤ).toNat mc0).getD (0 : ℤ).toNat 0 : ℤ)
      else (fun _ => (0 : ℤ)) 0) = 0
    rw [if_pos ⟨le_rfl, by norm_num⟩, show ((1 : ℤ)).toNat = 1 from rfl,
      sortIter_one]
    rfl
  refine ⟨_, rfl, rfl, rfl, rfl, h20 _, ?_⟩
  show (if (0 : ℤ) ≤ 0 ∧ (0 : ℤ) < 1 then
      transform_boxes dim boxes (fun _ => invalidBox dim) 1 sf
        ((sort_mcodes 1 (get_mcodes dim
          (transform_boxes dim boxes (fun _ => invalidBox dim) 1 sf) 1
          (reduce dim (transform_boxes dim boxes (fun _ => invalidBox dim) 1 sf)
            1) (fun _ => 0)) (fun _ => 0)).2 0)
    else transform_boxes dim boxes (fun _ => invalidBox dim) 1 sf 0) =
    scaleBox sf (boxes 0)
  rw [if_pos ⟨le_rfl, by norm_num⟩, h20 _]
  unfold transform_boxes
  rw [if_pos ⟨le_rfl, by norm_num⟩]

/-! ### Claim C9 -/

/-- C9: in `get_mcodes`, a dimension with zero extent gets inverse extent `0`
instead of a division by zero — for every input the inverse extent is either
the guarded `0` or a division by a provably nonzero extent — and along a
zero-extent axis every centroid normalizes to coordinate `0` and encodes to
integer coordinate `0`; in range, `get_mcodes` encodes exactly these guarded
normalized centroids. -/
theorem claim_C9 (dim : ℕ) (aabbs : ℤ → Box dim) (size : ℤ) (bounds : Box dim)
    (mcodes0 : ℤ → ℕ) (d : Fin dim) :
    ((if isNearlyEqual (bounds.hi d - bounds.lo d) 0 then (0 : ℚ)
      else 1 / (bounds.hi d - bounds.lo d)) = 0 ∨
      bounds.hi d - bounds.lo d ≠ 0) ∧
    (bounds.hi d - bounds.lo d = 0 →
      (if isNearlyEqual (bounds.hi d - bounds.lo d) 0 then (0 : ℚ)
       else 1 / (bounds.hi d - bounds.lo d)) = 0 ∧
      ∀ i : ℤ,
        (centroid (aabbs i) d - bounds.lo d) *
          (if isNearlyEqual (bounds.hi d - bounds.lo d) 0 then (0 : ℚ)
           else 1 / (bounds.hi d - bounds.lo d)) = 0 ∧
        (Int.floor (min (max ((centroid (aabbs i) d - bounds.lo d) *
            (if isNearlyEqual (bounds.hi d - bounds.lo d) 0 then (0 : ℚ)
             else 1 / (bounds.hi d - bounds.lo d)) * 2 ^ (32 / dim)) 0)
          ((2 : ℚ) ^ (32 / dim) - 1))).toNat = 0) ∧
    (∀ i : ℤ, 0 ≤ i → i < size →
      get_mcodes dim aabbs size bounds mcodes0 i =
        morton32_encode dim (fun e => (centroid (aabbs i) e - bounds.lo e) *
          (if isNearlyEqual (bounds.hi e - bounds.lo e) 0 then (0 : ℚ)
           else 1 / (bounds.hi e - bounds.lo e)))) := by
  have hceil : (0 : ℚ) ≤ (2 : ℚ) ^ (32 / dim) - 1 := by
    have : (1 : ℚ) ≤ 2 ^ (32 / dim) := one_le_pow₀ (by norm_num)
    linarith
  refine ⟨?_, ?_, ?_⟩
  · by_cases hne : isNearlyEqual (bounds.hi d - bounds.lo d) 0
    · left
      rw [if_pos hne]
    · right
      intro hz
      apply hne
      rw [hz]
      unfold isNearlyEqual
      norm_num
  · intro hz
    have hne : isNearlyEqual (bounds.hi d - bounds.lo d) 0 := by
      rw [hz]
      unfold isNearlyEqual
      norm_num
    rw [if_pos hne]
    refine ⟨rfl, ?_⟩
    intro i
    rw [mul_zero, zero_mul, max_self, min_eq_left hceil, Int.floor_zero]
    exact ⟨rfl, rfl⟩
  · intro i h1 h2
    unfold get_mcodes
    dsimp only
    rw [if_pos ⟨h1, h2⟩]

/-- C9 witness: one dimension, a degenerate global box at the origin. -/
theorem claim_C9_witness :
    (((if isNearlyEqual ((⟨fun _ => 0, fun _ => 0⟩ : Box 1).hi 0 -
          (⟨fun _ => 0, fun _ => 0⟩ : Box 1).lo 0) 0 then (0 : ℚ)
       else 1 / ((⟨fun _ => 0, fun _ => 0⟩ : Box 1).hi 0 -
          (⟨fun _ => 0, fun _ => 0⟩ : Box 1).lo 0)) = 0 ∨
      (⟨fun _ => 0, fun _ => 0⟩ : Box 1).hi 0 -
        (⟨fun _ => 0, fun _ => 0⟩ : Box 1).lo 0 ≠ 0)) ∧
    ((⟨fun _ => 0, fun _ => 0⟩ : Box 1).hi 0 -
        (⟨fun _ => 0, fun _ => 0⟩ : Box 1).lo 0 = 0 →
      (if isNearlyEqual ((⟨fun _ => 0, fun _ => 0⟩ : Box 1).hi 0 -
          (⟨fun _ => 0, fun _ => 0⟩ : Box 1).lo 0) 0 then (0 : ℚ)
       else 1 / ((⟨fun _ => 0, fun _ => 0⟩ : Box 1).hi 0 -
          (⟨fun _ => 0, fun _ => 0⟩ : Box 1).lo 0)) = 0 ∧
      ∀ i : ℤ,
        (centroid ((fun _ => ⟨fun _ => 0, fun _ => 0⟩ : ℤ → Box 1) i) 0 -
            (⟨fun _ => 0, fun _ => 0⟩ : Box 1).lo 0) *
          (if isNearlyEqual ((⟨fun _ => 0, fun _ => 0⟩ : Box 1).hi 0 -
              (⟨fun _ => 0, fun _ => 0⟩ : Box 1).lo 0) 0 then (0 : ℚ)
           else 1 / ((⟨fun _ => 0, fun _ => 0⟩ : Box 1).hi 0 -
              (⟨fun _ => 0, fun _ => 0⟩ : Box 1).lo 0)) = 0 ∧
        (Int.floor (min (max ((centroid
            ((fun _ => ⟨fun _ => 0, fun _ => 0⟩ : ℤ → Box 1) i) 0 -
              (⟨fun _ => 0, fun _ => 0⟩ : Box 1).lo 0) *
            (if isNearlyEqual ((⟨fun _ => 0, fun _ => 0⟩ : Box 1).hi 0 -
                (⟨fun _ => 0, fun _ => 0⟩ : Box 1).lo 0) 0 then (0 : ℚ)
             else 1 / ((⟨fun _ => 0, fun _ => 0⟩ : Box 1).hi 0 -
                (⟨fun _ => 0, fun _ => 0⟩ : Box 1).lo 0)) * 2 ^ (32 / 1)) 0)
          ((2 : ℚ) ^ (32 / 1) - 1))).toNat = 0) ∧
    (∀ i : ℤ, 0 ≤ i → i < 1 →
      get_mcodes 1 (fun _ => ⟨fun _ => 0, fun _ => 0⟩) 1
          (⟨fun _ => 0, fun _ => 0⟩ : Box 1) (fun _ => 0) i =
        morton32_encode 1 (fun e =>
          (centroid ((fun _ => ⟨fun _ => 0, fun _ => 0⟩ : ℤ → Box 1) i) e -
            (⟨fun _ => 0, fun _ => 0⟩ : Box 1).lo e) *
          (if isNearlyEqual ((⟨fun _ => 0, fun _ => 0⟩ : Box 1).hi e -
              (⟨fun _ => 0, fun _ => 0⟩ : Box 1).lo e) 0 then (0 : ℚ)
           else 1 / ((⟨fun _ => 0, fun _ => 0⟩ : Box 1).hi e -
              (⟨fun _ => 0, fun _ => 0⟩ : Box 1).lo e)))) :=
  claim_C9 1 (fun _ => ⟨fun _ => 0, fun _ => 0⟩) 1 ⟨fun _ => 0, fun _ => 0⟩
    (fun _ => 0) 0

/-! ### The pipeline succeeds: Morton codes are 32-bit and come out sorted -/

theorem sum_two_pow (m : ℕ) : ∑ k ∈ Finset.range m, 2 ^ k = 2 ^ m - 1 := by
  induction m with
  | zero => rfl
  | succ m ih =>
    rw [Finset.sum_range_succ, ih, pow_succ]
    have : 1 ≤ 2 ^ m := Nat.one_le_two_pow
    omega

set_option maxHeartbeats 1000000 in
theorem convertPointToMorton_lt (dim : ℕ) (hdim : 1 ≤ dim)
    (coords : Fin dim → ℕ) : convertPointToMorton dim coords < 2 ^ 32 := by
  unfold convertPointToMorton
  have hstep : ∑ d : Fin dim, ∑ b ∈ Finset.range (32 / dim),
      (if (coords d).testBit b then 2 ^ (b * dim + d.val) else 0) ≤
      ∑ d : Fin dim, ∑ b ∈ Finset.range (32 / dim), 2 ^ (b * dim + d.val) := by
    apply Finset.sum_le_sum
    intro d _
    apply Finset.sum_le_sum
    intro b _
    split_ifs
    · exact le_rfl
    · exact Nat.zero_le _
  have hprod : ∑ d : Fin dim, ∑ b ∈ Finset.range (32 / dim),
      2 ^ (b * dim + d.val) =
      ∑ p ∈ (Finset.univ ×ˢ Finset.range (32 / dim) :
        Finset (Fin dim × ℕ)), 2 ^ (p.2 * dim + p.1.val) :=
    (Finset.sum_product Finset.univ (Finset.range (32 / dim))
      (fun p : Fin dim × ℕ => 2 ^ (p.2 * dim + p.1.val))).symm
  have hinj : ∀ p1 ∈ (Finset.univ ×ˢ Finset.range (32 / dim) :
      Finset (Fin dim × ℕ)), ∀ p2 ∈ (Finset.univ ×ˢ Finset.range (32 / dim) :
      Finset (Fin dim × ℕ)),
      p1.2 * dim + p1.1.val = p2.2 * dim + p2.1.val → p1 = p2 := by
    rintro ⟨d1, b1⟩ _ ⟨d2, b2⟩ _ he
    dsimp only at he
    have hd1 : d1.val < dim := d1.isLt
    have hd2 : d2.val < dim := d2.isLt
    have hb : b1 = b2 := by
      by_contra hne
      rcases Nat.lt_or_ge b1 b2 with h | h
      · have h1 : (b1 + 1) * dim ≤ b2 * dim := Nat.mul_le_mul_right dim h
        have h2 : (b1 + 1) * dim = b1 * dim + dim := by ring
        omega
      · have h' : b2 < b1 := by omega
        have h1 : (b2 + 1) * dim ≤ b1 * dim := Nat.mul_le_mul_right dim h'
        have h2 : (b2 + 1) * dim = b2 * dim + dim := by ring
        omega
    subst hb
    have hd : d1 = d2 := Fin.ext (by omega)
    rw [hd]
  have himg : ∑ p ∈ (Finset.univ ×ˢ Finset.range (32 / dim) :
      Finset (Fin dim × ℕ)), 2 ^ (p.2 * dim + p.1.val) =
      ∑ k ∈ (Finset.univ ×ˢ Finset.range (32 / dim) :
        Finset (Fin dim × ℕ)).image (fun p => p.2 * dim + p.1.val), 2 ^ k :=
    (Finset.sum_image hinj).symm
  have hsub : (Finset.univ ×ˢ Finset.range (32 / dim) :
      Finset (Fin dim × ℕ)).image (fun p => p.2 * dim + p.1.val) ⊆
      Finset.range 32 := by
    intro k hk
    rw [Finset.mem_image] at hk
    obtain ⟨⟨d, b⟩, hp, hval⟩ := hk
    rw [Finset.mem_product, Finset.mem_range] at hp
    have hd : d.val < dim := d.isLt
    have hb : b + 1 ≤ 32 / dim := hp.2
    have h1 : (b + 1) * dim ≤ (32 / dim) * dim := Nat.mul_le_mul_right dim hb
    have h2 : (32 / dim) * dim ≤ 32 := Nat.div_mul_le_self 32 dim
    have h3 : (b + 1) * dim = b * dim + dim := by ring
    rw [Finset.mem_range]
    dsimp only at hval
    omega
  have hle : ∑ k ∈ (Finset.univ ×ˢ Finset.range (32 / dim) :
      Finset (Fin dim × ℕ)).image (fun p => p.2 * dim + p.1.val), 2 ^ k ≤
      ∑ k ∈ Finset.range 32, 2 ^ k :=
    Finset.sum_le_sum_of_subset hsub
  rw [sum_two_pow] at hle
  omega

theorem morton32_encode_lt (dim : ℕ) (hdim : 1 ≤ dim) (point : Fin dim → ℚ) :
    morton32_encode dim point < 2 ^ 32 := by
  unfold morton32_encode
  exact convertPointToMorton_lt dim hdim _

/-- The permutation stays inside `[0, n)`. -/
theorem sort_mcodes_iter_range (n : ℤ) (mc0 : ℤ → ℕ) (it0 : ℤ → ℤ) {p : ℤ}
    (h0 : 0 ≤ p) (h1 : p < n) :
    0 ≤ (sort_mcodes n mc0 it0).2 p ∧ (sort_mcodes n mc0 it0).2 p < n := by
  have hlen := sortIter_length n.toNat mc0
  have hp : p.toNat < (sortIter n.toNat mc0).length := by omega
  rw [sort_mcodes_iter_eq n mc0 it0 h0 h1 hp]
  have hmem : (sortIter n.toNat mc0)[p.toNat] ∈ sortIter n.toNat mc0 :=
    List.getElem_mem _
  have := (sortIter_perm n.toNat mc0).subset hmem
  rw [List.mem_range] at this
  omega

/-- The codes read through the permutation are non-decreasing. -/
theorem sort_mcodes_sorted (n : ℤ) (mc0 : ℤ → ℕ) (it0 : ℤ → ℤ) :
    ∀ p q : ℤ, 0 ≤ p → p ≤ q → q < n →
      mc0 ((sort_mcodes n mc0 it0).2 p) ≤ mc0 ((sort_mcodes n mc0 it0).2 q) := by
  have hlen := sortIter_length n.toNat mc0
  intro p q hp0 hpq hqn
  rcases eq_or_lt_of_le hpq with rfl | hlt
  · exact le_rfl
  · have hplen : p.toNat < (sortIter n.toNat mc0).length := by omega
    have hqlen : q.toNat < (sortIter n.toNat mc0).length := by omega
    rw [sort_mcodes_iter_eq n mc0 it0 hp0 (by omega) hplen,
      sort_mcodes_iter_eq n mc0 it0 (by omega) hqn hqlen]
    have hpw := List.pairwise_iff_getElem.1 (sortIter_sorted n.toNat mc0)
      p.toNat q.toNat hplen hqlen (by omega)
    rw [mortonLe_iff] at hpw
    omega

/-- The code array coming out of the sort stage satisfies all the hypotheses
`build_tree` needs. -/
theorem stage_sorted (dim : ℕ) (hdim : 1 ≤ dim) (la : ℤ → Box dim) (size : ℤ)
    (h2 : 2 ≤ size) (h32 : size ≤ 2 ^ 32) (bounds : Box dim)
    (mcodes0 : ℤ → ℕ) (it0 : ℤ → ℤ) :
    SortedCodes size
      (sort_mcodes size (get_mcodes dim la size bounds mcodes0) it0).1 := by
  refine ⟨h2, h32, ?_, ?_⟩
  · intro k hk0 hkn
    rw [sort_mcodes_mc_eq size _ it0 hk0 hkn]
    obtain ⟨hi0, hin⟩ := sort_mcodes_iter_range size _ it0 hk0 hkn
    unfold get_mcodes
    dsimp only
    rw [if_pos ⟨hi0, hin⟩]
    exact morton32_encode_lt dim hdim _
  · intro j k hj0 hjk hkn
    rw [sort_mcodes_mc_eq size _ it0 hj0 (by omega),
      sort_mcodes_mc_eq size _ it0 (by omega) hkn]
    exact sort_mcodes_sorted size _ it0 j k hj0 hjk hkn

/-- For at least two primitives within the no-wrap domain `size ≤ 2^24 + 1`
the whole pipeline returns. -/
theorem pipeline_some (dim : ℕ) (boxes : ℤ → Box dim) (size : ℤ) (sf : ℚ)
    (h2 : 2 ≤ size) (h32 : size ≤ 2 ^ 32) (h24 : size ≤ 2 ^ 24 + 1)
    (hdim : 1 ≤ dim) :
    ∃ out, build_radix_tree dim boxes size sf = some out := by
  have hS := stage_sorted dim hdim
    (transform_boxes dim boxes (fun _ => invalidBox dim) size sf) size h2 h32
    (reduce dim (transform_boxes dim boxes (fun _ => invalidBox dim) size sf)
      size) (fun _ => 0) (fun _ => 0)
  obtain ⟨fam, ta, hfam, hbt, hch, hpar, hroot, _, _⟩ :=
    hS.build_tree_ok h24 ⟨fun _ => 0, fun _ => 0, allocParent size⟩
  obtain ⟨ps, hpp, _⟩ := hS.propagate_ok hfam hch hpar hroot dim
    (reorder (sort_mcodes size (get_mcodes dim
      (transform_boxes dim boxes (fun _ => invalidBox dim) size sf) size
      (reduce dim (transform_boxes dim boxes (fun _ => invalidBox dim) size sf)
        size) (fun _ => 0)) (fun _ => 0)).2
      (transform_boxes dim boxes (fun _ => invalidBox dim) size sf) size)
  have h : build_radix_tree dim boxes size sf = some
      ⟨reduce dim (transform_boxes dim boxes (fun _ => invalidBox dim) size sf)
        size,
      reorder (sort_mcodes size (get_mcodes dim
        (transform_boxes dim boxes (fun _ => invalidBox dim) size sf) size
        (reduce dim (transform_boxes dim boxes (fun _ => invalidBox dim) size
          sf) size) (fun _ => 0)) (fun _ => 0)).2
        (transform_boxes dim boxes (fun _ => invalidBox dim) size sf) size,
      (sort_mcodes size (get_mcodes dim
        (transform_boxes dim boxes (fun _ => invalidBox dim) size sf) size
        (reduce dim (transform_boxes dim boxes (fun _ => invalidBox dim) size
          sf) size) (fun _ => 0)) (fun _ => 0)).1,
      (sort_mcodes size (get_mcodes dim
        (transform_boxes dim boxes (fun _ => invalidBox dim) size sf) size
        (reduce dim (transform_boxes dim boxes (fun _ => invalidBox dim) size
          sf) size) (fun _ => 0)) (fun _ => 0)).2,
      ta, ps⟩ := by
    unfold build_radix_tree
    dsimp only
    rw [hbt]
    dsimp only
    rw [hpp]
  exact ⟨_, h⟩

/-- The memory-level pipeline returns under the same conditions, for any
initial contents of the tree arrays. -/
theorem pipeline_mem_some (dim : ℕ) (size : ℤ) (sf : ℚ) (m0 : BvhMem dim)
    (h2 : 2 ≤ size) (h32 : size ≤ 2 ^ 32) (h24 : size ≤ 2 ^ 24 + 1)
    (hdim : 1 ≤ dim) :
    ∃ out, build_radix_tree_mem dim size sf m0 = some out := by
  have hS := stage_sorted dim hdim
    (transform_boxes dim m0.input m0.leaf_aabbs size sf) size h2 h32
    (reduce dim (transform_boxes dim m0.input m0.leaf_aabbs size sf) size)
    m0.mcodes m0.leafs
  obtain ⟨fam, ta, hfam, hbt, hch, hpar, hroot, _, _⟩ :=
    hS.build_tree_ok h24 ⟨m0.lchild, m0.rchild, m0.parent⟩
  obtain ⟨ps, hpp, _⟩ := hS.propagate_ok hfam hch hpar hroot dim
    (reorder (sort_mcodes size (get_mcodes dim
      (transform_boxes dim m0.input m0.leaf_aabbs size sf) size
      (reduce dim (transform_boxes dim m0.input m0.leaf_aabbs size sf) size)
      m0.mcodes) m0.leafs).2
      (transform_boxes dim m0.input m0.leaf_aabbs size sf) size)
  have h : build_radix_tree_mem dim size sf m0 = some
      (⟨m0.input,
        reorder (sort_mcodes size (get_mcodes dim
          (transform_boxes dim m0.input m0.leaf_aabbs size sf) size
          (reduce dim (transform_boxes dim m0.input m0.leaf_aabbs size sf)
            size) m0.mcodes) m0.leafs).2
          (transform_boxes dim m0.input m0.leaf_aabbs size sf) size,
        (sort_mcodes size (get_mcodes dim
          (transform_boxes dim m0.input m0.leaf_aabbs size sf) size
          (reduce dim (transform_boxes dim m0.input m0.leaf_aabbs size sf)
            size) m0.mcodes) m0.leafs).1,
        (sort_mcodes size (get_mcodes dim
          (transform_boxes dim m0.input m0.leaf_aabbs size sf) size
          (reduce dim (transform_boxes dim m0.input m0.leaf_aabbs size sf)
            size) m0.mcodes) m0.leafs).2,
        ta.lchild, ta.rchild, ta.parent, ps.counters, ps.inner_aabbs⟩,
      reduce dim (transform_boxes dim m0.input m0.leaf_aabbs size sf) size) := by
    unfold build_radix_tree_mem
    dsimp only
    rw [hbt]
    dsimp only
    rw [hpp]
  exact ⟨_, h⟩

/-- C8 witness: two unit boxes in one dimension. -/
theorem claim_C8_witness :
    ∃ out, build_radix_tree 1
        (fun i => ⟨fun _ => (i : ℚ), fun _ => (i : ℚ) + 1⟩) 2 1 = some out ∧
      (((List.range (2 : ℤ).toNat).map (fun k => out.leafs (Int.ofNat k))).Perm
        ((List.range (2 : ℤ).toNat).map Int.ofNat) ∧
      (∀ p : ℤ, 0 ≤ p → p < 2 →
        out.leaf_aabbs p =
          transform_boxes 1 (fun i => ⟨fun _ => (i : ℚ), fun _ => (i : ℚ) + 1⟩)
            (fun _ => invalidBox 1) 2 1 (out.leafs p))) := by
  obtain ⟨out, hout⟩ := pipeline_some 1
    (fun i => ⟨fun _ => (i : ℚ), fun _ => (i : ℚ) + 1⟩) 2 1 (by norm_num)
    (by norm_num) (by norm_num) le_rfl
  exact ⟨out, hout, claim_C8 1 _ 2 1 out hout⟩

/-- C10 witness: two unit boxes in one dimension, junk-filled tree arrays. -/
theorem claim_C10_witness :
    ∃ out, build_radix_tree_mem 1 2 1
        ⟨fun i => ⟨fun _ => (i : ℚ), fun _ => (i : ℚ) + 1⟩,
         fun _ => invalidBox 1, fun _ => 0, fun _ => 0, fun _ => 0, fun _ => 0,
         fun _ => 0, fun _ => 0, fun _ => invalidBox 1⟩ = some out ∧
      (out.1.input = (fun i => ⟨fun _ => (i : ℚ), fun _ => (i : ℚ) + 1⟩) ∧
      (∀ i : ℤ, 0 ≤ i → i < 2 →
        out.1.leaf_aabbs i =
          transform_boxes 1 (fun i => ⟨fun _ => (i : ℚ), fun _ => (i : ℚ) + 1⟩)
            (fun _ => invalidBox 1) 2 1 (out.1.leafs i))) := by
  obtain ⟨out, hout⟩ := pipeline_mem_some 1 2 1
    ⟨fun i => ⟨fun _ => (i : ℚ), fun _ => (i : ℚ) + 1⟩,
     fun _ => invalidBox 1, fun _ => 0, fun _ => 0, fun _ => 0, fun _ => 0,
     fun _ => 0, fun _ => 0, fun _ => invalidBox 1⟩ (by norm_num) (by norm_num)
    (by norm_num) le_rfl
  exact ⟨out, hout, claim_C10 1 2 1 _ out hout⟩

/-! ### The overflow divergence: `n = 2^30 + 2` with all-equal codes

With every Morton code equal (a legal sorted input) and `n = 2^30 + 2`, the
doubling loop of internal node 0 runs with `min_delta = -1` and an always-true
in-range probe, so the source's `int32` `lmax` doubles past `2^30` and wraps
to `-2^31`; the binary search then runs zero iterations (`t = lmax/2 < 1`)
and yields range length `l = 0`; and with `l = 0` the split-point loop
computes `t = ceil(0 / div_factor) = 0` on every pass and never reaches its
`t == 1` exit: `build_tree` does not terminate on an input the unamended
claims quantify over. -/

theorem cex_sorted : SortedCodes (2 ^ 30 + 2) (fun _ => 0) :=
  ⟨by norm_num, by norm_num, fun k h1 h2 => by norm_num, fun j k h1 h2 h3 => le_rfl⟩

set_option maxRecDepth 40000 in
theorem cex_lmax_wrap :
    nodeLmax (2 ^ 30 + 2) (fun _ => 0) 0 = some (-(2 ^ 31)) := by decide

theorem cex_len_zero :
    nodeL (2 ^ 30 + 2) (fun _ => 0) 0 (-(2 ^ 31)) = 0 := by decide

/-- With range length 0 every split-point pass computes `t = 0` and the
`t == 1` exit is never reached: the loop returns for no fuel at all. -/
theorem splitLoop_zero_none (i d dn inner : ℤ) (mcodes : ℤ → ℕ) :
    ∀ (f k : ℕ) (s : ℤ), splitLoop i d dn inner mcodes 0 f k s = none := by
  intro f
  induction f with
  | zero =>
    intro k s
    rfl
  | succ f ih =>
    intro k s
    simp only [splitLoop, ceilPow_zero]
    rw [if_neg (by norm_num : ¬(0 : ℕ) = 1)]
    exact ih (k + 1) _

set_option maxRecDepth 40000 in
theorem cex_buildNode_none :
    buildNode (2 ^ 30 + 2) (fun _ => 0) 0 = none := by decide

theorem cex_build_tree_none :
    build_tree (2 ^ 30 + 2) (fun _ => 0) ⟨fun _ => 0, fun _ => 0, fun _ => 0⟩ =
      none := by
  unfold build_tree
  have e1 : ((2 ^ 30 + 2 : ℤ) - 1).toNat = 2 ^ 30 + 1 := by decide
  rw [e1, List.range_succ_eq_map, List.map_cons, List.foldlM_cons]
  have h0 : buildStep (2 ^ 30 + 2) (fun _ => 0) ⟨fun _ => 0, fun _ => 0, fun _ => 0⟩
      (Int.ofNat 0) = none := by
    unfold buildStep
    rw [show (Int.ofNat 0 : ℤ) = 0 from rfl, cex_buildNode_none]
    rfl
  rw [h0]
  rfl

/-- C1 counterexample to the unamended claim: `n = 2^30 + 2` with all-equal
(sorted, 32-bit) codes lies inside the original claim's domain `n ≥ 2`, yet
`build_tree` — the source's `int32` doubling wraps `lmax` to `-2^31`, the
binary search then returns range length 0, and the split-point loop never
exits — does not complete at all, so no strictly binary tree is produced. -/
theorem claim_C1_cex :
    SortedCodes (2 ^ 30 + 2) (fun _ => 0) ∧
      build_tree (2 ^ 30 + 2) (fun _ => 0) ⟨fun _ => 0, fun _ => 0, fun _ => 0⟩ =
        none :=
  ⟨cex_sorted, cex_build_tree_none⟩

/-- C2 counterexample to the unamended claim: on the same in-domain input no
tree is ever handed to `propagate_aabbs`, because `build_tree` itself does
not terminate — the claimed counter/write-once/union behaviour cannot be
established for the source on all of `n ≥ 2`. -/
theorem claim_C2_cex :
    SortedCodes (2 ^ 30 + 2) (fun _ => 0) ∧
      ∀ (ta : TreeArrays) (ps : PropState 1),
        ¬(build_tree (2 ^ 30 + 2) (fun _ => 0)
            ⟨fun _ => 0, fun _ => 0, fun _ => 0⟩ = some ta ∧
          propagate_aabbs 1 (2 ^ 30 + 2) ta (fun _ => invalidBox 1) = some ps) := by
  refine ⟨cex_sorted, ?_⟩
  intro ta ps h
  rw [cex_build_tree_none] at h
  exact Option.noConfusion h.1

/-- C4 counterexample to the unamended claim: at `n = 2^30 + 2` with all-equal
sorted codes, internal node 0's `int32` doubling loop wraps `lmax` to
`-2^31`, the binary search returns range length `l = 0`, and the split-point
loop then returns for no fuel whatsoever — the loops of the source do not all
terminate on the original claim's domain, and the node computation fails. -/
theorem claim_C4_cex :
    SortedCodes (2 ^ 30 + 2) (fun _ => 0) ∧
      nodeLmax (2 ^ 30 + 2) (fun _ => 0) 0 = some (-(2 ^ 31)) ∧
      nodeL (2 ^ 30 + 2) (fun _ => 0) 0 (-(2 ^ 31)) = 0 ∧
      (∀ (f k : ℕ) (s : ℤ),
        splitLoop 0 (nodeD (2 ^ 30 + 2) (fun _ => 0) 0)
          (nodeDn (2 ^ 30 + 2) (fun _ => 0) 0 (-(2 ^ 31))) (2 ^ 30 + 2 - 1)
          (fun _ => 0) 0 f k s = none) ∧
      buildNode (2 ^ 30 + 2) (fun _ => 0) 0 = none :=
  ⟨cex_sorted, cex_lmax_wrap, cex_len_zero,
    fun f k s => splitLoop_zero_none _ _ _ _ _ f k s, cex_buildNode_none⟩

end SpinBvh
